import Mathlib

/-!
# Mask-Searcher: a shallow embedding of `main.cpp` and `PNG.h` / `PNG.cpp`

The program scans a main image for placements of a mask image, scores every
placement against an estimated background colour, ranks the placements that
pass a threshold and greedily keeps the ones that do not overlap.

Modelling conventions
* `std::string` is a list of characters (`Str`).
* `int` is `Int`; signed overflow is undefined in C++, so no wrap-around is
  modelled and the theorems that need it assume the values fit.
* `unsigned char` is `Fin 256`.
* Undefined behaviour (a read outside the flat buffer, a division by zero, the
  use of a variable that no extraction has set) is the result `none`.
* `for (int i = 0; i < n; ++i)` is a fold over `List.range n.toNat`.
* A loop whose bound changes while it runs takes fuel, with a lemma that the
  fuel given is never used up.
* The text written to `std::cout` is a string, `std::endl` a line feed.
* `std::sort` is an insertion sort with the comparator; the lemmas show that on
  distinct encoded regions every output meeting the contract of the sort is
  that list.
-/

namespace MaskSearcher

/-! ## Strings, `std::to_string(int)` and `stream >> int` -/

/-- A `std::string`, as its characters. -/
abbrev Str := List Char

/-- Smallest value of the 32-bit `int`. -/
def INT_MIN : Int := -2147483648

/-- Largest value of the 32-bit `int`. -/
def INT_MAX : Int := 2147483647

/-- The integer is a value of the 32-bit type `int`. -/
def IsInt (n : Int) : Prop := INT_MIN ≤ n ∧ n ≤ INT_MAX

instance (n : Int) : Decidable (IsInt n) := by
  unfold IsInt; exact inferInstance

/-- The character of a decimal digit. -/
def digitChar (d : Nat) : Char := Char.ofNat (48 + d)

/-- Decimal digits of a natural number, most significant first, in front of
`acc`; `fuel` bounds the number of digits produced. -/
def natDigitsAux : Nat → Nat → List Char → List Char
  | 0, _, acc => acc
  | fuel + 1, n, acc =>
    if n < 10 then digitChar n :: acc
    else natDigitsAux fuel (n / 10) (digitChar (n % 10) :: acc)

/-- Decimal representation of a natural number. -/
def natToString (n : Nat) : Str := natDigitsAux (n + 1) n []

/-- The library function `std::to_string(int)`: a minus sign for a negative
value, then the decimal digits. -/
def to_string (n : Int) : Str :=
  if n < 0 then '-' :: natToString (-n).toNat else natToString n.toNat

/-- The whitespace of the "C" locale, which `>>` skips. -/
def isSpace (c : Char) : Bool :=
  c = ' ' || c = '\t' || c = '\n' || c = '\r' || c.toNat = 11 || c.toNat = 12

/-- A decimal digit character. -/
def isDigit (c : Char) : Bool := 48 ≤ c.toNat && c.toNat ≤ 57

/-- Value of a decimal digit character. -/
def digitVal (c : Char) : Nat := c.toNat - 48

/-- Skip leading whitespace (the sentry of a formatted input function). -/
def skipWs : Str → Str
  | [] => []
  | c :: cs => if isSpace c then skipWs cs else c :: cs

/-- Consume the leading run of digits, accumulating its value. -/
def readDigits : Str → Nat → Nat × Str
  | [], acc => (acc, [])
  | c :: cs, acc =>
    if isDigit c then readDigits cs (acc * 10 + digitVal c) else (acc, c :: cs)

/-- Read an unsigned digit run that must start with a digit. -/
def readNat : Str → Option (Nat × Str)
  | [] => none
  | c :: cs => if isDigit c then some (readDigits (c :: cs) 0) else none

/-- The formatted extraction `stream >> num` for an `int`: skip whitespace,
accept an optional sign, read the digits. `none` is a failed extraction (the
stream gets `failbit`): end of input, no digit, or a value outside `int`.
On success the value and the unread rest of the stream are returned. -/
def extractInt (s : Str) : Option (Int × Str) :=
  match skipWs s with
  | [] => none
  | c :: cs =>
    if c = '-' then
      match readNat cs with
      | none => none
      | some (v, rest) => if INT_MIN ≤ -(v : Int) then some (-(v : Int), rest) else none
    else if c = '+' then
      match readNat cs with
      | none => none
      | some (v, rest) => if (v : Int) ≤ INT_MAX then some ((v : Int), rest) else none
    else
      match readNat (c :: cs) with
      | none => none
      | some (v, rest) => if (v : Int) ≤ INT_MAX then some ((v : Int), rest) else none

/-- The statement `read >> x >> y >> xEnd >> yEnd` on a fresh stream over the
string. A failed extraction leaves its variable and the later ones without a
parsed value, which is the result `none`. -/
def read4 (s : Str) : Option (Int × Int × Int × Int) :=
  match extractInt s with
  | none => none
  | some (x, s1) =>
    match extractInt s1 with
    | none => none
    | some (y, s2) =>
      match extractInt s2 with
      | none => none
      | some (xEnd, s3) =>
        match extractInt s3 with
        | none => none
        | some (yEnd, _) => some (x, y, xEnd, yEnd)

/-! ## `customSort` (main.cpp, lines 21-54) -/

/-- The loop `while (iss >> num) { tokens.push_back(num); if (iss.peek() == ',')
iss.ignore(); }`. Every round that continues consumes a character, so `fuel`
above the length of the string is never used up. -/
def tokensLoop : Nat → Str → List Int → List Int
  | 0, _, tokens => tokens
  | fuel + 1, s, tokens =>
    match extractInt s with
    | none => tokens
    | some (num, rest) =>
      match rest with
      | [] => tokensLoop fuel [] (tokens ++ [num])
      | c :: cs =>
        if c = ',' then tokensLoop fuel cs (tokens ++ [num])
        else tokensLoop fuel (c :: cs) (tokens ++ [num])

/-- The tokens read from a string by the loop of `customSort`. -/
def tokenize (s : Str) : List Int := tokensLoop (s.length + 1) s []

/-- The comparison loop of `customSort` over the indices still to visit, with
its two early returns and the final comparison of the sizes. -/
def compareLoop (tokensA tokensB : List Int) : List Nat → Bool
  | [] => decide (tokensA.length < tokensB.length)
  | i :: is =>
    if tokensA.getD i 0 < tokensB.getD i 0 then true
    else if tokensA.getD i 0 > tokensB.getD i 0 then false
    else compareLoop tokensA tokensB is

/-- The comparator `customSort(a, b)`. -/
def customSort (a b : Str) : Bool :=
  compareLoop (tokenize a) (tokenize b)
    (List.range (min (tokenize a).length (tokenize b).length))

/-! ## Pixels and images (PNG.h, PNG.cpp) -/

/-- An `unsigned char`. -/
abbrev Byte := Fin 256

/-- The union `Pixel`: four channel bytes, also readable as one 32-bit word. -/
structure Pixel where
  red : Byte
  green : Byte
  blue : Byte
  alpha : Byte
  deriving DecidableEq

/-- The member `rgba` of the union: the four bytes as one little-endian word
(red is the byte at the lowest address). -/
def Pixel.rgba (p : Pixel) : Nat :=
  p.red.val + 256 * p.green.val + 65536 * p.blue.val + 16777216 * p.alpha.val

/-- The word `0xff000000` of the constant `Black`, the mask-background
sentinel. -/
def BlackRgba : Nat := 0xff000000

/-- The class `PNG`: width, height and the flat row-major RGBA buffer. -/
structure PNG where
  width : Int
  height : Int
  flatImageBuffer : List Byte
  deriving DecidableEq

/-- The member `getWidth`. -/
def PNG.getWidth (p : PNG) : Int := p.width

/-- The member `getHeight`. -/
def PNG.getHeight (p : PNG) : Int := p.height

/-- The member `getBufferSize`. -/
def PNG.getBufferSize (p : PNG) : Int := p.height * p.width * 4

/-- One byte of the buffer; `none` outside it. -/
def readByte (buf : List Byte) (i : Int) : Option Byte :=
  if 0 ≤ i then buf[i.toNat]? else none

/-- The member `getPixel(row, col)`: the four bytes at
`(row * width + col) * 4`. No check is made in the source; a read that leaves
the buffer is `none`. -/
def PNG.getPixel (p : PNG) (row col : Int) : Option Pixel :=
  let idx := (row * p.width + col) * 4
  match readByte p.flatImageBuffer idx, readByte p.flatImageBuffer (idx + 1),
      readByte p.flatImageBuffer (idx + 2), readByte p.flatImageBuffer (idx + 3) with
  | some r, some g, some b, some a => some ⟨r, g, b, a⟩
  | _, _, _, _ => none

/-- Conversion of an `int` to `unsigned char`: reduction modulo 256. -/
def toByte (v : Int) : Byte := ⟨(v % 256).toNat, by omega⟩

/-! ## Background estimation and scoring (main.cpp, lines 104-181) -/

/-- The running totals `red`, `green`, `blue`, `count` of
`computeBackgroundPixel`. -/
structure BgAcc where
  red : Int
  green : Int
  blue : Int
  count : Int
  deriving DecidableEq

/-- Body of the inner loop of `computeBackgroundPixel`. The totals `red`,
`green`, `blue` and `count` are `int` in the source (line 108) and integers
here: an addition that leaves the range of `int` is undefined in the source and
is not modelled, so the statements about the values of the totals assume that
the sums fit in an `int`. -/
def bgStep (img1 mask : PNG) (startRow startCol : Int) (acc : BgAcc)
    (row col : Nat) : Option BgAcc :=
  match mask.getPixel row col with
  | none => none
  | some m =>
    if m.rgba = BlackRgba then
      match img1.getPixel (row + startRow) (col + startCol) with
      | none => none
      | some pix =>
        some ⟨acc.red + pix.red.val, acc.green + pix.green.val,
          acc.blue + pix.blue.val, acc.count + 1⟩
    else some acc

/-- The two nested loops of `computeBackgroundPixel`. -/
def bgLoop (img1 mask : PNG) (startRow startCol maxRow maxCol : Int) : Option BgAcc :=
  (List.range maxRow.toNat).foldlM
    (fun acc row => (List.range maxCol.toNat).foldlM
      (fun acc col => bgStep img1 mask startRow startCol acc row col) acc)
    ⟨0, 0, 0, 0⟩

/-- The function `computeBackgroundPixel`: the truncating `int` divisions by
`count` are undefined when `count` is zero. -/
def computeBackgroundPixel (img1 mask : PNG) (startRow startCol maxRow maxCol : Int) :
    Option Pixel :=
  match bgLoop img1 mask startRow startCol maxRow maxCol with
  | none => none
  | some acc =>
    if acc.count = 0 then none
    else some ⟨toByte (acc.red.tdiv acc.count), toByte (acc.green.tdiv acc.count),
      toByte (acc.blue.tdiv acc.count), 0⟩

/-- The condition of lines 161-163: every colour channel of the pixel differs
from the background by less than the tolerance. -/
def withinTolerance (pix background : Pixel) (tol : Int) : Bool :=
  decide (|((pix.red.val : Int) - (background.red.val : Int))| < tol)
  && decide (|((pix.green.val : Int) - (background.green.val : Int))| < tol)
  && decide (|((pix.blue.val : Int) - (background.blue.val : Int))| < tol)

/-- Body of the inner loop of `getMatchCount`; the pair is
`(matchPixCount, mismatchPixCount)`. -/
def matchStep (mainIMG maskIMG : PNG) (x y : Int) (background : Pixel) (tol : Int)
    (acc : Int × Int) (row col : Nat) : Option (Int × Int) :=
  match mainIMG.getPixel (row + x) (col + y) with
  | none => none
  | some pix =>
    match maskIMG.getPixel row col with
    | none => none
    | some m =>
      if withinTolerance pix background tol then
        if m.rgba = BlackRgba then some (acc.1 + 1, acc.2) else some (acc.1, acc.2 + 1)
      else
        if m.rgba = BlackRgba then some (acc.1, acc.2 + 1) else some (acc.1 + 1, acc.2)

/-- The two nested loops of `getMatchCount`. -/
def matchLoop (mainIMG maskIMG : PNG) (x y : Int) (background : Pixel) (tol : Int) :
    Option (Int × Int) :=
  (List.range maskIMG.getHeight.toNat).foldlM
    (fun acc row => (List.range maskIMG.getWidth.toNat).foldlM
      (fun acc col => matchStep mainIMG maskIMG x y background tol acc row col) acc)
    (0, 0)

/-- The function `getMatchCount`. -/
def getMatchCount (region : Str) (tol : Int) (mainIMG maskIMG : PNG) : Option Int :=
  match read4 region with
  | none => none
  | some (x, y, _, _) =>
    match computeBackgroundPixel mainIMG maskIMG x y maskIMG.getHeight maskIMG.getWidth with
    | none => none
    | some background =>
      match matchLoop mainIMG maskIMG x y background tol with
      | none => none
      | some (matchPixCount, mismatchPixCount) => some (matchPixCount - mismatchPixCount)

/-! ## Candidates, overlap and suppression (main.cpp, lines 195-289) -/

/-- The string pushed by `genCords` for one placement. -/
def regionString (x y xEnd yEnd : Int) : Str :=
  to_string x ++ " ".toList ++ to_string y ++ " ".toList ++ to_string xEnd
    ++ " ".toList ++ to_string yEnd

/-- The function `genCords`. -/
def genCords (maskWidth maskHeight mainWidth mainHeight : Int) : List Str :=
  (List.range (mainHeight - maskHeight + 1).toNat).foldl
    (fun coords (x : Nat) => (List.range (mainWidth - maskWidth + 1).toNat).foldl
      (fun coords (y : Nat) =>
        coords ++ [regionString x y ((x : Int) + maskHeight) ((y : Int) + maskWidth)])
      coords)
    []

/-- The function `isOverlap`. -/
def isOverlap (topLeftX topLeftY bottomRightX bottomRightY
    topLeftX2 topLeftY2 bottomRightX2 bottomRightY2 : Int) : Bool :=
  if bottomRightX < topLeftX2 || bottomRightX2 < topLeftX then false
  else if bottomRightY < topLeftY2 || bottomRightY2 < topLeftY then false
  else true

/-- The function `checkAdd`: the loop over the accepted regions, left at the
first overlap. -/
def checkAdd : List Str → Str → Option Bool
  | [], _ => some true
  | m :: ms, region =>
    match read4 m, read4 region with
    | some (a, b, c, d), some (e, f, g, h) =>
      if isOverlap a b c d e f g h then some false else checkAdd ms region
    | _, _ => none

/-- The function `addToMatches`; `accepted` is the vector `matches` of the
source and the result is its new value. -/
def addToMatches (region : Str) (accepted : List Str) : Option (List Str) :=
  if accepted.length = 0 then some (accepted ++ [region])
  else
    match checkAdd accepted region with
    | none => none
    | some add => if add then some (accepted ++ [region]) else some accepted

/-! ## The stages of `imageSearch` (main.cpp, lines 363-397) -/

/-- The acceptance test of line 384 for a net match count `netM`. -/
def passesThreshold (netM : Int) (maskI : PNG) (matchPercent : Int) : Bool :=
  decide (netM > (maskI.getWidth * maskI.getHeight * matchPercent).tdiv 100)

/-- The scoring loop of lines 382-388, run in the order of `coords`. -/
def scoreLoop (coords : List Str) (tolerance : Int) (mainI maskI : PNG)
    (matchPercent : Int) : Option (List Str) :=
  coords.foldlM
    (fun potential c =>
      match getMatchCount c tolerance mainI maskI with
      | none => none
      | some netM =>
        if passesThreshold netM maskI matchPercent then some (potential ++ [c])
        else some potential)
    []

/-- The call `std::sort(potential.begin(), potential.end(), customSort)`, as an
insertion sort with the comparator `customSort`. -/
def sortPotential (potential : List Str) : List Str :=
  potential.insertionSort (fun a b => customSort a b = true)

/-- The loop of lines 390-392 feeding the ranked regions to `addToMatches`. -/
def suppress (potential : List Str) : Option (List Str) :=
  potential.foldlM (fun accepted r => addToMatches r accepted) []

/-- The search of `imageSearch` on loaded images: candidates, scoring,
ranking, suppression. The result is the vector `matches`. -/
def imageSearch (mainI maskI : PNG) (matchPercent tolerance : Int) : Option (List Str) :=
  match scoreLoop (genCords maskI.getWidth maskI.getHeight mainI.getWidth mainI.getHeight)
      tolerance mainI maskI matchPercent with
  | none => none
  | some potential => suppress (sortPotential potential)

/-! ## Annotation (PNG.cpp, lines 222-227; main.cpp, lines 303-339) -/

/-- One unchecked store `flatImageBuffer[i] = v`; a store outside the buffer is
`none`. -/
def writeByte (buf : List Byte) (i : Int) (v : Byte) : Option (List Byte) :=
  if 0 ≤ i ∧ i.toNat < buf.length then some (buf.set i.toNat v) else none

/-- The member `setRed(row, col)`: the stores of the two chained assignments,
`[idx + 2] = 0`, `[idx + 1] = 0`, `[idx + 3] = 255`, `[idx] = 255`, with
`idx = (row * width + col) * 4`. -/
def PNG.setRed (p : PNG) (row col : Int) : Option PNG :=
  let idx := (row * p.width + col) * 4
  match writeByte p.flatImageBuffer (idx + 2) 0 with
  | none => none
  | some b1 =>
    match writeByte b1 (idx + 1) 0 with
    | none => none
    | some b2 =>
      match writeByte b2 (idx + 3) 255 with
      | none => none
      | some b3 =>
        match writeByte b3 idx 255 with
        | none => none
        | some b4 => some ⟨p.width, p.height, b4⟩

/-- Body of the first loop of `drawBox` (horizontal lines). -/
def drawHorizontal (row col height : Int) (png : PNG) (i : Nat) : Option PNG :=
  match png.setRed row (col + i) with
  | none => none
  | some p1 => p1.setRed (row + height) (col + i)

/-- Body of the second loop of `drawBox` (vertical lines). -/
def drawVertical (row col width : Int) (png : PNG) (i : Nat) : Option PNG :=
  match png.setRed (row + i) col with
  | none => none
  | some p1 => p1.setRed (row + i) (col + width)

/-- The function `drawBox`; the result is the new value of `png`. -/
def drawBox (png : PNG) (row col width height : Int) : Option PNG :=
  match (List.range width.toNat).foldlM (drawHorizontal row col height) png with
  | none => none
  | some p1 => (List.range height.toNat).foldlM (drawVertical row col width) p1

/-- The function `drawFinal` on the loaded main image; the result is the image
that is written to the output file. -/
def drawFinal (mainImage maskIMG : PNG) (accepted : List Str) : Option PNG :=
  accepted.foldlM
    (fun outIMG m =>
      match read4 m with
      | none => none
      | some (x, y, _, _) =>
        drawBox outIMG x y (maskIMG.getWidth - 1) (maskIMG.getHeight - 1))
    mainImage

/-! ## The report (main.cpp, lines 63-86) -/

/-- The loop of `replaceWithComma` on the index `i` and the string being
edited: `str.replace(i, 1, ", ")` puts a comma and a space in place of the
character at `i`, and the extra `++i` skips the space just written. Every round
handles one character of the original string, so `fuel` above its length is
never used up. -/
def replaceLoop : Nat → Nat → Str → Str
  | 0, _, str => str
  | fuel + 1, i, str =>
    if i < str.length then
      if str[i]? = some ' ' then
        replaceLoop fuel (i + 1 + 1) (str.take i ++ ", ".toList ++ str.drop (i + 1))
      else replaceLoop fuel (i + 1) str
    else str

/-- The function `replaceWithComma`. -/
def replaceWithComma (str : Str) : Str := replaceLoop (str.length + 1) 0 str

/-- The function `printMatches`; the result is the text written to the
standard output, `std::endl` being a line feed. -/
def printMatches (accepted : List Str) : Str :=
  let r := accepted.foldl
    (fun (st : Str × Int) m =>
      (st.1 ++ "sub-image matched at: ".toList ++ replaceWithComma m ++ ['\n'], st.2 + 1))
    ([], 0)
  r.1 ++ "Number of matches: ".toList ++ to_string r.2 ++ ['\n']

/-! ## Regions and auxiliary predicates of the statements -/

/-- A region: the four integers `(topRow, topCol, bottomRow, bottomCol)`. -/
structure Region where
  topRow : Int
  topCol : Int
  bottomRow : Int
  bottomCol : Int
  deriving DecidableEq

/-- The string with which `genCords` encodes a region. -/
def Region.encode (r : Region) : Str :=
  regionString r.topRow r.topCol r.bottomRow r.bottomCol

/-- All four coordinates are values of the type `int`. -/
def Region.IsInt (r : Region) : Prop :=
  MaskSearcher.IsInt r.topRow ∧ MaskSearcher.IsInt r.topCol ∧
    MaskSearcher.IsInt r.bottomRow ∧ MaskSearcher.IsInt r.bottomCol

instance (r : Region) : Decidable r.IsInt := by
  unfold Region.IsInt; exact inferInstance

/-- Lexicographic strict order on `(topRow, topCol, bottomRow, bottomCol)`:
the first differing field decides. -/
def Region.lexLt (A B : Region) : Prop :=
  A.topRow < B.topRow ∨ (A.topRow = B.topRow ∧
    (A.topCol < B.topCol ∨ (A.topCol = B.topCol ∧
      (A.bottomRow < B.bottomRow ∨ (A.bottomRow = B.bottomRow ∧
        A.bottomCol < B.bottomCol)))))

instance (A B : Region) : Decidable (A.lexLt B) := by
  unfold Region.lexLt; exact inferInstance

/-- The call of `isOverlap` that `checkAdd` makes for an accepted region `A`
and a candidate `R`, on their parsed coordinates. -/
def Region.overlaps (A R : Region) : Bool :=
  isOverlap A.topRow A.topCol A.bottomRow A.bottomCol
    R.topRow R.topCol R.bottomRow R.bottomCol

/-- Region-level view of `addToMatches`: append the candidate when it overlaps
no accepted region. -/
def acceptStep (accepted : List Region) (R : Region) : List Region :=
  if accepted.all (fun A => !A.overlaps R) then accepted ++ [R] else accepted

/-- Region-level view of the suppression loop. -/
def acceptAll (accepted : List Region) (L : List Region) : List Region :=
  L.foldl acceptStep accepted

/-- The rest of a stream does not continue a digit run. -/
def NoDigitHead (rest : Str) : Prop := ∀ c cs, rest = c :: cs → isDigit c = false

/-- An image of one colour. -/
def solid (w h : Nat) (r g b a : Byte) : PNG :=
  ⟨w, h, (List.replicate (w * h) [r, g, b, a]).flatten⟩

/-- Following the spec (section 4.1): every region `(r, c, r + maskHeight,
c + maskWidth)` for `r` in `[0, mainHeight - maskHeight]` (outer) and `c` in
`[0, mainWidth - maskWidth]` (inner), in row-major order. -/
def candidateRegionsSpec (maskWidth maskHeight mainWidth mainHeight : Int) : List Region :=
  (List.range ((mainHeight - maskHeight).toNat + 1)).flatMap (fun (r : Nat) =>
    (List.range ((mainWidth - maskWidth).toNat + 1)).map (fun (c : Nat) =>
      ⟨(r : Int), (c : Int), (r : Int) + maskHeight, (c : Int) + maskWidth⟩))

/-- The positions `(row, col)` visited by two nested counting loops, in the
order of the visit. -/
def positions (rows cols : Nat) : List (Nat × Nat) :=
  (List.range rows).flatMap (fun (r : Nat) => (List.range cols).map (fun (c : Nat) => (r, c)))

/-- The pixel at `(row, col)`, for a read that is inside the buffer. -/
def PNG.pixelAt (p : PNG) (row col : Int) : Pixel :=
  (p.getPixel row col).getD ⟨0, 0, 0, 0⟩

/-- The mask pixel at `(row, col)` equals the sentinel `0xFF000000`. -/
def isBackgroundMaskPixel (mask : PNG) (row col : Nat) : Bool :=
  decide ((mask.pixelAt row col).rgba = BlackRgba)

/-- Every read that the loops over `[0, maxRow) x [0, maxCol)` make, of the
mask at `(row, col)` and of the main image at `(row + startRow, col + startCol)`,
is inside the buffer read. -/
def ReadsInBounds (mainIMG maskIMG : PNG) (startRow startCol maxRow maxCol : Int) : Prop :=
  ∀ row, row < maxRow.toNat → ∀ col, col < maxCol.toNat →
    (maskIMG.getPixel row col).isSome = true ∧
      (mainIMG.getPixel (row + startRow) (col + startCol)).isSome = true

instance (mainIMG maskIMG : PNG) (startRow startCol maxRow maxCol : Int) :
    Decidable (ReadsInBounds mainIMG maskIMG startRow startCol maxRow maxCol) := by
  unfold ReadsInBounds; exact inferInstance

/-- The mask positions of `[0, maxRow) x [0, maxCol)` whose pixel equals the
sentinel. -/
def backgroundPositions (mask : PNG) (maxRow maxCol : Int) : List (Nat × Nat) :=
  (positions maxRow.toNat maxCol.toNat).filter (fun p => isBackgroundMaskPixel mask p.1 p.2)

/-- Sum of one channel of the main-image pixels under the given mask
positions, for the placement `(startRow, startCol)`. -/
def channelSum (img : PNG) (startRow startCol : Int) (channel : Pixel → Byte)
    (ps : List (Nat × Nat)) : Int :=
  (ps.map (fun p =>
    ((channel (img.pixelAt ((p.1 : Int) + startRow) ((p.2 : Int) + startCol))).val : Int))).sum

/-- Contribution of one mask position to the score, following the spec
(section 4.3): `+1` when `withinTolerance == isBackgroundMaskPixel`, else `-1`. -/
def pixelScore (mainIMG maskIMG : PNG) (topRow topCol : Int) (bg : Pixel) (tol : Int)
    (p : Nat × Nat) : Int :=
  if withinTolerance (mainIMG.pixelAt ((p.1 : Int) + topRow) ((p.2 : Int) + topCol)) bg tol
      = isBackgroundMaskPixel maskIMG p.1 p.2 then 1 else -1

/-- The class invariant of `PNG` kept by `prepareBuffer`: the dimensions are
not negative and the flat buffer holds `getBufferSize` bytes. -/
def PNG.WellFormed (p : PNG) : Prop :=
  0 ≤ p.width ∧ 0 ≤ p.height ∧ (p.flatImageBuffer.length : Int) = p.getBufferSize

instance (p : PNG) : Decidable p.WellFormed := by
  unfold PNG.WellFormed; exact inferInstance

/-- The colour written by `setRed`: pure opaque red. -/
def redPixel : Pixel := ⟨255, 0, 0, 255⟩

/-- The arguments `(row, col)` of the calls of `setRed` made by `drawBox`, in
the order of the calls. -/
def drawBoxCalls (row col width height : Int) : List (Int × Int) :=
  (List.range width.toNat).flatMap
      (fun (i : Nat) => [(row, col + (i : Int)), (row + height, col + (i : Int))]) ++
    (List.range height.toNat).flatMap
      (fun (i : Nat) => [(row + (i : Int), col), (row + (i : Int), col + width)])

/-- The position `(row, col)` is a pixel of the image. -/
def PNG.InGrid (p : PNG) (row col : Int) : Prop :=
  0 ≤ row ∧ row < p.height ∧ 0 ≤ col ∧ col < p.width

instance (p : PNG) (row col : Int) : Decidable (p.InGrid row col) := by
  unfold PNG.InGrid; exact inferInstance

/-- The pixel `(r, c)` lies on the perimeter of the rectangle with corners
`(row, col)` and `(row + height, col + width)`. -/
def OnPerimeter (row col width height r c : Int) : Prop :=
  row ≤ r ∧ r ≤ row + height ∧ col ≤ c ∧ c ≤ col + width ∧
    (r = row ∨ r = row + height ∨ c = col ∨ c = col + width)

instance (row col width height r c : Int) :
    Decidable (OnPerimeter row col width height r c) := by
  unfold OnPerimeter; exact inferInstance

/-- The box drawn at `(row, col)` with the given width and height lies inside
the image. -/
def BoxInBounds (png : PNG) (row col width height : Int) : Prop :=
  0 ≤ row ∧ 0 ≤ col ∧ 0 ≤ width ∧ 0 ≤ height ∧
    row + height < png.height ∧ col + width < png.width

instance (png : PNG) (row col width height : Int) :
    Decidable (BoxInBounds png row col width height) := by
  unfold BoxInBounds; exact inferInstance

/-- Following the claim on `replaceWithComma`: every space becomes a comma
followed by a space and every other character stays. -/
def commaSpec (s : Str) : Str :=
  s.flatMap (fun c => if c = ' ' then [',', ' '] else [c])

/-- The line that reports one accepted region, without its line feed. -/
def matchLine (R : Region) : Str :=
  "sub-image matched at: ".toList ++ to_string R.topRow ++ ", ".toList ++
    to_string R.topCol ++ ", ".toList ++ to_string R.bottomRow ++ ", ".toList ++
    to_string R.bottomCol

/-- The final line of the report, without its line feed. -/
def countLine (n : Nat) : Str := "Number of matches: ".toList ++ to_string (n : Int)

/-! ## Concrete inputs -/

/-- A main image of width 3 and height 2 with six different pixels. -/
def mainA : PNG :=
  ⟨3, 2, [10, 20, 30, 255, 11, 22, 33, 255, 200, 100, 50, 255,
          14, 24, 34, 255, 15, 25, 35, 255, 16, 27, 38, 255]⟩

/-- A mask of width 2 and height 2: three sentinel pixels and one other. -/
def maskA : PNG :=
  ⟨2, 2, [0, 0, 0, 255, 0, 0, 0, 255, 9, 9, 9, 255, 0, 0, 0, 255]⟩

/-- The nine placements that survive suppression in scenario 1. -/
def scenarioOneAccepted : List Str :=
  ["0 0 2 2".toList, "0 3 2 5".toList, "0 6 2 8".toList,
   "3 0 5 2".toList, "3 3 5 5".toList, "3 6 5 8".toList,
   "6 0 8 2".toList, "6 3 8 5".toList, "6 6 8 8".toList]

/-- Three 2x2 placements in one row, each touching the next. -/
def chain3 : List Region := [⟨0, 0, 2, 2⟩, ⟨0, 2, 2, 4⟩, ⟨0, 4, 2, 6⟩]

/-! ## Decimal strings are read back by the extraction -/

theorem digitChar_facts : ∀ d, d < 10 →
    isDigit (digitChar d) = true ∧ digitVal (digitChar d) = d ∧
    isSpace (digitChar d) = false ∧ digitChar d ≠ '-' ∧ digitChar d ≠ '+' := by
  decide

theorem natDigitsAux_eq (n : Nat) : ∀ fuel acc, n < fuel →
    natDigitsAux fuel n acc = natToString n ++ acc := by
  induction n using Nat.strong_induction_on with
  | _ n ih =>
    intro fuel acc hf
    obtain ⟨f, rfl⟩ : ∃ f, fuel = f + 1 := ⟨fuel - 1, by omega⟩
    unfold natToString
    by_cases h : n < 10
    · simp [natDigitsAux, h]
    · have hlt : n / 10 < n := by omega
      simp only [natDigitsAux, h, if_false]
      rw [ih (n / 10) hlt f _ (by omega), ih (n / 10) hlt n _ hlt]
      simp

theorem natToString_small {n : Nat} (h : n < 10) : natToString n = [digitChar n] := by
  simp [natToString, natDigitsAux, h]

theorem natToString_large {n : Nat} (h : 10 ≤ n) :
    natToString n = natToString (n / 10) ++ [digitChar (n % 10)] := by
  have h1 : ¬ n < 10 := by omega
  have : natToString n = natDigitsAux n (n / 10) [digitChar (n % 10)] := by
    simp [natToString, natDigitsAux, h1]
  rw [this, natDigitsAux_eq (n / 10) n _ (by omega)]

theorem natToString_head (n : Nat) :
    ∃ c cs, natToString n = c :: cs ∧ isDigit c = true := by
  induction n using Nat.strong_induction_on with
  | _ n ih =>
    by_cases h : n < 10
    · exact ⟨digitChar n, [], natToString_small h, (digitChar_facts n h).1⟩
    · obtain ⟨c, cs, hc, hd⟩ := ih (n / 10) (by omega)
      exact ⟨c, cs ++ [digitChar (n % 10)], by rw [natToString_large (by omega), hc]; rfl, hd⟩

theorem readDigits_natToString (n : Nat) : ∀ rest,
    readDigits (natToString n ++ rest) 0 = readDigits rest n := by
  induction n using Nat.strong_induction_on with
  | _ n ih =>
    intro rest
    by_cases h : n < 10
    · obtain ⟨h1, h2, -⟩ := digitChar_facts n h
      simp [natToString_small h, readDigits, h1, h2]
    · obtain ⟨h1, h2, -⟩ := digitChar_facts (n % 10) (by omega)
      rw [natToString_large (by omega), List.append_assoc, ih (n / 10) (by omega)]
      have : n / 10 * 10 + n % 10 = n := by omega
      simp [readDigits, h1, h2, this]

theorem readNat_natToString (n : Nat) (rest : Str) (hr : NoDigitHead rest) :
    readNat (natToString n ++ rest) = some (n, rest) := by
  obtain ⟨c, cs, hc, hd⟩ := natToString_head n
  have h1 : readNat (natToString n ++ rest) = some (readDigits (natToString n ++ rest) 0) := by
    rw [hc]; simp [readNat, hd]
  rw [h1, readDigits_natToString]
  cases rest with
  | nil => rfl
  | cons d ds => simp [readDigits, hr d ds rfl]

theorem isDigit_facts (c : Char) (h : isDigit c = true) :
    isSpace c = false ∧ c ≠ '-' ∧ c ≠ '+' ∧ c ≠ ',' := by
  simp only [isDigit, Bool.and_eq_true, decide_eq_true_eq] at h
  have e1 : ' '.toNat = 32 := by decide
  have e2 : '\t'.toNat = 9 := by decide
  have e3 : '\n'.toNat = 10 := by decide
  have e4 : '\r'.toNat = 13 := by decide
  have e5 : '-'.toNat = 45 := by decide
  have e6 : '+'.toNat = 43 := by decide
  have e7 : ','.toNat = 44 := by decide
  refine ⟨?_, ?_, ?_, ?_⟩
  · simp only [isSpace, Bool.or_eq_false_iff, decide_eq_false_iff_not]
    refine ⟨⟨⟨⟨⟨?_, ?_⟩, ?_⟩, ?_⟩, ?_⟩, ?_⟩
    · rintro rfl; omega
    · rintro rfl; omega
    · rintro rfl; omega
    · rintro rfl; omega
    · omega
    · omega
  · rintro rfl; omega
  · rintro rfl; omega
  · rintro rfl; omega

theorem extractInt_space (s : Str) : extractInt (' ' :: s) = extractInt s := by
  simp [extractInt, skipWs, isSpace]

theorem extractInt_to_string (n : Int) (hn : IsInt n) (rest : Str) (hr : NoDigitHead rest) :
    extractInt (to_string n ++ rest) = some (n, rest) := by
  obtain ⟨hlo, hhi⟩ := hn
  by_cases hneg : n < 0
  · have hm : (((-n).toNat : Nat) : Int) = -n := Int.toNat_of_nonneg (by omega)
    have hs : skipWs (to_string n ++ rest) = '-' :: (natToString (-n).toNat ++ rest) := by
      simp [to_string, hneg, skipWs, isSpace]
    simp only [extractInt, hs, if_true, readNat_natToString _ _ hr, hm]
    simp [hlo]
  · have hm : ((n.toNat : Nat) : Int) = n := Int.toNat_of_nonneg (by omega)
    obtain ⟨c, cs, hc, hd⟩ := natToString_head n.toNat
    obtain ⟨h1, h2, h3, -⟩ := isDigit_facts c hd
    have hs : skipWs (to_string n ++ rest) = c :: (cs ++ rest) := by
      simp [to_string, hneg, hc, skipWs, h1]
    have hr2 : readNat (c :: (cs ++ rest)) = some (n.toNat, rest) := by
      rw [← List.cons_append, ← hc]; exact readNat_natToString _ _ hr
    simp only [extractInt, hs, h2, h3, if_false, hr2, hm]
    simp [hhi]

theorem noDigitHead_nil : NoDigitHead [] := by
  intro c cs h; cases h

theorem noDigitHead_space (s : Str) : NoDigitHead (' ' :: s) := by
  intro c cs h
  cases h
  decide

theorem regionString_eq (a b c d : Int) :
    regionString a b c d =
      to_string a ++ (' ' :: (to_string b ++ (' ' :: (to_string c ++ (' ' :: (to_string d ++ [])))))) := by
  simp [regionString]

theorem read4_regionString (a b c d : Int) (ha : IsInt a) (hb : IsInt b) (hc : IsInt c)
    (hd : IsInt d) : read4 (regionString a b c d) = some (a, b, c, d) := by
  rw [regionString_eq]
  simp only [read4, extractInt_to_string a ha _ (noDigitHead_space _), extractInt_space,
    extractInt_to_string b hb _ (noDigitHead_space _),
    extractInt_to_string c hc _ (noDigitHead_space _),
    extractInt_to_string d hd _ noDigitHead_nil]

theorem read4_encode (r : Region) (h : r.IsInt) :
    read4 r.encode = some (r.topRow, r.topCol, r.bottomRow, r.bottomCol) :=
  read4_regionString _ _ _ _ h.1 h.2.1 h.2.2.1 h.2.2.2

/-! ## The tokens of an encoded region -/

theorem tokensLoop_nil (fuel : Nat) (tokens : List Int) :
    tokensLoop fuel [] tokens = tokens := by
  cases fuel <;> simp [tokensLoop, extractInt, skipWs]

theorem readDigits_length : ∀ (s : Str) (acc : Nat), (readDigits s acc).2.length ≤ s.length := by
  intro s
  induction s with
  | nil => intro acc; simp [readDigits]
  | cons c cs ih =>
    intro acc
    unfold readDigits
    split_ifs
    · exact Nat.le_succ_of_le (ih _)
    · exact le_refl _

theorem readNat_length (s : Str) (v : Nat) (rest : Str) (h : readNat s = some (v, rest)) :
    rest.length < s.length := by
  cases s with
  | nil => simp [readNat] at h
  | cons c cs =>
    simp only [readNat] at h
    split_ifs at h with hd
    simp only [readDigits, hd, if_true, Option.some.injEq] at h
    have := readDigits_length cs (0 * 10 + digitVal c)
    rw [h] at this
    exact Nat.lt_succ_of_le this

theorem skipWs_length : ∀ s : Str, (skipWs s).length ≤ s.length := by
  intro s
  induction s with
  | nil => simp [skipWs]
  | cons c cs ih =>
    unfold skipWs
    split_ifs
    · exact Nat.le_succ_of_le ih
    · exact le_refl _

theorem extractInt_length (s : Str) (n : Int) (rest : Str)
    (h : extractInt s = some (n, rest)) : rest.length < s.length := by
  have hs := skipWs_length s
  unfold extractInt at h
  cases hk : skipWs s with
  | nil => rw [hk] at h; simp at h
  | cons c cs =>
    rw [hk] at h hs
    simp only [List.length_cons] at hs
    simp only at h
    split_ifs at h with h1 h2
    · cases hr : readNat cs with
      | none => rw [hr] at h; simp at h
      | some q =>
        obtain ⟨v, rest2⟩ := q
        rw [hr] at h
        have hl := readNat_length cs v rest2 hr
        simp only at h
        split_ifs at h
        simp only [Option.some.injEq, Prod.mk.injEq] at h
        obtain ⟨-, rfl⟩ := h
        omega
    · cases hr : readNat cs with
      | none => rw [hr] at h; simp at h
      | some q =>
        obtain ⟨v, rest2⟩ := q
        rw [hr] at h
        have hl := readNat_length cs v rest2 hr
        simp only at h
        split_ifs at h
        simp only [Option.some.injEq, Prod.mk.injEq] at h
        obtain ⟨-, rfl⟩ := h
        omega
    · cases hr : readNat (c :: cs) with
      | none => rw [hr] at h; simp at h
      | some q =>
        obtain ⟨v, rest2⟩ := q
        rw [hr] at h
        have hl := readNat_length (c :: cs) v rest2 hr
        simp only [List.length_cons] at hl
        simp only at h
        split_ifs at h
        simp only [Option.some.injEq, Prod.mk.injEq] at h
        obtain ⟨-, rfl⟩ := h
        omega

/-- The fuel of `tokensLoop` is never used up: any fuel above the length of
the string gives the same tokens. -/
theorem tokensLoop_fuel : ∀ (f1 f2 : Nat) (s : Str) (tokens : List Int),
    s.length < f1 → s.length < f2 → tokensLoop f1 s tokens = tokensLoop f2 s tokens := by
  intro f1
  induction f1 with
  | zero => intro f2 s tokens h; omega
  | succ f1 ih =>
    intro f2 s tokens h1 h2
    obtain ⟨f2, rfl⟩ : ∃ f, f2 = f + 1 := ⟨f2 - 1, by omega⟩
    unfold tokensLoop
    cases he : extractInt s with
    | none => rfl
    | some q =>
      obtain ⟨num, rest⟩ := q
      have hl := extractInt_length s num rest he
      cases rest with
      | nil => simp only [tokensLoop_nil]
      | cons c cs =>
        simp only [List.length_cons] at hl
        simp only
        split_ifs
        · exact ih f2 cs _ (by omega) (by omega)
        · exact ih f2 (c :: cs) _ (by simp only [List.length_cons]; omega)
            (by simp only [List.length_cons]; omega)

theorem tokensLoop_to_string_space (fuel : Nat) (n : Int) (hn : IsInt n) (rest : Str)
    (tokens : List Int) :
    tokensLoop (fuel + 1) (to_string n ++ (' ' :: rest)) tokens =
      tokensLoop fuel (' ' :: rest) (tokens ++ [n]) := by
  simp [tokensLoop, extractInt_to_string n hn _ (noDigitHead_space _)]

theorem tokensLoop_space_to_string (fuel : Nat) (n : Int) (hn : IsInt n) (rest : Str)
    (tokens : List Int) :
    tokensLoop (fuel + 1) (' ' :: (to_string n ++ (' ' :: rest))) tokens =
      tokensLoop fuel (' ' :: rest) (tokens ++ [n]) := by
  simp [tokensLoop, extractInt_space, extractInt_to_string n hn _ (noDigitHead_space _)]

theorem tokensLoop_space_to_string_end (fuel : Nat) (n : Int) (hn : IsInt n)
    (tokens : List Int) :
    tokensLoop (fuel + 1) (' ' :: (to_string n ++ [])) tokens = tokens ++ [n] := by
  simp only [tokensLoop, extractInt_space, extractInt_to_string n hn _ noDigitHead_nil,
    tokensLoop_nil]

theorem tokenize_regionString (a b c d : Int) (ha : IsInt a) (hb : IsInt b) (hc : IsInt c)
    (hd : IsInt d) : tokenize (regionString a b c d) = [a, b, c, d] := by
  unfold tokenize
  obtain ⟨f, hf⟩ : ∃ f, (regionString a b c d).length + 1 = f + 4 :=
    ⟨(regionString a b c d).length - 3, by
      have : 3 ≤ (regionString a b c d).length := by
        rw [regionString_eq]; simp only [List.length_append, List.length_cons]; omega
      omega⟩
  rw [hf, regionString_eq, tokensLoop_to_string_space _ a ha,
    tokensLoop_space_to_string _ b hb, tokensLoop_space_to_string _ c hc,
    tokensLoop_space_to_string_end _ d hd]
  rfl

theorem tokenize_encode (r : Region) (h : r.IsInt) :
    tokenize r.encode = [r.topRow, r.topCol, r.bottomRow, r.bottomCol] :=
  tokenize_regionString _ _ _ _ h.1 h.2.1 h.2.2.1 h.2.2.2

theorem customSort_encode_iff (A B : Region) (hA : A.IsInt) (hB : B.IsInt) :
    customSort A.encode B.encode = true ↔ A.lexLt B := by
  have hr : List.range 4 = [0, 1, 2, 3] := by decide
  simp only [customSort, tokenize_encode A hA, tokenize_encode B hB, List.length_cons,
    List.length_nil, Region.lexLt]
  simp only [show min (0 + 1 + 1 + 1 + 1) (0 + 1 + 1 + 1 + 1) = 4 from rfl, hr, compareLoop,
    List.getD_cons_zero, List.getD_cons_succ]
  split_ifs <;>
    simp only [Bool.false_eq_true, false_iff, true_iff, decide_eq_true_eq, List.length_cons,
      List.length_nil] <;>
    omega

/-! ## Suppression on encoded regions -/

theorem overlaps_symm (A R : Region) : A.overlaps R = R.overlaps A := by
  simp only [Region.overlaps, isOverlap, Bool.or_eq_true, decide_eq_true_eq]
  split_ifs <;> first | rfl | omega

theorem encode_injective (A B : Region) (hA : A.IsInt) (hB : B.IsInt)
    (h : A.encode = B.encode) : A = B := by
  have h1 := read4_encode A hA
  rw [h, read4_encode B hB] at h1
  cases A; cases B
  simp only [Option.some.injEq, Prod.mk.injEq] at h1
  simp only [Region.mk.injEq]
  omega

theorem checkAdd_encode (R : Region) (hR : R.IsInt) : ∀ accepted : List Region,
    (∀ A ∈ accepted, A.IsInt) →
    checkAdd (accepted.map Region.encode) R.encode =
      some (accepted.all (fun A => !A.overlaps R)) := by
  intro accepted
  induction accepted with
  | nil => intro _; rfl
  | cons A rest ih =>
    intro h
    have hA : A.IsInt := h A (List.mem_cons_self _ _)
    have hrest : ∀ B ∈ rest, B.IsInt := fun B hB => h B (List.mem_cons_of_mem _ hB)
    simp only [List.map_cons, checkAdd, read4_encode A hA, read4_encode R hR, List.all_cons]
    by_cases ho : A.overlaps R = true
    · have ho2 := ho
      simp only [Region.overlaps] at ho2
      simp [ho, ho2]
    · have ho2 := ho
      simp only [Region.overlaps] at ho2
      simp only [ho2, if_false, ih hrest]
      simp [ho]

theorem addToMatches_encode (R : Region) (hR : R.IsInt) (accepted : List Region)
    (h : ∀ A ∈ accepted, A.IsInt) :
    addToMatches R.encode (accepted.map Region.encode) =
      some ((acceptStep accepted R).map Region.encode) := by
  unfold addToMatches acceptStep
  by_cases he : accepted = []
  · subst he; simp
  · have hl : ¬ (accepted.map Region.encode).length = 0 := by
      simpa using he
    simp only [hl, if_false, checkAdd_encode R hR accepted h]
    split_ifs <;> simp

theorem acceptStep_isInt (R : Region) (hR : R.IsInt) (accepted : List Region)
    (h : ∀ A ∈ accepted, A.IsInt) : ∀ A ∈ acceptStep accepted R, A.IsInt := by
  unfold acceptStep
  split_ifs
  · intro A hA
    rcases List.mem_append.1 hA with hA | hA
    · exact h A hA
    · simp only [List.mem_singleton] at hA; exact hA ▸ hR
  · exact h

theorem foldlM_addToMatches_encode : ∀ (L accepted : List Region),
    (∀ R ∈ L, R.IsInt) → (∀ A ∈ accepted, A.IsInt) →
    (L.map Region.encode).foldlM (fun acc r => addToMatches r acc)
      (accepted.map Region.encode) = some ((acceptAll accepted L).map Region.encode) := by
  intro L
  induction L with
  | nil => intro accepted _ _; rfl
  | cons R rest ih =>
    intro accepted hL hacc
    have hR : R.IsInt := hL R (List.mem_cons_self _ _)
    have hrest : ∀ B ∈ rest, B.IsInt := fun B hB => hL B (List.mem_cons_of_mem _ hB)
    simp only [List.map_cons, List.foldlM_cons, addToMatches_encode R hR accepted hacc,
      Option.bind_eq_bind, Option.some_bind]
    rw [ih (acceptStep accepted R) hrest (acceptStep_isInt R hR accepted hacc)]
    rfl

theorem suppress_encode (L : List Region) (hL : ∀ R ∈ L, R.IsInt) :
    suppress (L.map Region.encode) = some ((acceptAll [] L).map Region.encode) :=
  foldlM_addToMatches_encode L [] hL (by simp)

theorem acceptStep_pairwise (R : Region) (accepted : List Region)
    (h : accepted.Pairwise (fun A B => A.overlaps B = false)) :
    (acceptStep accepted R).Pairwise (fun A B => A.overlaps B = false) := by
  unfold acceptStep
  split_ifs with hall
  · rw [List.pairwise_append]
    refine ⟨h, List.pairwise_singleton _ _, ?_⟩
    intro A hA B hB
    simp only [List.mem_singleton] at hB
    subst hB
    have := List.all_eq_true.1 hall A hA
    simpa using this
  · exact h

theorem acceptAll_pairwise : ∀ (L accepted : List Region),
    accepted.Pairwise (fun A B => A.overlaps B = false) →
    (acceptAll accepted L).Pairwise (fun A B => A.overlaps B = false) := by
  intro L
  induction L with
  | nil => intro accepted h; exact h
  | cons R rest ih =>
    intro accepted h
    exact ih _ (acceptStep_pairwise R accepted h)

theorem acceptAll_isInt : ∀ (L accepted : List Region),
    (∀ R ∈ L, R.IsInt) → (∀ A ∈ accepted, A.IsInt) →
    ∀ A ∈ acceptAll accepted L, A.IsInt := by
  intro L
  induction L with
  | nil => intro accepted _ h; exact h
  | cons R rest ih =>
    intro accepted hL h
    exact ih _ (fun B hB => hL B (List.mem_cons_of_mem _ hB))
      (acceptStep_isInt R (hL R (List.mem_cons_self _ _)) accepted h)

theorem pairwise_distinct_positions (l : List Region)
    (h : l.Pairwise (fun A B => A.overlaps B = false)) (i j : Nat) (hi : i < l.length)
    (hj : j < l.length) (hij : i ≠ j) : l[i].overlaps l[j] = false := by
  rw [List.pairwise_iff_getElem] at h
  rcases Nat.lt_or_gt_of_ne hij with hlt | hgt
  · exact h i j hi hj hlt
  · rw [overlaps_symm]; exact h j i hj hi hgt

theorem pairwise_mem_ne (l : List Region)
    (h : l.Pairwise (fun A B => A.overlaps B = false)) (A B : Region) (hA : A ∈ l)
    (hB : B ∈ l) (hne : A ≠ B) : A.overlaps B = false := by
  obtain ⟨i, hi, rfl⟩ := List.getElem_of_mem hA
  obtain ⟨j, hj, rfl⟩ := List.getElem_of_mem hB
  apply pairwise_distinct_positions l h i j hi hj
  rintro rfl
  exact hne rfl

theorem acceptStep_mem (R A : Region) (accepted : List Region) (h : A ∈ accepted) :
    A ∈ acceptStep accepted R := by
  unfold acceptStep
  split_ifs
  · exact List.mem_append_left _ h
  · exact h

theorem acceptAll_mem (A : Region) : ∀ (L accepted : List Region),
    A ∈ accepted → A ∈ acceptAll accepted L := by
  intro L
  induction L with
  | nil => intro accepted h; exact h
  | cons R rest ih => intro accepted h; exact ih _ (acceptStep_mem R A accepted h)

theorem acceptAll_append (accepted L1 L2 : List Region) :
    acceptAll accepted (L1 ++ L2) = acceptAll (acceptAll accepted L1) L2 := by
  simp [acceptAll, List.foldl_append]

theorem acceptAll_take_succ (L : List Region) (k : Nat) (hk : k < L.length) :
    acceptAll [] (L.take (k + 1)) = acceptStep (acceptAll [] (L.take k)) L[k] := by
  rw [← List.take_concat_get L k hk, List.concat_eq_append, acceptAll_append]
  rfl

theorem acceptAll_split (L : List Region) (k : Nat) :
    acceptAll [] L = acceptAll (acceptAll [] (L.take k)) (L.drop k) := by
  rw [← acceptAll_append, List.take_append_drop]

theorem acceptAll_take_mono (L : List Region) (A : Region) (k m : Nat) (hkm : k ≤ m)
    (h : A ∈ acceptAll [] (L.take k)) : A ∈ acceptAll [] (L.take m) := by
  have e : L.take k = (L.take m).take k := by
    rw [List.take_take, Nat.min_eq_left hkm]
  rw [acceptAll_split (L.take m) k, ← e]
  exact acceptAll_mem A _ _ h

theorem acceptStep_of_overlap (accepted : List Region) (A R : Region) (hA : A ∈ accepted)
    (ho : A.overlaps R = true) : acceptStep accepted R = accepted := by
  unfold acceptStep
  have : accepted.all (fun A => !A.overlaps R) = false := by
    rw [Bool.eq_false_iff]
    intro hall
    have := List.all_eq_true.1 hall A hA
    simp [ho] at this
  simp [this]

/-- A region that ends up accepted is accepted at its first position. -/
theorem accepted_at_own_position (L : List Region) (i : Nat) (hi : i < L.length)
    (h : L[i] ∈ acceptAll [] L) : L[i] ∈ acceptAll [] (L.take (i + 1)) := by
  rw [acceptAll_take_succ L i hi]
  by_cases hall : (acceptAll [] (L.take i)).all (fun A => !A.overlaps L[i]) = true
  · simp [acceptStep, hall]
  · have hex : ∃ Z ∈ acceptAll [] (L.take i), Z.overlaps L[i] = true := by
      by_contra hc
      apply hall
      rw [List.all_eq_true]
      intro Z hZ
      have : ¬ Z.overlaps L[i] = true := fun ho => hc ⟨Z, hZ, ho⟩
      simpa using this
    obtain ⟨Z, hZ, hZo⟩ := hex
    have hZfinal : Z ∈ acceptAll [] L := by
      rw [acceptAll_split L i]; exact acceptAll_mem Z _ _ hZ
    by_cases hZe : Z = L[i]
    · exact acceptStep_mem _ _ _ (hZe ▸ hZ)
    · have := pairwise_mem_ne _ (acceptAll_pairwise L [] List.Pairwise.nil) Z L[i] hZfinal h hZe
      rw [this] at hZo
      cases hZo

/-! ## Loops that push to a vector -/

theorem foldl_push {α β : Type} (g : α → β) : ∀ (ys : List α) (init : List β),
    ys.foldl (fun acc y => acc ++ [g y]) init = init ++ ys.map g := by
  intro ys
  induction ys with
  | nil => intro init; simp
  | cons y rest ih => intro init; simp [ih]

theorem foldl_foldl_push {α β γ : Type} (g : α → γ → β) (ys : List γ) :
    ∀ (xs : List α) (init : List β),
    xs.foldl (fun acc x => ys.foldl (fun acc y => acc ++ [g x y]) acc) init =
      init ++ xs.flatMap (fun x => ys.map (g x)) := by
  intro xs
  induction xs with
  | nil => intro init; simp
  | cons x rest ih =>
    intro init
    rw [List.foldl_cons, foldl_push, ih]
    simp

theorem genCords_eq_flatMap (maskWidth maskHeight mainWidth mainHeight : Int) :
    genCords maskWidth maskHeight mainWidth mainHeight =
      (List.range (mainHeight - maskHeight + 1).toNat).flatMap (fun (x : Nat) =>
        (List.range (mainWidth - maskWidth + 1).toNat).map (fun (y : Nat) =>
          regionString x y ((x : Int) + maskHeight) ((y : Int) + maskWidth))) := by
  unfold genCords
  rw [foldl_foldl_push (fun (x y : Nat) =>
    regionString x y ((x : Int) + maskHeight) ((y : Int) + maskWidth))]
  simp

theorem genCords_eq_spec (maskWidth maskHeight mainWidth mainHeight : Int)
    (hw : maskWidth ≤ mainWidth) (hh : maskHeight ≤ mainHeight) :
    genCords maskWidth maskHeight mainWidth mainHeight =
      (candidateRegionsSpec maskWidth maskHeight mainWidth mainHeight).map Region.encode := by
  have e1 : (mainHeight - maskHeight + 1).toNat = (mainHeight - maskHeight).toNat + 1 := by
    omega
  have e2 : (mainWidth - maskWidth + 1).toNat = (mainWidth - maskWidth).toNat + 1 := by
    omega
  rw [genCords_eq_flatMap, e1, e2]
  simp [candidateRegionsSpec, List.map_flatMap, Region.encode, Function.comp_def]

/-! ## The nested loops over the mask -/

theorem mem_positions (rows cols : Nat) (p : Nat × Nat) :
    p ∈ positions rows cols ↔ p.1 < rows ∧ p.2 < cols := by
  obtain ⟨r, c⟩ := p
  simp only [positions, List.mem_flatMap, List.mem_range, List.mem_map, Prod.mk.injEq]
  constructor
  · rintro ⟨a, ha, b, hb, rfl, rfl⟩; exact ⟨ha, hb⟩
  · rintro ⟨hr, hc⟩; exact ⟨r, hr, c, hc, rfl, rfl⟩

theorem foldlM_nested {σ : Type} (f : σ → Nat → Nat → Option σ) (ys : List Nat) :
    ∀ (xs : List Nat) (init : σ),
    xs.foldlM (fun acc r => ys.foldlM (fun acc c => f acc r c) acc) init =
      (xs.flatMap (fun (r : Nat) => ys.map (fun (c : Nat) => (r, c)))).foldlM
        (fun acc p => f acc p.1 p.2) init := by
  intro xs
  induction xs with
  | nil => intro init; rfl
  | cons x rest ih =>
    intro init
    rw [List.foldlM_cons, List.flatMap_cons, List.foldlM_append, List.foldlM_map]
    congr 1
    funext acc
    exact ih acc

theorem getPixel_eq_pixelAt (p : PNG) (row col : Int)
    (h : (p.getPixel row col).isSome = true) :
    p.getPixel row col = some (p.pixelAt row col) := by
  unfold PNG.pixelAt
  cases hg : p.getPixel row col with
  | none => rw [hg] at h; cases h
  | some v => rfl

theorem bgStep_eq (img1 mask : PNG) (startRow startCol : Int) (acc : BgAcc) (p : Nat × Nat)
    (hm : (mask.getPixel p.1 p.2).isSome = true)
    (hi : (img1.getPixel (p.1 + startRow) (p.2 + startCol)).isSome = true) :
    bgStep img1 mask startRow startCol acc p.1 p.2 =
      some (if isBackgroundMaskPixel mask p.1 p.2 then
        ⟨acc.red + (img1.pixelAt (p.1 + startRow) (p.2 + startCol)).red.val,
          acc.green + (img1.pixelAt (p.1 + startRow) (p.2 + startCol)).green.val,
          acc.blue + (img1.pixelAt (p.1 + startRow) (p.2 + startCol)).blue.val,
          acc.count + 1⟩
      else acc) := by
  unfold bgStep isBackgroundMaskPixel
  rw [getPixel_eq_pixelAt _ _ _ hm, getPixel_eq_pixelAt _ _ _ hi]
  by_cases hb : (mask.pixelAt p.1 p.2).rgba = BlackRgba <;> simp [hb]

theorem bgFold (img1 mask : PNG) (startRow startCol : Int) : ∀ (ps : List (Nat × Nat)),
    (∀ p ∈ ps, (mask.getPixel p.1 p.2).isSome = true ∧
      (img1.getPixel (p.1 + startRow) (p.2 + startCol)).isSome = true) →
    ∀ acc : BgAcc,
    ps.foldlM (fun acc p => bgStep img1 mask startRow startCol acc p.1 p.2) acc =
      some ⟨acc.red + channelSum img1 startRow startCol Pixel.red
          (ps.filter (fun p => isBackgroundMaskPixel mask p.1 p.2)),
        acc.green + channelSum img1 startRow startCol Pixel.green
          (ps.filter (fun p => isBackgroundMaskPixel mask p.1 p.2)),
        acc.blue + channelSum img1 startRow startCol Pixel.blue
          (ps.filter (fun p => isBackgroundMaskPixel mask p.1 p.2)),
        acc.count + ((ps.filter (fun p => isBackgroundMaskPixel mask p.1 p.2)).length : Int)⟩ := by
  intro ps
  induction ps with
  | nil => intro _ acc; simp [channelSum]
  | cons p rest ih =>
    intro h acc
    obtain ⟨hm, hi⟩ := h p (List.mem_cons_self _ _)
    have hrest := fun q hq => h q (List.mem_cons_of_mem _ hq)
    rw [List.foldlM_cons, bgStep_eq _ _ _ _ _ _ hm hi]
    simp only [Option.bind_eq_bind, Option.some_bind]
    rw [ih hrest]
    by_cases hb : isBackgroundMaskPixel mask p.1 p.2 = true
    · simp only [hb, if_true, List.filter_cons_of_pos, channelSum, List.map_cons,
        List.sum_cons, List.length_cons, Option.some.injEq, BgAcc.mk.injEq]
      push_cast
      refine ⟨?_, ?_, ?_, ?_⟩ <;> ring
    · simp [hb]

theorem channelSum_bounds (img : PNG) (startRow startCol : Int) (channel : Pixel → Byte) :
    ∀ ps : List (Nat × Nat),
    0 ≤ channelSum img startRow startCol channel ps ∧
      channelSum img startRow startCol channel ps ≤ 255 * (ps.length : Int) := by
  intro ps
  induction ps with
  | nil => simp [channelSum]
  | cons p rest ih =>
    have hb := (channel (img.pixelAt ((p.1 : Int) + startRow) ((p.2 : Int) + startCol))).isLt
    simp only [channelSum, List.map_cons, List.sum_cons, List.length_cons] at ih ⊢
    push_cast
    omega

/-- The channel totals over a set of positions and the number of the positions
are values of `int` as soon as 255 times that number is at most `INT_MAX`:
every summand is a byte. -/
theorem channelSum_isInt (img : PNG) (startRow startCol : Int) (channel : Pixel → Byte)
    (ps : List (Nat × Nat)) (h : 255 * (ps.length : Int) ≤ INT_MAX) :
    IsInt (channelSum img startRow startCol channel ps) ∧ IsInt (ps.length : Int) := by
  have hb := channelSum_bounds img startRow startCol channel ps
  unfold IsInt INT_MIN
  unfold INT_MAX at h ⊢
  refine ⟨⟨?_, ?_⟩, ?_, ?_⟩ <;> omega

theorem bgLoop_eq (img1 mask : PNG) (startRow startCol maxRow maxCol : Int)
    (hin : ReadsInBounds img1 mask startRow startCol maxRow maxCol) :
    bgLoop img1 mask startRow startCol maxRow maxCol =
      some ⟨channelSum img1 startRow startCol Pixel.red (backgroundPositions mask maxRow maxCol),
        channelSum img1 startRow startCol Pixel.green (backgroundPositions mask maxRow maxCol),
        channelSum img1 startRow startCol Pixel.blue (backgroundPositions mask maxRow maxCol),
        ((backgroundPositions mask maxRow maxCol).length : Int)⟩ := by
  unfold bgLoop
  rw [foldlM_nested (fun acc r c => bgStep img1 mask startRow startCol acc r c)]
  have h := bgFold img1 mask startRow startCol (positions maxRow.toNat maxCol.toNat)
    (fun p hp => hin p.1 ((mem_positions _ _ p).1 hp).1 p.2 ((mem_positions _ _ p).1 hp).2)
    ⟨0, 0, 0, 0⟩
  simp only [zero_add] at h
  exact h

theorem computeBackgroundPixel_eq (img1 mask : PNG) (startRow startCol maxRow maxCol : Int)
    (hin : ReadsInBounds img1 mask startRow startCol maxRow maxCol)
    (hbg : backgroundPositions mask maxRow maxCol ≠ []) :
    computeBackgroundPixel img1 mask startRow startCol maxRow maxCol =
      some ⟨toByte ((channelSum img1 startRow startCol Pixel.red
            (backgroundPositions mask maxRow maxCol)).tdiv
            ((backgroundPositions mask maxRow maxCol).length : Int)),
        toByte ((channelSum img1 startRow startCol Pixel.green
            (backgroundPositions mask maxRow maxCol)).tdiv
            ((backgroundPositions mask maxRow maxCol).length : Int)),
        toByte ((channelSum img1 startRow startCol Pixel.blue
            (backgroundPositions mask maxRow maxCol)).tdiv
            ((backgroundPositions mask maxRow maxCol).length : Int)), 0⟩ := by
  have hlen : ((backgroundPositions mask maxRow maxCol).length : Int) ≠ 0 := by
    have := List.length_pos.2 hbg
    omega
  simp only [computeBackgroundPixel, bgLoop_eq _ _ _ _ _ _ hin, hlen, if_false]

theorem matchStep_eq (mainIMG maskIMG : PNG) (x y : Int) (bg : Pixel) (tol : Int)
    (acc : Int × Int) (p : Nat × Nat)
    (hm : (maskIMG.getPixel p.1 p.2).isSome = true)
    (hi : (mainIMG.getPixel (p.1 + x) (p.2 + y)).isSome = true) :
    ∃ acc' : Int × Int,
      matchStep mainIMG maskIMG x y bg tol acc p.1 p.2 = some acc' ∧
      acc'.1 - acc'.2 = acc.1 - acc.2 + pixelScore mainIMG maskIMG x y bg tol p ∧
      acc'.1 + acc'.2 = acc.1 + acc.2 + 1 ∧ acc.1 ≤ acc'.1 ∧ acc.2 ≤ acc'.2 := by
  unfold matchStep pixelScore isBackgroundMaskPixel
  rw [getPixel_eq_pixelAt _ _ _ hm, getPixel_eq_pixelAt _ _ _ hi]
  by_cases hb : (maskIMG.pixelAt p.1 p.2).rgba = BlackRgba <;>
    by_cases ht : withinTolerance (mainIMG.pixelAt (p.1 + x) (p.2 + y)) bg tol = true <;>
    simp [hb, ht] <;> omega

theorem matchFold (mainIMG maskIMG : PNG) (x y : Int) (bg : Pixel) (tol : Int) :
    ∀ (ps : List (Nat × Nat)),
    (∀ p ∈ ps, (maskIMG.getPixel p.1 p.2).isSome = true ∧
      (mainIMG.getPixel (p.1 + x) (p.2 + y)).isSome = true) →
    ∀ acc : Int × Int, ∃ acc' : Int × Int,
      ps.foldlM (fun acc p => matchStep mainIMG maskIMG x y bg tol acc p.1 p.2) acc
        = some acc' ∧
      acc'.1 - acc'.2 = acc.1 - acc.2 + (ps.map (pixelScore mainIMG maskIMG x y bg tol)).sum ∧
      acc'.1 + acc'.2 = acc.1 + acc.2 + (ps.length : Int) ∧ acc.1 ≤ acc'.1 ∧ acc.2 ≤ acc'.2 := by
  intro ps
  induction ps with
  | nil => intro _ acc; exact ⟨acc, rfl, by simp, by simp, le_refl _, le_refl _⟩
  | cons p rest ih =>
    intro h acc
    obtain ⟨hm, hi⟩ := h p (List.mem_cons_self _ _)
    obtain ⟨acc1, h1, h2, h3, h4, h5⟩ := matchStep_eq mainIMG maskIMG x y bg tol acc p hm hi
    obtain ⟨acc2, g1, g2, g3, g4, g5⟩ := ih (fun q hq => h q (List.mem_cons_of_mem _ hq)) acc1
    refine ⟨acc2, ?_, ?_, ?_, ?_, ?_⟩
    · rw [List.foldlM_cons, h1]; exact g1
    · simp only [List.map_cons, List.sum_cons]; omega
    · simp only [List.length_cons]; push_cast; omega
    · omega
    · omega

theorem matchLoop_eq (mainIMG maskIMG : PNG) (x y : Int) (bg : Pixel) (tol : Int)
    (hin : ReadsInBounds mainIMG maskIMG x y maskIMG.getHeight maskIMG.getWidth) :
    ∃ acc : Int × Int,
      matchLoop mainIMG maskIMG x y bg tol = some acc ∧
      acc.1 - acc.2 = ((positions maskIMG.getHeight.toNat maskIMG.getWidth.toNat).map
        (pixelScore mainIMG maskIMG x y bg tol)).sum ∧
      acc.1 + acc.2 = ((positions maskIMG.getHeight.toNat maskIMG.getWidth.toNat).length : Int) ∧
      0 ≤ acc.1 ∧ 0 ≤ acc.2 := by
  unfold matchLoop
  rw [foldlM_nested (fun acc r c => matchStep mainIMG maskIMG x y bg tol acc r c)]
  obtain ⟨acc, h1, h2, h3, h4, h5⟩ := matchFold mainIMG maskIMG x y bg tol
    (positions maskIMG.getHeight.toNat maskIMG.getWidth.toNat)
    (fun p hp => hin p.1 ((mem_positions _ _ p).1 hp).1 p.2 ((mem_positions _ _ p).1 hp).2)
    (0, 0)
  exact ⟨acc, h1, by simpa using h2, by simpa using h3, h4, h5⟩

theorem getMatchCount_eq (mainIMG maskIMG : PNG) (R : Region) (hR : R.IsInt) (tol : Int)
    (bg : Pixel)
    (hin : ReadsInBounds mainIMG maskIMG R.topRow R.topCol maskIMG.getHeight maskIMG.getWidth)
    (hbg : computeBackgroundPixel mainIMG maskIMG R.topRow R.topCol maskIMG.getHeight
      maskIMG.getWidth = some bg) :
    getMatchCount R.encode tol mainIMG maskIMG =
      some ((positions maskIMG.getHeight.toNat maskIMG.getWidth.toNat).map
        (pixelScore mainIMG maskIMG R.topRow R.topCol bg tol)).sum := by
  obtain ⟨acc, h1, h2, -⟩ := matchLoop_eq mainIMG maskIMG R.topRow R.topCol bg tol hin
  simp only [getMatchCount, read4_encode R hR, hbg, h1, h2]

/-! ## The scoring loop of `imageSearch` -/

theorem scoreLoop_fold (tolerance : Int) (mainI maskI : PNG) (matchPercent : Int) :
    ∀ (coords : List Str),
    (∀ c ∈ coords, (getMatchCount c tolerance mainI maskI).isSome = true) →
    ∀ init : List Str,
    coords.foldlM
      (fun potential c =>
        match getMatchCount c tolerance mainI maskI with
        | none => none
        | some netM =>
          if passesThreshold netM maskI matchPercent then some (potential ++ [c])
          else some potential)
      init =
    some (init ++ coords.filter (fun c =>
      match getMatchCount c tolerance mainI maskI with
      | none => false
      | some netM => passesThreshold netM maskI matchPercent)) := by
  intro coords
  induction coords with
  | nil => intro _ init; simp
  | cons c rest ih =>
    intro h init
    have hc := h c (List.mem_cons_self _ _)
    have hrest := fun q hq => h q (List.mem_cons_of_mem _ hq)
    obtain ⟨netM, hn⟩ := Option.isSome_iff_exists.1 hc
    rw [List.foldlM_cons, hn]
    by_cases hp : passesThreshold netM maskI matchPercent = true
    · simp only [hp, if_true, Option.bind_eq_bind, Option.some_bind]
      rw [ih hrest, List.filter_cons_of_pos (by simp [hn, hp])]
      simp
    · simp only [hp, Bool.false_eq_true, if_false, Option.bind_eq_bind, Option.some_bind]
      rw [ih hrest, List.filter_cons_of_neg (by simp [hn, hp])]

/-! ## Images of one colour -/

theorem flatten_replicate_getElem (r g b a : Byte) : ∀ (n k : Nat), k < n →
    (List.replicate n [r, g, b, a]).flatten[4 * k]? = some r ∧
    (List.replicate n [r, g, b, a]).flatten[4 * k + 1]? = some g ∧
    (List.replicate n [r, g, b, a]).flatten[4 * k + 2]? = some b ∧
    (List.replicate n [r, g, b, a]).flatten[4 * k + 3]? = some a := by
  intro n
  induction n with
  | zero => intro k hk; omega
  | succ n ih =>
    intro k hk
    cases k with
    | zero => simp [List.replicate_succ]
    | succ k =>
      obtain ⟨h0, h1, h2, h3⟩ := ih k (by omega)
      have e0 : 4 * (k + 1) = 4 * k + 3 + 1 := by omega
      have e1 : 4 * (k + 1) + 1 = 4 * k + 1 + 3 + 1 := by omega
      have e2 : 4 * (k + 1) + 2 = 4 * k + 2 + 3 + 1 := by omega
      have e3 : 4 * (k + 1) + 3 = 4 * k + 3 + 3 + 1 := by omega
      simp only [List.replicate_succ, List.flatten_cons, List.cons_append, List.nil_append]
      refine ⟨?_, ?_, ?_, ?_⟩
      · rw [e0]; simpa [List.getElem?_cons_succ] using h0
      · rw [e1]; simpa [List.getElem?_cons_succ] using h1
      · rw [e2]; simpa [List.getElem?_cons_succ] using h2
      · rw [e3]; simpa [List.getElem?_cons_succ] using h3

theorem readByte_natCast (buf : List Byte) (n : Nat) : readByte buf (n : Int) = buf[n]? := by
  simp [readByte]

theorem solid_getPixel (w h : Nat) (r g b a : Byte) (row col : Nat) (hr : row < h)
    (hc : col < w) : (solid w h r g b a).getPixel row col = some ⟨r, g, b, a⟩ := by
  have hk : row * w + col < w * h := by
    calc row * w + col < row * w + w := by omega
      _ = (row + 1) * w := by ring
      _ ≤ h * w := Nat.mul_le_mul_right w (by omega)
      _ = w * h := by ring
  obtain ⟨h0, h1, h2, h3⟩ := flatten_replicate_getElem r g b a (w * h) (row * w + col) hk
  have e0 : ((row : Int) * (w : Int) + (col : Int)) * 4 = ((4 * (row * w + col) : Nat) : Int) := by
    push_cast; ring
  have e1 : ((4 * (row * w + col) : Nat) : Int) + 1 =
      ((4 * (row * w + col) + 1 : Nat) : Int) := by push_cast; ring
  have e2 : ((4 * (row * w + col) : Nat) : Int) + 2 =
      ((4 * (row * w + col) + 2 : Nat) : Int) := by push_cast; ring
  have e3 : ((4 * (row * w + col) : Nat) : Int) + 3 =
      ((4 * (row * w + col) + 3 : Nat) : Int) := by push_cast; ring
  simp only [PNG.getPixel, solid, e0, e1, e2, e3, readByte_natCast, h0, h1, h2, h3]

theorem solid_pixelAt (w h : Nat) (r g b a : Byte) (row col r0 c0 : Nat) (hr : row + r0 < h)
    (hc : col + c0 < w) :
    (solid w h r g b a).pixelAt ((row : Int) + (r0 : Int)) ((col : Int) + (c0 : Int))
      = ⟨r, g, b, a⟩ := by
  have := solid_getPixel w h r g b a (row + r0) (col + c0) hr hc
  push_cast at this
  simp [PNG.pixelAt, this]

theorem solid_readsInBounds (r g b a : Byte) (r0 c0 : Nat) (hr0 : r0 ≤ 8) (hc0 : c0 ≤ 8) :
    ReadsInBounds (solid 10 10 r g b a) (solid 2 2 0 0 0 255) r0 c0
      (solid 2 2 0 0 0 255).getHeight (solid 2 2 0 0 0 255).getWidth := by
  intro row hrow col hcol
  have hrow2 : row < 2 := hrow
  have hcol2 : col < 2 := hcol
  constructor
  · rw [solid_getPixel 2 2 0 0 0 255 row col hrow2 hcol2]; rfl
  · have := solid_getPixel 10 10 r g b a (row + r0) (col + c0) (by omega) (by omega)
    push_cast at this
    rw [this]; rfl

theorem solid_channelSum (r g b a : Byte) (r0 c0 : Nat) (hr0 : r0 ≤ 8) (hc0 : c0 ≤ 8)
    (channel : Pixel → Byte) :
    channelSum (solid 10 10 r g b a) r0 c0 channel [(0, 0), (0, 1), (1, 0), (1, 1)] =
      4 * ((channel ⟨r, g, b, a⟩).val : Int) := by
  have h00 := solid_pixelAt 10 10 r g b a 0 0 r0 c0 (by omega) (by omega)
  have h01 := solid_pixelAt 10 10 r g b a 0 1 r0 c0 (by omega) (by omega)
  have h10 := solid_pixelAt 10 10 r g b a 1 0 r0 c0 (by omega) (by omega)
  have h11 := solid_pixelAt 10 10 r g b a 1 1 r0 c0 (by omega) (by omega)
  simp only [channelSum, List.map_cons, List.map_nil, List.sum_cons, List.sum_nil, h00, h01,
    h10, h11]
  ring

theorem toByte_fin (v : Byte) : toByte ((4 * (v.val : Int)).tdiv 4) = v := by
  have h : (4 * (v.val : Int)).tdiv 4 = (v.val : Int) :=
    Int.mul_tdiv_cancel_left _ (by decide)
  rw [h]
  apply Fin.ext
  have := v.isLt
  simp only [toByte]
  omega

theorem solid_background (r g b a : Byte) (r0 c0 : Nat) (hr0 : r0 ≤ 8) (hc0 : c0 ≤ 8) :
    computeBackgroundPixel (solid 10 10 r g b a) (solid 2 2 0 0 0 255) r0 c0
      (solid 2 2 0 0 0 255).getHeight (solid 2 2 0 0 0 255).getWidth = some ⟨r, g, b, 0⟩ := by
  have hb : backgroundPositions (solid 2 2 0 0 0 255) (solid 2 2 0 0 0 255).getHeight
      (solid 2 2 0 0 0 255).getWidth = [(0, 0), (0, 1), (1, 0), (1, 1)] := by decide
  rw [computeBackgroundPixel_eq _ _ _ _ _ _ (solid_readsInBounds r g b a r0 c0 hr0 hc0)
    (by rw [hb]; simp), hb]
  simp only [solid_channelSum r g b a r0 c0 hr0 hc0, List.length_cons, List.length_nil]
  have e : (((0 + 1 + 1 + 1 + 1 : Nat)) : Int) = 4 := by norm_num
  rw [e, toByte_fin, toByte_fin, toByte_fin]

theorem solid_score (r g b a : Byte) (r0 c0 : Nat) (hr0 : r0 ≤ 8) (hc0 : c0 ≤ 8) :
    getMatchCount (Region.encode ⟨r0, c0, (r0 : Int) + 2, (c0 : Int) + 2⟩) 10
      (solid 10 10 r g b a) (solid 2 2 0 0 0 255) = some 4 := by
  have hR : Region.IsInt ⟨r0, c0, (r0 : Int) + 2, (c0 : Int) + 2⟩ := by
    simp only [Region.IsInt, IsInt, INT_MIN, INT_MAX]; omega
  rw [getMatchCount_eq _ _ _ hR 10 ⟨r, g, b, 0⟩ (solid_readsInBounds r g b a r0 c0 hr0 hc0)
    (solid_background r g b a r0 c0 hr0 hc0)]
  have hp : positions (solid 2 2 0 0 0 255).getHeight.toNat (solid 2 2 0 0 0 255).getWidth.toNat
      = [(0, 0), (0, 1), (1, 0), (1, 1)] := by decide
  have hm : ∀ p ∈ [((0 : Nat), (0 : Nat)), (0, 1), (1, 0), (1, 1)],
      isBackgroundMaskPixel (solid 2 2 0 0 0 255) p.1 p.2 = true := by decide
  have hw : withinTolerance ⟨r, g, b, a⟩ ⟨r, g, b, 0⟩ 10 = true := by
    simp [withinTolerance]
  have h00 := solid_pixelAt 10 10 r g b a 0 0 r0 c0 (by omega) (by omega)
  have h01 := solid_pixelAt 10 10 r g b a 0 1 r0 c0 (by omega) (by omega)
  have h10 := solid_pixelAt 10 10 r g b a 1 0 r0 c0 (by omega) (by omega)
  have h11 := solid_pixelAt 10 10 r g b a 1 1 r0 c0 (by omega) (by omega)
  rw [hp]
  simp only [List.map_cons, List.map_nil, List.sum_cons, List.sum_nil, pixelScore, h00, h01,
    h10, h11, hw, hm (0, 0) (by simp), hm (0, 1) (by simp), hm (1, 0) (by simp),
    hm (1, 1) (by simp)]
  rfl

theorem solid_scores_all (r g b a : Byte) :
    ∀ c ∈ genCords 2 2 10 10,
      getMatchCount c 10 (solid 10 10 r g b a) (solid 2 2 0 0 0 255) = some 4 := by
  intro c hc
  rw [genCords_eq_spec 2 2 10 10 (by decide) (by decide)] at hc
  obtain ⟨R, hR, rfl⟩ := List.mem_map.1 hc
  simp only [candidateRegionsSpec, List.mem_flatMap, List.mem_range, List.mem_map] at hR
  obtain ⟨r0, hr0, c0, hc0, rfl⟩ := hR
  have e : ((10 : Int) - 2).toNat + 1 = 9 := by decide
  rw [e] at hr0 hc0
  exact solid_score r g b a r0 c0 (by omega) (by omega)

theorem solid_scoreLoop (r g b a : Byte) :
    scoreLoop (genCords 2 2 10 10) 10 (solid 10 10 r g b a) (solid 2 2 0 0 0 255) 50 =
      some (genCords 2 2 10 10) := by
  have h := scoreLoop_fold 10 (solid 10 10 r g b a) (solid 2 2 0 0 0 255) 50
    (genCords 2 2 10 10) (fun c hc => by rw [solid_scores_all r g b a c hc]; rfl) []
  unfold scoreLoop
  rw [h, List.nil_append, List.filter_eq_self.2]
  intro c hc
  rw [solid_scores_all r g b a c hc]
  decide

set_option maxRecDepth 100000 in
theorem scenario_suppress :
    suppress (sortPotential (genCords 2 2 10 10)) = some scenarioOneAccepted := by
  decide

theorem solid_imageSearch (r g b a : Byte) :
    imageSearch (solid 10 10 r g b a) (solid 2 2 0 0 0 255) 50 10 = some scenarioOneAccepted := by
  have h := solid_scoreLoop r g b a
  unfold imageSearch
  simp only [show (solid 2 2 0 0 0 255).getWidth = 2 from rfl,
    show (solid 2 2 0 0 0 255).getHeight = 2 from rfl,
    show (solid 10 10 r g b a).getWidth = 10 from rfl,
    show (solid 10 10 r g b a).getHeight = 10 from rfl, h]
  exact scenario_suppress

/-! ## The divisor of `computeBackgroundPixel` -/

theorem backgroundPositions_eq_nil_iff (mask : PNG) (maxRow maxCol : Int) :
    backgroundPositions mask maxRow maxCol = [] ↔
      ∀ row, row < maxRow.toNat → ∀ col, col < maxCol.toNat →
        (mask.pixelAt row col).rgba ≠ BlackRgba := by
  simp only [backgroundPositions, List.filter_eq_nil_iff, mem_positions, isBackgroundMaskPixel,
    decide_eq_true_eq, Prod.forall]
  constructor
  · intro h row hrow col hcol; exact h row col ⟨hrow, hcol⟩
  · intro h row col hp; exact h row hp.1 col hp.2

theorem computeBackgroundPixel_eq_none_iff (img1 mask : PNG)
    (startRow startCol maxRow maxCol : Int)
    (hin : ReadsInBounds img1 mask startRow startCol maxRow maxCol) :
    computeBackgroundPixel img1 mask startRow startCol maxRow maxCol = none ↔
      backgroundPositions mask maxRow maxCol = [] := by
  constructor
  · intro h
    by_contra hne
    rw [computeBackgroundPixel_eq _ _ _ _ _ _ hin hne] at h
    cases h
  · intro h
    simp [computeBackgroundPixel, bgLoop_eq _ _ _ _ _ _ hin, h]

/-! ## Suppression of a list without overlaps -/

theorem acceptAll_of_pairwise : ∀ (M accepted : List Region),
    (accepted ++ M).Pairwise (fun A B => A.overlaps B = false) →
    acceptAll accepted M = accepted ++ M := by
  intro M
  induction M with
  | nil => intro accepted _; simp [acceptAll]
  | cons R rest ih =>
    intro accepted h
    have hall : accepted.all (fun A => !A.overlaps R) = true := by
      rw [List.all_eq_true]
      intro A hA
      have := (List.pairwise_append.1 h).2.2 A hA R (List.mem_cons_self _ _)
      simp [this]
    have hstep : acceptStep accepted R = accepted ++ [R] := by
      simp [acceptStep, hall]
    have h2 : ((accepted ++ [R]) ++ rest).Pairwise (fun A B => A.overlaps B = false) := by
      simpa using h
    show acceptAll (acceptStep accepted R) rest = accepted ++ R :: rest
    rw [hstep, ih _ h2]
    simp

theorem acceptAll_idempotent (L : List Region) :
    acceptAll [] (acceptAll [] L) = acceptAll [] L := by
  rw [acceptAll_of_pairwise (acceptAll [] L) []
    (by simpa using acceptAll_pairwise L [] List.Pairwise.nil)]
  simp

/-! ## Bounds on the counters of the loops -/

theorem length_positions (rows cols : Nat) : (positions rows cols).length = rows * cols := by
  unfold positions
  induction rows with
  | zero => simp
  | succ n ih =>
    rw [List.range_succ, List.flatMap_append, List.length_append, ih]
    simp [Nat.succ_mul]

theorem foldlM_option_invariant {σ α : Type} (f : σ → α → Option σ) (P : σ → σ → Nat → Prop)
    (h0 : ∀ a, P a a 0)
    (hstep : ∀ a b c x n, P a b n → f b x = some c → P a c (n + 1)) :
    ∀ (xs : List α) (a b c : σ) (n : Nat), P a b n → xs.foldlM f b = some c →
      P a c (n + xs.length) := by
  have _h := h0
  intro xs
  induction xs with
  | nil =>
    intro a b c n hP hf
    simp only [List.foldlM_nil, Option.pure_def, Option.some.injEq] at hf
    subst hf
    simpa using hP
  | cons x rest ih =>
    intro a b c n hP hf
    rw [List.foldlM_cons] at hf
    cases hx : f b x with
    | none => rw [hx] at hf; cases hf
    | some d =>
      rw [hx] at hf
      have := ih a d c (n + 1) (hstep a b d x n hP hx) hf
      simpa [Nat.add_assoc, Nat.add_comm 1] using this

theorem matchStep_some (mainIMG maskIMG : PNG) (x y : Int) (bg : Pixel) (tol : Int)
    (acc acc1 : Int × Int) (row col : Nat)
    (h : matchStep mainIMG maskIMG x y bg tol acc row col = some acc1) :
    acc1.1 + acc1.2 = acc.1 + acc.2 + 1 ∧ acc.1 ≤ acc1.1 ∧ acc.2 ≤ acc1.2 := by
  unfold matchStep at h
  cases hp : mainIMG.getPixel (row + x) (col + y) with
  | none => rw [hp] at h; cases h
  | some pix =>
    cases hm : maskIMG.getPixel row col with
    | none => rw [hp, hm] at h; cases h
    | some m =>
      rw [hp, hm] at h
      simp only at h
      split_ifs at h <;> simp only [Option.some.injEq] at h <;> subst h <;> simp <;> omega

theorem matchFold_some (mainIMG maskIMG : PNG) (x y : Int) (bg : Pixel) (tol : Int)
    (ps : List (Nat × Nat)) (acc acc1 : Int × Int)
    (h : ps.foldlM (fun acc p => matchStep mainIMG maskIMG x y bg tol acc p.1 p.2) acc
      = some acc1) :
    acc1.1 + acc1.2 = acc.1 + acc.2 + (ps.length : Int) ∧ acc.1 ≤ acc1.1 ∧ acc.2 ≤ acc1.2 := by
  have := foldlM_option_invariant
    (fun acc (p : Nat × Nat) => matchStep mainIMG maskIMG x y bg tol acc p.1 p.2)
    (fun (a b : Int × Int) (n : Nat) =>
      b.1 + b.2 = a.1 + a.2 + (n : Int) ∧ a.1 ≤ b.1 ∧ a.2 ≤ b.2)
    (fun a => by simp)
    (fun a b c p n hP hf => by
      have := matchStep_some mainIMG maskIMG x y bg tol b c p.1 p.2 hf
      push_cast
      omega)
    ps acc acc acc1 0 (by simp) h
  simpa using this

theorem bgStep_some (img1 mask : PNG) (startRow startCol : Int) (acc acc1 : BgAcc)
    (row col : Nat) (h : bgStep img1 mask startRow startCol acc row col = some acc1) :
    acc.count ≤ acc1.count ∧ acc1.count ≤ acc.count + 1 := by
  unfold bgStep at h
  cases hm : mask.getPixel row col with
  | none => rw [hm] at h; cases h
  | some m =>
    rw [hm] at h
    simp only at h
    split_ifs at h
    · cases hp : img1.getPixel (row + startRow) (col + startCol) with
      | none => rw [hp] at h; cases h
      | some pix =>
        rw [hp] at h
        simp only [Option.some.injEq] at h
        subst h
        simp
    · simp only [Option.some.injEq] at h
      subst h
      simp

theorem bgFold_some (img1 mask : PNG) (startRow startCol : Int)
    (ps : List (Nat × Nat)) (acc acc1 : BgAcc)
    (h : ps.foldlM (fun acc p => bgStep img1 mask startRow startCol acc p.1 p.2) acc
      = some acc1) :
    acc.count ≤ acc1.count ∧ acc1.count ≤ acc.count + (ps.length : Int) := by
  have := foldlM_option_invariant
    (fun acc (p : Nat × Nat) => bgStep img1 mask startRow startCol acc p.1 p.2)
    (fun (a b : BgAcc) (n : Nat) => a.count ≤ b.count ∧ b.count ≤ a.count + (n : Int))
    (fun a => by simp)
    (fun a b c p n hP hf => by
      have := bgStep_some img1 mask startRow startCol b c p.1 p.2 hf
      push_cast
      omega)
    ps acc acc acc1 0 (by simp) h
  simpa using this

theorem computeBackgroundPixel_some_area (img1 mask : PNG)
    (startRow startCol maxRow maxCol : Int) (bg : Pixel)
    (h : computeBackgroundPixel img1 mask startRow startCol maxRow maxCol = some bg) :
    0 < maxRow.toNat * maxCol.toNat := by
  unfold computeBackgroundPixel at h
  cases hl : bgLoop img1 mask startRow startCol maxRow maxCol with
  | none => rw [hl] at h; cases h
  | some acc =>
    rw [hl] at h
    simp only at h
    split_ifs at h with hc
    unfold bgLoop at hl
    rw [foldlM_nested (fun acc r c => bgStep img1 mask startRow startCol acc r c)] at hl
    have hb := bgFold_some img1 mask startRow startCol
      (positions maxRow.toNat maxCol.toNat) ⟨0, 0, 0, 0⟩ acc hl
    rw [length_positions] at hb
    simp only at hb
    by_contra hz
    have hz0 : maxRow.toNat * maxCol.toNat = 0 := by omega
    rw [hz0] at hb
    simp only [Nat.cast_zero] at hb
    omega

theorem matchLoop_some (mainIMG maskIMG : PNG) (x y : Int) (bg : Pixel) (tol : Int)
    (acc : Int × Int) (h : matchLoop mainIMG maskIMG x y bg tol = some acc) :
    acc.1 + acc.2 = ((maskIMG.getHeight.toNat * maskIMG.getWidth.toNat : Nat) : Int) ∧
      0 ≤ acc.1 ∧ 0 ≤ acc.2 := by
  unfold matchLoop at h
  rw [foldlM_nested (fun acc r c => matchStep mainIMG maskIMG x y bg tol acc r c)] at h
  have hb := matchFold_some mainIMG maskIMG x y bg tol
    (positions maskIMG.getHeight.toNat maskIMG.getWidth.toNat) (0, 0) acc h
  rw [length_positions] at hb
  simpa using hb

theorem getMatchCount_some (region : Str) (tol : Int) (mainIMG maskIMG : PNG) (s : Int)
    (h : getMatchCount region tol mainIMG maskIMG = some s) :
    ∃ matchPixCount mismatchPixCount : Int,
      0 ≤ matchPixCount ∧ 0 ≤ mismatchPixCount ∧
      matchPixCount + mismatchPixCount = maskIMG.getWidth * maskIMG.getHeight ∧
      s = matchPixCount - mismatchPixCount := by
  unfold getMatchCount at h
  cases hr : read4 region with
  | none => rw [hr] at h; cases h
  | some q =>
    obtain ⟨x, y, xEnd, yEnd⟩ := q
    rw [hr] at h
    simp only at h
    cases hb : computeBackgroundPixel mainIMG maskIMG x y maskIMG.getHeight maskIMG.getWidth with
    | none => rw [hb] at h; cases h
    | some bg =>
      rw [hb] at h
      simp only at h
      cases hm : matchLoop mainIMG maskIMG x y bg tol with
      | none => rw [hm] at h; cases h
      | some acc =>
        obtain ⟨m, mm⟩ := acc
        rw [hm] at h
        simp only [Option.some.injEq] at h
        have harea := computeBackgroundPixel_some_area _ _ _ _ _ _ _ hb
        obtain ⟨h1, h2, h3⟩ := matchLoop_some _ _ _ _ _ _ _ hm
        have hpos : 0 < maskIMG.getHeight.toNat ∧ 0 < maskIMG.getWidth.toNat := by
          constructor
          · exact Nat.pos_of_ne_zero (fun h0 => by rw [h0] at harea; simp at harea)
          · exact Nat.pos_of_ne_zero (fun h0 => by rw [h0] at harea; simp at harea)
        have eh : ((maskIMG.getHeight.toNat : Nat) : Int) = maskIMG.getHeight :=
          Int.toNat_of_nonneg (by omega)
        have ew : ((maskIMG.getWidth.toNat : Nat) : Int) = maskIMG.getWidth :=
          Int.toNat_of_nonneg (by omega)
        refine ⟨m, mm, h2, h3, ?_, h.symm⟩
        simp only at h1
        rw [h1]
        push_cast
        rw [eh, ew]
        ring

/-! ## The candidates of `genCords` are distinct and in ascending order -/

theorem candidateRegionsSpec_eq_map (maskWidth maskHeight mainWidth mainHeight : Int) :
    candidateRegionsSpec maskWidth maskHeight mainWidth mainHeight =
      (positions ((mainHeight - maskHeight).toNat + 1) ((mainWidth - maskWidth).toNat + 1)).map
        (fun p => ⟨(p.1 : Int), (p.2 : Int), (p.1 : Int) + maskHeight, (p.2 : Int) + maskWidth⟩) := by
  simp [candidateRegionsSpec, positions, List.map_flatMap, Function.comp_def]

theorem mem_candidateRegionsSpec (maskWidth maskHeight mainWidth mainHeight : Int) (R : Region) :
    R ∈ candidateRegionsSpec maskWidth maskHeight mainWidth mainHeight ↔
      ∃ r c : Nat, r ≤ (mainHeight - maskHeight).toNat ∧ c ≤ (mainWidth - maskWidth).toNat ∧
        R = ⟨(r : Int), (c : Int), (r : Int) + maskHeight, (c : Int) + maskWidth⟩ := by
  rw [candidateRegionsSpec_eq_map]
  simp only [List.mem_map, mem_positions, Prod.exists]
  constructor
  · rintro ⟨r, c, ⟨hr, hc⟩, rfl⟩
    exact ⟨r, c, by omega, by omega, rfl⟩
  · rintro ⟨r, c, hr, hc, rfl⟩
    exact ⟨r, c, ⟨by omega, by omega⟩, rfl⟩

theorem positions_pairwise (rows cols : Nat) :
    (positions rows cols).Pairwise (fun p q => p.1 < q.1 ∨ (p.1 = q.1 ∧ p.2 < q.2)) := by
  unfold positions
  rw [List.pairwise_flatMap]
  constructor
  · intro r _
    rw [List.pairwise_map]
    exact (List.pairwise_lt_range cols).imp (fun h => Or.inr ⟨rfl, h⟩)
  · refine (List.pairwise_lt_range rows).imp ?_
    intro r1 r2 h x hx y hy
    obtain ⟨c1, -, rfl⟩ := List.mem_map.1 hx
    obtain ⟨c2, -, rfl⟩ := List.mem_map.1 hy
    exact Or.inl h

theorem candidateRegionsSpec_pairwise (maskWidth maskHeight mainWidth mainHeight : Int) :
    (candidateRegionsSpec maskWidth maskHeight mainWidth mainHeight).Pairwise Region.lexLt := by
  rw [candidateRegionsSpec_eq_map, List.pairwise_map]
  refine (positions_pairwise _ _).imp ?_
  intro p q h
  simp only [Region.lexLt]
  omega

theorem candidateRegionsSpec_isInt (maskWidth maskHeight mainWidth mainHeight : Int)
    (hw0 : 0 < maskWidth) (hh0 : 0 < maskHeight)
    (hw : maskWidth ≤ mainWidth) (hh : maskHeight ≤ mainHeight)
    (hW : IsInt mainWidth) (hH : IsInt mainHeight) :
    ∀ R ∈ candidateRegionsSpec maskWidth maskHeight mainWidth mainHeight, R.IsInt := by
  intro R hR
  obtain ⟨r, c, hr, hc, rfl⟩ := (mem_candidateRegionsSpec _ _ _ _ R).1 hR
  simp only [IsInt, INT_MIN, INT_MAX] at hW hH
  simp only [Region.IsInt, IsInt, INT_MIN, INT_MAX]
  omega

theorem candidateRegionsSpec_length (maskWidth maskHeight mainWidth mainHeight : Int)
    (hw : maskWidth ≤ mainWidth) (hh : maskHeight ≤ mainHeight) :
    ((candidateRegionsSpec maskWidth maskHeight mainWidth mainHeight).length : Int) =
      (mainHeight - maskHeight + 1) * (mainWidth - maskWidth + 1) := by
  rw [candidateRegionsSpec_eq_map, List.length_map, length_positions]
  push_cast
  rw [Int.toNat_of_nonneg (by omega), Int.toNat_of_nonneg (by omega)]

theorem genCords_nodup (maskWidth maskHeight mainWidth mainHeight : Int)
    (hw0 : 0 < maskWidth) (hh0 : 0 < maskHeight)
    (hw : maskWidth ≤ mainWidth) (hh : maskHeight ≤ mainHeight)
    (hW : IsInt mainWidth) (hH : IsInt mainHeight) :
    (genCords maskWidth maskHeight mainWidth mainHeight).Nodup := by
  rw [genCords_eq_spec _ _ _ _ hw hh]
  have hint := candidateRegionsSpec_isInt _ _ _ _ hw0 hh0 hw hh hW hH
  apply List.Nodup.map_on
  · intro A hA B hB he
    exact encode_injective A B (hint A hA) (hint B hB) he
  · refine (candidateRegionsSpec_pairwise _ _ _ _).imp ?_
    intro A B hlt he
    subst he
    simp only [Region.lexLt] at hlt
    omega

/-! ## A mask larger than the main image -/

theorem genCords_eq_nil (maskWidth maskHeight mainWidth mainHeight : Int)
    (h : mainWidth < maskWidth ∨ mainHeight < maskHeight) :
    genCords maskWidth maskHeight mainWidth mainHeight = [] := by
  rw [genCords_eq_flatMap]
  rcases h with h | h
  · have e : (mainWidth - maskWidth + 1).toNat = 0 := by omega
    rw [e]
    simp
  · have e : (mainHeight - maskHeight + 1).toNat = 0 := by omega
    rw [e]
    simp

/-! ## Sorting the potential matches -/

theorem lexLt_irrefl (A : Region) : ¬ A.lexLt A := by
  simp only [Region.lexLt]; omega

theorem lexLt_trans (A B C : Region) (h1 : A.lexLt B) (h2 : B.lexLt C) : A.lexLt C := by
  simp only [Region.lexLt] at h1 h2 ⊢; omega

theorem lexLt_asymm (A B : Region) (h1 : A.lexLt B) : ¬ B.lexLt A := by
  simp only [Region.lexLt] at h1 ⊢; omega

theorem lexLt_trichotomy (A B : Region) (h : A ≠ B) : A.lexLt B ∨ B.lexLt A := by
  have hne : A.topRow ≠ B.topRow ∨ A.topCol ≠ B.topCol ∨
      A.bottomRow ≠ B.bottomRow ∨ A.bottomCol ≠ B.bottomCol := by
    by_contra hc
    apply h
    cases A; cases B
    simp only [Region.mk.injEq]
    simp only [ne_eq, not_or, not_not] at hc
    exact hc
  simp only [Region.lexLt]; omega

theorem orderedInsert_lexLt_sorted (a : Region) : ∀ l : List Region,
    l.Pairwise Region.lexLt → a ∉ l →
    (l.orderedInsert (fun A B => A.lexLt B) a).Pairwise Region.lexLt := by
  intro l
  induction l with
  | nil => intro _ _; simp
  | cons b rest ih =>
    intro hs ha
    have hab : a ≠ b := fun e => ha (e ▸ List.mem_cons_self _ _)
    have har : a ∉ rest := fun hm => ha (List.mem_cons_of_mem _ hm)
    obtain ⟨hb, hrest⟩ := List.pairwise_cons.1 hs
    simp only [List.orderedInsert]
    split_ifs with hlt
    · refine List.pairwise_cons.2 ⟨?_, hs⟩
      intro x hx
      rcases List.mem_cons.1 hx with rfl | hx
      · exact hlt
      · exact lexLt_trans _ _ _ hlt (hb x hx)
    · have hba : b.lexLt a := by
        rcases lexLt_trichotomy a b hab with h | h
        · exact absurd h hlt
        · exact h
      refine List.pairwise_cons.2 ⟨?_, ih hrest har⟩
      intro x hx
      rcases (List.mem_orderedInsert _).1 hx with rfl | hx
      · exact hba
      · exact hb x hx

theorem insertionSort_lexLt_sorted : ∀ L : List Region, L.Nodup →
    (L.insertionSort (fun A B => A.lexLt B)).Pairwise Region.lexLt := by
  intro L
  induction L with
  | nil => intro _; simp
  | cons a rest ih =>
    intro hd
    obtain ⟨ha, hrest⟩ := List.nodup_cons.1 hd
    simp only [List.insertionSort]
    exact orderedInsert_lexLt_sorted a _ (ih hrest)
      (fun hm => ha ((List.mem_insertionSort _).1 hm))

theorem lexLt_sorted_perm_unique (M1 M2 : List Region) (hp : M1.Perm M2)
    (h1 : M1.Pairwise Region.lexLt) (h2 : M2.Pairwise Region.lexLt) : M1 = M2 := by
  haveI : IsAntisymm Region Region.lexLt :=
    ⟨fun A B hab hba => absurd hba (lexLt_asymm A B hab)⟩
  exact List.eq_of_perm_of_sorted hp h1 h2

theorem sortPotential_encode (L : List Region) (hL : ∀ R ∈ L, R.IsInt) :
    sortPotential (L.map Region.encode) =
      (L.insertionSort (fun A B => A.lexLt B)).map Region.encode := by
  unfold sortPotential
  rw [List.map_insertionSort (fun A B => A.lexLt B) (fun a b => customSort a b = true)
    Region.encode L]
  intro A hA B hB
  exact (customSort_encode_iff A B (hL A hA) (hL B hB)).symm

theorem perm_map_inv {α β : Type} (f : α → β) : ∀ (L : List α) (S : List β),
    S.Perm (L.map f) → ∃ M : List α, M.Perm L ∧ M.map f = S := by
  intro L
  induction L with
  | nil =>
    intro S hp
    exact ⟨[], List.Perm.refl _, by simpa using hp.eq_nil⟩
  | cons a rest ih =>
    intro S hp
    have hmem : f a ∈ S := hp.mem_iff.2 (by simp)
    obtain ⟨S1, S2, rfl⟩ := List.append_of_mem hmem
    have hp2 : (S1 ++ S2).Perm (rest.map f) := by
      have : (f a :: (S1 ++ S2)).Perm (f a :: rest.map f) :=
        (List.perm_middle.symm).trans (by simpa using hp)
      exact this.cons_inv
    obtain ⟨M, hM, hMf⟩ := ih (S1 ++ S2) hp2
    refine ⟨M.take S1.length ++ a :: M.drop S1.length, ?_, ?_⟩
    · refine List.perm_middle.trans ?_
      rw [List.take_append_drop]
      exact hM.cons a
    · rw [List.map_append, List.map_cons, List.map_take, List.map_drop, hMf,
        List.take_left, List.drop_left]

theorem sorted_output_unique (L : List Region) (hL : ∀ R ∈ L, R.IsInt) (hd : L.Nodup)
    (S : List Str) (hp : S.Perm (L.map Region.encode))
    (hs : S.Pairwise (fun a b => customSort b a = false)) :
    S = sortPotential (L.map Region.encode) := by
  obtain ⟨M, hM, rfl⟩ := perm_map_inv Region.encode L S hp
  have hMint : ∀ R ∈ M, R.IsInt := fun R hR => hL R (hM.mem_iff.1 hR)
  have hMd : M.Nodup := hM.symm.nodup hd
  have h1 : M.Pairwise (fun A B => ¬ B.lexLt A) := by
    rw [List.pairwise_map] at hs
    refine hs.imp_of_mem ?_
    intro A B hA hB h hlt
    rw [(customSort_encode_iff B A (hMint B hB) (hMint A hA)).2 hlt] at h
    cases h
  have h2 : M.Pairwise Region.lexLt := by
    refine (hMd.and h1).imp ?_
    intro A B h
    rcases lexLt_trichotomy A B h.1 with hlt | hlt
    · exact hlt
    · exact absurd hlt h.2
  rw [sortPotential_encode L hL]
  congr 1
  exact lexLt_sorted_perm_unique _ _ (hM.trans (List.perm_insertionSort _ L).symm) h2
    (insertionSort_lexLt_sorted L hd)

theorem sortPotential_perm (L1 L2 : List Region) (hL : ∀ R ∈ L1, R.IsInt) (hd : L1.Nodup)
    (hp : L1.Perm L2) :
    sortPotential (L1.map Region.encode) = sortPotential (L2.map Region.encode) := by
  have hL2 : ∀ R ∈ L2, R.IsInt := fun R hR => hL R (hp.mem_iff.2 hR)
  rw [sortPotential_encode L1 hL, sortPotential_encode L2 hL2]
  congr 1
  exact lexLt_sorted_perm_unique _ _
    (((List.perm_insertionSort _ L1).trans hp).trans (List.perm_insertionSort _ L2).symm)
    (insertionSort_lexLt_sorted L1 hd) (insertionSort_lexLt_sorted L2 (hp.nodup hd))

/-! ## `setRed` and `drawBox` on the pixel grid -/

theorem readByte_set (buf : List Byte) (i j : Int) (v : Byte) (hi : 0 ≤ i)
    (hlt : i.toNat < buf.length) :
    readByte (buf.set i.toNat v) j = if j = i then some v else readByte buf j := by
  unfold readByte
  by_cases hj : 0 ≤ j
  · simp only [hj, if_true, List.getElem?_set]
    by_cases he : j = i
    · subst he; simp [hlt]
    · have : i.toNat ≠ j.toNat := by omega
      simp [he, this]
  · have : j ≠ i := by omega
    simp [hj, this]

theorem writeByte_eq (buf : List Byte) (i : Int) (v : Byte) (hi : 0 ≤ i)
    (hlt : i.toNat < buf.length) : writeByte buf i v = some (buf.set i.toNat v) := by
  simp [writeByte, hi, hlt]

theorem setRed_spec (p : PNG) (row col : Int) (h0 : 0 ≤ row * p.width + col)
    (hlt : (row * p.width + col) * 4 + 3 < (p.flatImageBuffer.length : Int)) :
    ∃ q : PNG, p.setRed row col = some q ∧ q.width = p.width ∧ q.height = p.height ∧
      q.flatImageBuffer.length = p.flatImageBuffer.length ∧
      ∀ r c : Int, q.getPixel r c =
        if r * p.width + c = row * p.width + col then some redPixel else p.getPixel r c := by
  generalize hk : row * p.width + col = k at h0 hlt
  obtain ⟨w, h, buf⟩ := p
  simp only at hk hlt
  have l1 : (buf.set (k * 4 + 2).toNat 0).length = buf.length := List.length_set _ _ _
  have l2 : ((buf.set (k * 4 + 2).toNat 0).set (k * 4 + 1).toNat 0).length = buf.length := by
    rw [List.length_set, l1]
  have l3 : (((buf.set (k * 4 + 2).toNat 0).set (k * 4 + 1).toNat 0).set
      (k * 4 + 3).toNat 255).length = buf.length := by
    rw [List.length_set, l2]
  have r1 : ∀ j, readByte (buf.set (k * 4 + 2).toNat 0) j =
      if j = k * 4 + 2 then some 0 else readByte buf j :=
    fun j => readByte_set buf (k * 4 + 2) j 0 (by omega) (by omega)
  have r2 : ∀ j, readByte ((buf.set (k * 4 + 2).toNat 0).set (k * 4 + 1).toNat 0) j =
      if j = k * 4 + 1 then some 0 else readByte (buf.set (k * 4 + 2).toNat 0) j :=
    fun j => readByte_set _ (k * 4 + 1) j 0 (by omega) (by omega)
  have r3 : ∀ j, readByte (((buf.set (k * 4 + 2).toNat 0).set (k * 4 + 1).toNat 0).set
      (k * 4 + 3).toNat 255) j =
      if j = k * 4 + 3 then some 255
      else readByte ((buf.set (k * 4 + 2).toNat 0).set (k * 4 + 1).toNat 0) j :=
    fun j => readByte_set _ (k * 4 + 3) j 255 (by omega) (by omega)
  have r4 : ∀ j, readByte ((((buf.set (k * 4 + 2).toNat 0).set (k * 4 + 1).toNat 0).set
      (k * 4 + 3).toNat 255).set (k * 4).toNat 255) j =
      if j = k * 4 then some 255
      else readByte (((buf.set (k * 4 + 2).toNat 0).set (k * 4 + 1).toNat 0).set
        (k * 4 + 3).toNat 255) j :=
    fun j => readByte_set _ (k * 4) j 255 (by omega) (by omega)
  refine ⟨⟨w, h, (((buf.set (k * 4 + 2).toNat 0).set (k * 4 + 1).toNat 0).set
      (k * 4 + 3).toNat 255).set (k * 4).toNat 255⟩, ?_, rfl, rfl, ?_, ?_⟩
  · simp only [PNG.setRed, hk]
    rw [writeByte_eq buf (k * 4 + 2) 0 (by omega) (by omega)]
    simp only
    rw [writeByte_eq _ (k * 4 + 1) 0 (by omega) (by omega)]
    simp only
    rw [writeByte_eq _ (k * 4 + 3) 255 (by omega) (by omega)]
    simp only
    rw [writeByte_eq _ (k * 4) 255 (by omega) (by omega)]
  · simp only [List.length_set]
  · intro r c
    simp only [PNG.getPixel]
    generalize r * w + c = k2
    by_cases hkk : k2 = k
    · subst hkk
      rw [if_pos rfl, r4, if_pos rfl,
        r4, if_neg (by omega), r3, if_neg (by omega), r2, if_pos rfl,
        r4, if_neg (by omega), r3, if_neg (by omega), r2, if_neg (by omega), r1, if_pos rfl,
        r4, if_neg (by omega), r3, if_pos rfl]
      rfl
    · rw [if_neg hkk]
      have rne : ∀ j, j ≠ k * 4 → j ≠ k * 4 + 1 → j ≠ k * 4 + 2 → j ≠ k * 4 + 3 →
          readByte ((((buf.set (k * 4 + 2).toNat 0).set (k * 4 + 1).toNat 0).set
            (k * 4 + 3).toNat 255).set (k * 4).toNat 255) j = readByte buf j := by
        intro j n0 n1 n2 n3
        rw [r4, if_neg n0, r3, if_neg n3, r2, if_neg n1, r1, if_neg n2]
      rw [rne (k2 * 4) (by omega) (by omega) (by omega) (by omega),
        rne (k2 * 4 + 1) (by omega) (by omega) (by omega) (by omega),
        rne (k2 * 4 + 2) (by omega) (by omega) (by omega) (by omega),
        rne (k2 * 4 + 3) (by omega) (by omega) (by omega) (by omega)]

theorem grid_index_inj (W r c r2 c2 : Int) (hc : 0 ≤ c ∧ c < W) (hc2 : 0 ≤ c2 ∧ c2 < W) :
    r * W + c = r2 * W + c2 ↔ r = r2 ∧ c = c2 := by
  constructor
  · intro h
    have hr : r = r2 := by
      rcases lt_trichotomy r r2 with hlt | heq | hgt
      · exfalso
        have : (r2 - r) * W ≥ 1 * W := by
          apply mul_le_mul_of_nonneg_right <;> omega
        nlinarith
      · exact heq
      · exfalso
        have : (r - r2) * W ≥ 1 * W := by
          apply mul_le_mul_of_nonneg_right <;> omega
        nlinarith
    subst hr
    exact ⟨rfl, by omega⟩
  · rintro ⟨rfl, rfl⟩; rfl

theorem grid_index_bounds (W H r c : Int) (hr : 0 ≤ r ∧ r < H) (hc : 0 ≤ c ∧ c < W) :
    0 ≤ r * W + c ∧ (r * W + c) * 4 + 3 < H * W * 4 := by
  have h1 : 0 ≤ r * W := mul_nonneg hr.1 (by omega)
  have h2 : (r + 1) * W ≤ H * W := by
    apply mul_le_mul_of_nonneg_right <;> omega
  constructor
  · omega
  · nlinarith

theorem setRed_grid (p : PNG) (hwf : p.WellFormed) (row col : Int) (hin : p.InGrid row col) :
    ∃ q : PNG, p.setRed row col = some q ∧ q.WellFormed ∧ q.width = p.width ∧
      q.height = p.height ∧
      ∀ r c : Int, p.InGrid r c → q.getPixel r c =
        if r = row ∧ c = col then some redPixel else p.getPixel r c := by
  obtain ⟨hw0, hh0, hlen⟩ := hwf
  obtain ⟨hr0, hr1, hc0, hc1⟩ := hin
  have hb := grid_index_bounds p.width p.height row col ⟨hr0, hr1⟩ ⟨hc0, hc1⟩
  simp only [PNG.getBufferSize] at hlen
  obtain ⟨q, hq, hqw, hqh, hql, hqp⟩ := setRed_spec p row col hb.1 (by rw [hlen]; exact hb.2)
  refine ⟨q, hq, ⟨by omega, by omega, ?_⟩, hqw, hqh, ?_⟩
  · simp only [PNG.getBufferSize, hqw, hqh, hql, hlen]
  · intro r c hrc
    rw [hqp r c]
    have := grid_index_inj p.width r c row col ⟨hrc.2.2.1, hrc.2.2.2⟩ ⟨hc0, hc1⟩
    by_cases h : r = row ∧ c = col
    · rw [if_pos (this.2 h), if_pos h]
    · rw [if_neg (fun hh => h (this.1 hh)), if_neg h]

theorem setRed_calls_grid : ∀ (calls : List (Int × Int)) (p : PNG), p.WellFormed →
    (∀ rc ∈ calls, p.InGrid rc.1 rc.2) →
    ∃ q : PNG, calls.foldlM (fun (png : PNG) rc => png.setRed rc.1 rc.2) p = some q ∧
      q.WellFormed ∧ q.width = p.width ∧ q.height = p.height ∧
      ∀ r c : Int, p.InGrid r c → q.getPixel r c =
        if (r, c) ∈ calls then some redPixel else p.getPixel r c := by
  intro calls
  induction calls with
  | nil => intro p hwf _; exact ⟨p, rfl, hwf, rfl, rfl, fun r c _ => by simp⟩
  | cons rc rest ih =>
    intro p hwf hin
    obtain ⟨p1, h1, hwf1, hw1, hh1, hp1⟩ := setRed_grid p hwf rc.1 rc.2
      (hin rc (List.mem_cons_self _ _))
    have hin1 : ∀ x ∈ rest, p1.InGrid x.1 x.2 := by
      intro x hx
      have := hin x (List.mem_cons_of_mem _ hx)
      simp only [PNG.InGrid, hw1, hh1] at this ⊢
      exact this
    obtain ⟨q, hq, hwfq, hwq, hhq, hpq⟩ := ih p1 hwf1 hin1
    refine ⟨q, ?_, hwfq, hwq.trans hw1, hhq.trans hh1, ?_⟩
    · rw [List.foldlM_cons, h1]; exact hq
    · intro r c hrc
      have hrc1 : p1.InGrid r c := by
        simp only [PNG.InGrid, hw1, hh1] at hrc ⊢
        exact hrc
      rw [hpq r c hrc1, hp1 r c hrc]
      by_cases hm : (r, c) ∈ rest
      · rw [if_pos hm, if_pos (List.mem_cons_of_mem _ hm)]
      · by_cases he : r = rc.1 ∧ c = rc.2
        · have hmem : (r, c) ∈ rc :: rest := by
            obtain ⟨rfl, rfl⟩ := he
            exact List.mem_cons_self _ _
          rw [if_neg hm, if_pos he, if_pos hmem]
        · have hmem : (r, c) ∉ rc :: rest := by
            intro hh
            rcases List.mem_cons.1 hh with hh | hh
            · apply he; rw [← hh]; exact ⟨rfl, rfl⟩
            · exact hm hh
          rw [if_neg hm, if_neg he, if_neg hmem]

theorem foldlM_flatMap_pair {σ α : Type} (f : σ → α → Option σ) (g1 g2 : Nat → α) :
    ∀ (xs : List Nat) (init : σ),
    (xs.flatMap (fun (i : Nat) => [g1 i, g2 i])).foldlM f init =
      xs.foldlM (fun s (i : Nat) => (f s (g1 i)).bind (fun s1 => f s1 (g2 i))) init := by
  intro xs
  induction xs with
  | nil => intro init; rfl
  | cons x rest ih =>
    intro init
    simp only [List.flatMap_cons, List.foldlM_append, List.foldlM_cons, List.foldlM_nil]
    cases h1 : f init (g1 x) with
    | none => rfl
    | some s1 =>
      cases h2 : f s1 (g2 x) with
      | none => simp [h2]
      | some s2 => simp [h2, ih]

theorem drawHorizontal_eq_bind (row col height : Int) :
    (fun (s : PNG) (i : Nat) =>
      (s.setRed row (col + (i : Int))).bind
        (fun s1 => s1.setRed (row + height) (col + (i : Int)))) =
      drawHorizontal row col height := by
  funext s i
  unfold drawHorizontal
  cases s.setRed row (col + (i : Int)) <;> rfl

theorem drawVertical_eq_bind (row col width : Int) :
    (fun (s : PNG) (i : Nat) =>
      (s.setRed (row + (i : Int)) col).bind
        (fun s1 => s1.setRed (row + (i : Int)) (col + width))) =
      drawVertical row col width := by
  funext s i
  unfold drawVertical
  cases s.setRed (row + (i : Int)) col <;> rfl

theorem drawBox_eq_calls (png : PNG) (row col width height : Int) :
    drawBox png row col width height =
      (drawBoxCalls row col width height).foldlM
        (fun (p : PNG) rc => p.setRed rc.1 rc.2) png := by
  unfold drawBox drawBoxCalls
  have hA := foldlM_flatMap_pair (fun (p : PNG) (rc : Int × Int) => p.setRed rc.1 rc.2)
      (fun i => (row, col + (i : Int))) (fun i => (row + height, col + (i : Int)))
      (List.range width.toNat)
  have hB := foldlM_flatMap_pair (fun (p : PNG) (rc : Int × Int) => p.setRed rc.1 rc.2)
      (fun i => (row + (i : Int), col)) (fun i => (row + (i : Int), col + width))
      (List.range height.toNat)
  simp only [List.foldlM_append, hA, hB, drawHorizontal_eq_bind, drawVertical_eq_bind]
  cases List.foldlM (drawHorizontal row col height) png (List.range width.toNat) <;> rfl

theorem mem_drawBoxCalls (row col width height r c : Int) :
    (r, c) ∈ drawBoxCalls row col width height ↔
      (∃ i : Nat, i < width.toNat ∧
        ((r = row ∧ c = col + (i : Int)) ∨ (r = row + height ∧ c = col + (i : Int)))) ∨
      (∃ i : Nat, i < height.toNat ∧
        ((r = row + (i : Int) ∧ c = col) ∨ (r = row + (i : Int) ∧ c = col + width))) := by
  simp only [drawBoxCalls, List.mem_append, List.mem_flatMap, List.mem_range, List.mem_cons,
    Prod.mk.injEq, List.mem_singleton, List.not_mem_nil, or_false]

theorem drawBoxCalls_onPerimeter (row col width height r c : Int)
    (hw : 0 ≤ width) (hh : 0 ≤ height) (h : (r, c) ∈ drawBoxCalls row col width height) :
    OnPerimeter row col width height r c ∧ ¬ (r = row + height ∧ c = col + width) := by
  rw [mem_drawBoxCalls] at h
  unfold OnPerimeter
  rcases h with ⟨i, hi, h | h⟩ | ⟨i, hi, h | h⟩ <;> omega

theorem drawBoxCalls_inGrid (png : PNG) (row col width height : Int)
    (hbox : BoxInBounds png row col width height) :
    ∀ rc ∈ drawBoxCalls row col width height, png.InGrid rc.1 rc.2 := by
  intro rc hrc
  obtain ⟨r, c⟩ := rc
  unfold BoxInBounds at hbox
  have h := (drawBoxCalls_onPerimeter row col width height r c hbox.2.2.1 hbox.2.2.2.1 hrc).1
  unfold OnPerimeter at h
  unfold PNG.InGrid
  simp only
  omega

theorem drawBox_grid (png : PNG) (hwf : png.WellFormed) (row col width height : Int)
    (hbox : BoxInBounds png row col width height) :
    ∃ q : PNG, drawBox png row col width height = some q ∧ q.WellFormed ∧
      q.width = png.width ∧ q.height = png.height ∧
      ∀ r c : Int, png.InGrid r c → q.getPixel r c =
        if (r, c) ∈ drawBoxCalls row col width height then some redPixel
        else png.getPixel r c := by
  rw [drawBox_eq_calls]
  exact setRed_calls_grid _ png hwf (drawBoxCalls_inGrid png row col width height hbox)

theorem mem_drawBoxCalls_of_perimeter (row col width height r c : Int)
    (hw : 0 ≤ width) (hh : 0 ≤ height) (hp : OnPerimeter row col width height r c)
    (hne : ¬ (r = row + height ∧ c = col + width)) :
    (r, c) ∈ drawBoxCalls row col width height := by
  rw [mem_drawBoxCalls]
  obtain ⟨h1, h2, h3, h4, h5⟩ := hp
  by_cases hc : c = col + width
  · right
    exact ⟨(r - row).toNat, by omega, Or.inr ⟨by omega, hc⟩⟩
  · by_cases hr : r = row ∨ r = row + height
    · left
      refine ⟨(c - col).toNat, by omega, ?_⟩
      rcases hr with hr | hr
      · exact Or.inl ⟨hr, by omega⟩
      · exact Or.inr ⟨hr, by omega⟩
    · right
      exact ⟨(r - row).toNat, by omega, Or.inl ⟨by omega, by omega⟩⟩

/-- What `drawBox` does on the perimeter: every perimeter pixel other than the
bottom-right corner `(row + height, col + width)` becomes red, and that corner
keeps its value. -/
theorem drawBox_perimeter (png : PNG) (hwf : png.WellFormed) (row col width height : Int)
    (hbox : BoxInBounds png row col width height) :
    ∃ q : PNG, drawBox png row col width height = some q ∧
      (∀ r c : Int, OnPerimeter row col width height r c →
        ¬ (r = row + height ∧ c = col + width) → q.getPixel r c = some redPixel) ∧
      q.getPixel (row + height) (col + width) = png.getPixel (row + height) (col + width) := by
  obtain ⟨q, hq, -, -, -, hp⟩ := drawBox_grid png hwf row col width height hbox
  have hb := hbox
  unfold BoxInBounds at hb
  refine ⟨q, hq, ?_, ?_⟩
  · intro r c hper hne
    have hin : png.InGrid r c := by
      unfold OnPerimeter at hper
      unfold PNG.InGrid
      omega
    rw [hp r c hin, if_pos (mem_drawBoxCalls_of_perimeter _ _ _ _ _ _ hb.2.2.1 hb.2.2.2.1
      hper hne)]
  · have hin : png.InGrid (row + height) (col + width) := by
      unfold PNG.InGrid
      omega
    rw [hp _ _ hin, if_neg]
    intro hm
    exact (drawBoxCalls_onPerimeter _ _ _ _ _ _ hb.2.2.1 hb.2.2.2.1 hm).2 ⟨rfl, rfl⟩

/-! ## Sub-lists of the candidates are already sorted -/

theorem lexLt_pairwise_nodup (M : List Region) (h : M.Pairwise Region.lexLt) : M.Nodup := by
  refine h.imp ?_
  intro A B hlt he
  subst he
  exact lexLt_irrefl A hlt

theorem sortPotential_of_sorted (M : List Region) (hM : ∀ R ∈ M, R.IsInt)
    (hs : M.Pairwise Region.lexLt) :
    sortPotential (M.map Region.encode) = M.map Region.encode := by
  rw [sortPotential_encode M hM]
  congr 1
  exact List.Sorted.insertionSort_eq hs

theorem sublist_candidates (maskWidth maskHeight mainWidth mainHeight : Int)
    (hw0 : 0 < maskWidth) (hh0 : 0 < maskHeight) (hW : IsInt mainWidth) (hH : IsInt mainHeight)
    (S : List Str) (hS : S.Sublist (genCords maskWidth maskHeight mainWidth mainHeight)) :
    ∃ M : List Region, S = M.map Region.encode ∧
      M.Sublist (candidateRegionsSpec maskWidth maskHeight mainWidth mainHeight) ∧
      (∀ R ∈ M, R.IsInt) ∧ M.Pairwise Region.lexLt := by
  by_cases hfit : maskWidth ≤ mainWidth ∧ maskHeight ≤ mainHeight
  · obtain ⟨hw, hh⟩ := hfit
    rw [genCords_eq_spec _ _ _ _ hw hh] at hS
    obtain ⟨M, hM, rfl⟩ := List.sublist_map_iff.1 hS
    exact ⟨M, rfl, hM,
      fun R hR => candidateRegionsSpec_isInt _ _ _ _ hw0 hh0 hw hh hW hH R (hM.subset hR),
      (candidateRegionsSpec_pairwise _ _ _ _).sublist hM⟩
  · have hnil : genCords maskWidth maskHeight mainWidth mainHeight = [] :=
      genCords_eq_nil _ _ _ _ (by omega)
    rw [hnil] at hS
    have : S = [] := List.eq_nil_of_sublist_nil hS
    subst this
    exact ⟨[], rfl, List.nil_sublist _, by simp, List.Pairwise.nil⟩

theorem pairwise_customSort_of_lexLt (M : List Region) (hM : ∀ R ∈ M, R.IsInt)
    (hs : M.Pairwise Region.lexLt) :
    (M.map Region.encode).Pairwise (fun a b => customSort a b = true) := by
  rw [List.pairwise_map]
  refine hs.imp_of_mem ?_
  intro A B hA hB hlt
  exact (customSort_encode_iff A B (hM A hA) (hM B hB)).2 hlt

/-! ## The accepted list as a sub-list of the ranked list -/

theorem acceptAll_sublist : ∀ (L accepted : List Region),
    ∃ S : List Region, acceptAll accepted L = accepted ++ S ∧ S.Sublist L := by
  intro L
  induction L with
  | nil => intro accepted; exact ⟨[], by simp [acceptAll], List.Sublist.refl _⟩
  | cons R rest ih =>
    intro accepted
    obtain ⟨S, hS, hsub⟩ := ih (acceptStep accepted R)
    show ∃ S, acceptAll (acceptStep accepted R) rest = accepted ++ S ∧ S.Sublist (R :: rest)
    by_cases hall : accepted.all (fun A => !A.overlaps R) = true
    · have hstep : acceptStep accepted R = accepted ++ [R] := by simp [acceptStep, hall]
      refine ⟨R :: S, ?_, hsub.cons₂ R⟩
      rw [hS, hstep]; simp
    · have hstep : acceptStep accepted R = accepted := by simp [acceptStep, hall]
      refine ⟨S, ?_, hsub.cons R⟩
      rw [hS, hstep]

theorem acceptAll_cons_nil (R : Region) (rest : List Region) :
    ∃ S : List Region, acceptAll [] (R :: rest) = R :: S ∧ S.Sublist rest := by
  obtain ⟨S, hS, hsub⟩ := acceptAll_sublist rest [R]
  refine ⟨S, ?_, hsub⟩
  show acceptAll (acceptStep [] R) rest = R :: S
  have : acceptStep [] R = [R] := by simp [acceptStep]
  rw [this, hS]; rfl

theorem acceptStep_eq_append_iff (accepted : List Region) (R : Region) :
    acceptStep accepted R = accepted ++ [R] ↔ ∀ A ∈ accepted, A.overlaps R = false := by
  unfold acceptStep
  by_cases hall : accepted.all (fun A => !A.overlaps R) = true
  · rw [if_pos hall]
    have := List.all_eq_true.1 hall
    exact ⟨fun _ A hA => by simpa using this A hA, fun _ => rfl⟩
  · rw [if_neg hall]
    constructor
    · intro h
      have := congrArg List.length h
      simp at this
    · intro h
      exfalso
      apply hall
      rw [List.all_eq_true]
      intro A hA
      simp [h A hA]

theorem acceptStep_eq_self_of_overlap (accepted : List Region) (R : Region)
    (h : ∃ A ∈ accepted, A.overlaps R = true) : acceptStep accepted R = accepted := by
  obtain ⟨A, hA, ho⟩ := h
  exact acceptStep_of_overlap accepted A R hA ho

theorem mem_take_index (L : List Region) (j : Nat) (A : Region) (h : A ∈ L.take j) :
    ∃ (i : Nat) (hi : i < L.length), i < j ∧ L[i] = A := by
  obtain ⟨i, hi, he⟩ := List.getElem_of_mem h
  have hlen : i < min j L.length := by simpa using hi
  refine ⟨i, by omega, by omega, ?_⟩
  rw [← he, List.getElem_take]

/-! ## The threshold at one hundred percent -/

theorem readByte_isSome (buf : List Byte) (i : Int) (h0 : 0 ≤ i)
    (hlt : i < (buf.length : Int)) : ∃ v, readByte buf i = some v := by
  have hn : i.toNat < buf.length := by omega
  refine ⟨buf[i.toNat], ?_⟩
  simp [readByte, h0, hn]

theorem getPixel_isSome_of_inGrid (p : PNG) (hwf : p.WellFormed) (row col : Int)
    (hin : p.InGrid row col) : (p.getPixel row col).isSome = true := by
  obtain ⟨hw0, hh0, hlen⟩ := hwf
  obtain ⟨hr0, hr1, hc0, hc1⟩ := hin
  have hb := grid_index_bounds p.width p.height row col ⟨hr0, hr1⟩ ⟨hc0, hc1⟩
  simp only [PNG.getBufferSize] at hlen
  rw [← hlen] at hb
  unfold PNG.getPixel
  simp only
  generalize row * p.width + col = k at hb
  obtain ⟨v0, e0⟩ := readByte_isSome p.flatImageBuffer (k * 4) (by omega) (by omega)
  obtain ⟨v1, e1⟩ := readByte_isSome p.flatImageBuffer (k * 4 + 1) (by omega) (by omega)
  obtain ⟨v2, e2⟩ := readByte_isSome p.flatImageBuffer (k * 4 + 2) (by omega) (by omega)
  obtain ⟨v3, e3⟩ := readByte_isSome p.flatImageBuffer (k * 4 + 3) (by omega) (by omega)
  rw [e0, e1, e2, e3]
  rfl

/-! ## The regions accepted by the pipeline -/

theorem scoreLoop_fold_sublist (tolerance : Int) (mainI maskI : PNG) (matchPercent : Int) :
    ∀ (coords init res : List Str),
    coords.foldlM
      (fun potential c =>
        match getMatchCount c tolerance mainI maskI with
        | none => none
        | some netM =>
          if passesThreshold netM maskI matchPercent then some (potential ++ [c])
          else some potential)
      init = some res →
    ∃ S : List Str, res = init ++ S ∧ S.Sublist coords := by
  intro coords
  induction coords with
  | nil =>
    intro init res h
    simp only [List.foldlM_nil, Option.pure_def, Option.some.injEq] at h
    exact ⟨[], by simp [h], List.Sublist.refl _⟩
  | cons c rest ih =>
    intro init res h
    rw [List.foldlM_cons] at h
    cases hg : getMatchCount c tolerance mainI maskI with
    | none => rw [hg] at h; cases h
    | some netM =>
      rw [hg] at h
      by_cases hp : passesThreshold netM maskI matchPercent = true
      · simp only [hp, if_true, Option.bind_eq_bind, Option.some_bind] at h
        obtain ⟨S, hS, hsub⟩ := ih _ _ h
        exact ⟨c :: S, by rw [hS]; simp, hsub.cons₂ c⟩
      · simp only [hp, Bool.false_eq_true, if_false, Option.bind_eq_bind,
          Option.some_bind] at h
        obtain ⟨S, hS, hsub⟩ := ih _ _ h
        exact ⟨S, hS, hsub.cons c⟩

theorem imageSearch_some (mainI maskI : PNG) (matchPercent tolerance : Int)
    (hw0 : 0 < maskI.getWidth) (hh0 : 0 < maskI.getHeight)
    (hW : IsInt mainI.getWidth) (hH : IsInt mainI.getHeight) (accepted : List Str)
    (h : imageSearch mainI maskI matchPercent tolerance = some accepted) :
    ∃ M : List Region,
      M.Sublist (candidateRegionsSpec maskI.getWidth maskI.getHeight mainI.getWidth
        mainI.getHeight) ∧
      (∀ R ∈ M, R.IsInt) ∧ M.Pairwise Region.lexLt ∧
      scoreLoop (genCords maskI.getWidth maskI.getHeight mainI.getWidth mainI.getHeight)
        tolerance mainI maskI matchPercent = some (M.map Region.encode) ∧
      accepted = (acceptAll [] M).map Region.encode := by
  unfold imageSearch at h
  cases hs : scoreLoop (genCords maskI.getWidth maskI.getHeight mainI.getWidth mainI.getHeight)
      tolerance mainI maskI matchPercent with
  | none => rw [hs] at h; cases h
  | some potential =>
    rw [hs] at h
    simp only at h
    have hs2 := hs
    unfold scoreLoop at hs2
    obtain ⟨S, hS, hsub⟩ := scoreLoop_fold_sublist tolerance mainI maskI matchPercent _ _ _ hs2
    rw [List.nil_append] at hS
    subst hS
    obtain ⟨M, rfl, hM, hint, hsorted⟩ := sublist_candidates _ _ _ _ hw0 hh0 hW hH _ hsub
    rw [sortPotential_of_sorted M hint hsorted, suppress_encode M hint] at h
    simp only [Option.some.injEq] at h
    exact ⟨M, hM, hint, hsorted, rfl, h.symm⟩

theorem isOverlap_same_size (maskWidth maskHeight : Int) (A B : Region)
    (hA1 : A.bottomRow = A.topRow + maskHeight) (hA2 : A.bottomCol = A.topCol + maskWidth)
    (hB1 : B.bottomRow = B.topRow + maskHeight) (hB2 : B.bottomCol = B.topCol + maskWidth) :
    isOverlap A.topRow A.topCol A.bottomRow A.bottomCol
        B.topRow B.topCol B.bottomRow B.bottomCol = true ↔
      |A.topRow - B.topRow| ≤ maskHeight ∧ |A.topCol - B.topCol| ≤ maskWidth := by
  simp only [isOverlap, Bool.or_eq_true, decide_eq_true_eq, hA1, hA2, hB1, hB2, abs_le]
  split_ifs <;> simp only [Bool.false_eq_true, false_iff, true_iff] <;> omega

/-! ## The report -/

theorem replaceLoop_eq : ∀ (rest done : Str) (fuel : Nat), rest.length < fuel →
    replaceLoop fuel done.length (done ++ rest) = done ++ commaSpec rest := by
  intro rest
  induction rest with
  | nil =>
    intro done fuel hf
    obtain ⟨f, rfl⟩ : ∃ f, fuel = f + 1 := ⟨fuel - 1, by omega⟩
    simp [replaceLoop, commaSpec]
  | cons c cs ih =>
    intro done fuel hf
    obtain ⟨f, rfl⟩ : ∃ f, fuel = f + 1 := ⟨fuel - 1, by omega⟩
    simp only [List.length_cons] at hf
    have hlt : done.length < (done ++ c :: cs).length := by simp
    have hget : (done ++ c :: cs)[done.length]? = some c := by
      rw [List.getElem?_append_right (le_refl _)]
      simp
    have htake : (done ++ c :: cs).take done.length = done := List.take_left _ _
    have hdrop : (done ++ c :: cs).drop (done.length + 1) = cs := by
      have : (done ++ c :: cs) = (done ++ [c]) ++ cs := by simp
      rw [this]
      exact List.drop_left' (by simp)
    unfold replaceLoop
    rw [if_pos hlt, hget]
    by_cases hc : c = ' '
    · subst hc
      rw [if_pos rfl, htake, hdrop]
      have e1 : done.length + 1 + 1 = (done ++ ", ".toList).length := by simp
      rw [e1, ih (done ++ ", ".toList) f (by omega)]
      simp [commaSpec]
    · have hne : ¬ (some c = some ' ') := by simpa using hc
      rw [if_neg hne]
      have e1 : done.length + 1 = (done ++ [c]).length := by simp
      have e2 : done ++ c :: cs = (done ++ [c]) ++ cs := by simp
      rw [e1, e2, ih (done ++ [c]) f (by omega)]
      simp [commaSpec, hc]

theorem replaceWithComma_eq (s : Str) : replaceWithComma s = commaSpec s := by
  have := replaceLoop_eq s [] (s.length + 1) (by omega)
  simpa [replaceWithComma] using this

theorem commaSpec_append (a b : Str) : commaSpec (a ++ b) = commaSpec a ++ commaSpec b := by
  simp [commaSpec, List.flatMap_append]

theorem commaSpec_of_no_space : ∀ (s : Str), (∀ c ∈ s, c ≠ ' ') → commaSpec s = s := by
  intro s
  induction s with
  | nil => intro _; rfl
  | cons c cs ih =>
    intro h
    have hc := h c (List.mem_cons_self _ _)
    have := ih (fun x hx => h x (List.mem_cons_of_mem _ hx))
    simp only [commaSpec, List.flatMap_cons, hc, if_false] at this ⊢
    rw [this]
    rfl

theorem natToString_digits (n : Nat) : ∀ c ∈ natToString n, isDigit c = true := by
  induction n using Nat.strong_induction_on with
  | _ n ih =>
    intro c hc
    by_cases h : n < 10
    · rw [natToString_small h] at hc
      simp only [List.mem_singleton] at hc
      subst hc
      exact (digitChar_facts n h).1
    · rw [natToString_large (by omega)] at hc
      rcases List.mem_append.1 hc with hc | hc
      · exact ih (n / 10) (by omega) c hc
      · simp only [List.mem_singleton] at hc
        subst hc
        exact (digitChar_facts (n % 10) (by omega)).1

theorem to_string_chars (n : Int) : ∀ c ∈ to_string n, c ≠ ' ' ∧ c ≠ '\n' := by
  have hd : ∀ c : Char, isDigit c = true → c ≠ ' ' ∧ c ≠ '\n' := by
    intro c h
    simp only [isDigit, Bool.and_eq_true, decide_eq_true_eq] at h
    have e1 : ' '.toNat = 32 := by decide
    have e2 : '\n'.toNat = 10 := by decide
    constructor
    · rintro rfl; omega
    · rintro rfl; omega
  intro c hc
  unfold to_string at hc
  split_ifs at hc
  · rcases List.mem_cons.1 hc with rfl | hc
    · exact ⟨by decide, by decide⟩
    · exact hd c (natToString_digits _ c hc)
  · exact hd c (natToString_digits _ c hc)

theorem replaceWithComma_encode (R : Region) :
    "sub-image matched at: ".toList ++ replaceWithComma R.encode = matchLine R := by
  have h1 := commaSpec_of_no_space (to_string R.topRow) (fun c hc => (to_string_chars _ c hc).1)
  have h2 := commaSpec_of_no_space (to_string R.topCol) (fun c hc => (to_string_chars _ c hc).1)
  have h3 := commaSpec_of_no_space (to_string R.bottomRow)
    (fun c hc => (to_string_chars _ c hc).1)
  have h4 := commaSpec_of_no_space (to_string R.bottomCol)
    (fun c hc => (to_string_chars _ c hc).1)
  have hs : commaSpec " ".toList = ", ".toList := by decide
  rw [replaceWithComma_eq]
  simp only [Region.encode, regionString, commaSpec_append, h1, h2, h3, h4, hs, matchLine,
    List.append_assoc]

theorem printMatches_fold : ∀ (L : List Region) (out : Str) (n : Int),
    (L.map Region.encode).foldl
      (fun (st : Str × Int) m =>
        (st.1 ++ "sub-image matched at: ".toList ++ replaceWithComma m ++ ['\n'], st.2 + 1))
      (out, n) =
    (out ++ (L.map (fun R => matchLine R ++ ['\n'])).flatten, n + (L.length : Int)) := by
  intro L
  induction L with
  | nil => intro out n; simp
  | cons R rest ih =>
    intro out n
    simp only [List.map_cons, List.foldl_cons, List.flatten_cons, List.length_cons]
    rw [ih, List.append_assoc out, replaceWithComma_encode]
    simp only [List.append_assoc, Prod.mk.injEq, true_and]
    push_cast
    ring

theorem printMatches_encode (L : List Region) :
    printMatches (L.map Region.encode) =
      ((L.map matchLine ++ [countLine L.length]).map (fun l => l ++ ['\n'])).flatten := by
  have h := printMatches_fold L [] 0
  unfold printMatches
  simp only [h]
  simp only [List.nil_append, zero_add, List.map_append, List.map_map,
    List.map_cons, List.map_nil, List.flatten_append, List.flatten_cons, List.flatten_nil,
    List.append_nil, countLine, List.append_assoc, Function.comp_def]

theorem matchLine_no_newline (R : Region) : '\n' ∉ matchLine R := by
  have h0 : '\n' ∉ "sub-image matched at: ".toList := by decide
  have h1 : '\n' ∉ ", ".toList := by decide
  have h2 : ∀ n : Int, '\n' ∉ to_string n := fun n hc => (to_string_chars n _ hc).2 rfl
  simp only [matchLine, List.mem_append, not_or]
  exact ⟨⟨⟨⟨⟨⟨⟨h0, h2 _⟩, h1⟩, h2 _⟩, h1⟩, h2 _⟩, h1⟩, h2 _⟩

theorem countLine_no_newline (n : Nat) : '\n' ∉ countLine n := by
  have h0 : '\n' ∉ "Number of matches: ".toList := by decide
  simp only [countLine, List.mem_append, not_or]
  exact ⟨h0, fun hc => (to_string_chars _ _ hc).2 rfl⟩

/-! ## The claims -/

/-- C2: feeding well-formed region strings in order to `addToMatches`, from an
empty accepted list, always yields an accepted list, and no two entries at
distinct positions of that list overlap according to `isOverlap`. -/
theorem suppress_no_overlap (L : List Region) (hL : ∀ R ∈ L, R.IsInt) :
    ∃ accepted : List Region,
      suppress (L.map Region.encode) = some (accepted.map Region.encode) ∧
      ∀ (i j : Nat) (hi : i < accepted.length) (hj : j < accepted.length), i ≠ j →
        isOverlap accepted[i].topRow accepted[i].topCol accepted[i].bottomRow
          accepted[i].bottomCol accepted[j].topRow accepted[j].topCol
          accepted[j].bottomRow accepted[j].bottomCol = false :=
  ⟨acceptAll [] L, suppress_encode L hL, fun i j hi hj hij =>
    pairwise_distinct_positions _ (acceptAll_pairwise L [] List.Pairwise.nil) i j hi hj hij⟩

theorem suppress_no_overlap_witness :
    (∀ R ∈ chain3, R.IsInt) ∧
    ∃ accepted : List Region,
      suppress (chain3.map Region.encode) = some (accepted.map Region.encode) ∧
      ∀ (i j : Nat) (hi : i < accepted.length) (hj : j < accepted.length), i ≠ j →
        isOverlap accepted[i].topRow accepted[i].topCol accepted[i].bottomRow
          accepted[i].bottomCol accepted[j].topRow accepted[j].topCol
          accepted[j].bottomRow accepted[j].bottomCol = false :=
  ⟨by decide, suppress_no_overlap chain3 (by decide)⟩

/-- C3: `isOverlap(R, A)` is true iff NOT (`R.bottomRow < A.topRow` or
`A.bottomRow < R.topRow` or `R.bottomCol < A.topCol` or `A.bottomCol < R.topCol`):
closed-interval rectangle intersection. -/
theorem isOverlap_iff_closed_intersection
    (rTopRow rTopCol rBottomRow rBottomCol aTopRow aTopCol aBottomRow aBottomCol : Int) :
    isOverlap rTopRow rTopCol rBottomRow rBottomCol aTopRow aTopCol aBottomRow aBottomCol
        = true ↔
      ¬ (rBottomRow < aTopRow ∨ aBottomRow < rTopRow ∨ rBottomCol < aTopCol ∨
          aBottomCol < rTopCol) := by
  simp only [isOverlap, Bool.or_eq_true, decide_eq_true_eq]
  split_ifs <;> simp only [Bool.false_eq_true, false_iff, true_iff] <;> omega

/-- C7: on encoded regions `customSort(A, B)` is true iff A's tuple
`(topRow, topCol, bottomRow, bottomCol)` is lexicographically strictly less
than B's; it is irreflexive, transitive, and for `A ≠ B` exactly one of
`customSort(A, B)`, `customSort(B, A)` holds. -/
theorem customSort_strict_total_order (A B C : Region) (hA : A.IsInt) (hB : B.IsInt)
    (hC : C.IsInt) :
    (customSort A.encode B.encode = true ↔ A.lexLt B) ∧
    customSort A.encode A.encode = false ∧
    (customSort A.encode B.encode = true → customSort B.encode C.encode = true →
      customSort A.encode C.encode = true) ∧
    (A ≠ B →
      (customSort A.encode B.encode = true ∨ customSort B.encode A.encode = true) ∧
      ¬ (customSort A.encode B.encode = true ∧ customSort B.encode A.encode = true)) := by
  have hne : A ≠ B → A.topRow ≠ B.topRow ∨ A.topCol ≠ B.topCol ∨
      A.bottomRow ≠ B.bottomRow ∨ A.bottomCol ≠ B.bottomCol := by
    intro h
    by_contra hc
    apply h
    cases A; cases B
    simp only [Region.mk.injEq]
    simp only [ne_eq, not_or, not_not] at hc
    exact hc
  refine ⟨customSort_encode_iff A B hA hB, ?_, ?_, ?_⟩
  · rw [Bool.eq_false_iff, ne_eq, customSort_encode_iff A A hA hA]
    unfold Region.lexLt; omega
  · rw [customSort_encode_iff A B hA hB, customSort_encode_iff B C hB hC,
      customSort_encode_iff A C hA hC]
    unfold Region.lexLt; omega
  · intro h
    have h4 := hne h
    rw [customSort_encode_iff A B hA hB, customSort_encode_iff B A hB hA]
    unfold Region.lexLt; omega

theorem customSort_strict_total_order_witness :
    (Region.IsInt ⟨0, 9, 2, 11⟩ ∧ Region.IsInt ⟨0, 10, 2, 12⟩ ∧ Region.IsInt ⟨1, 0, 3, 2⟩) ∧
    ((customSort (Region.encode ⟨0, 9, 2, 11⟩) (Region.encode ⟨0, 10, 2, 12⟩) = true ↔
        Region.lexLt ⟨0, 9, 2, 11⟩ ⟨0, 10, 2, 12⟩) ∧
      customSort (Region.encode ⟨0, 9, 2, 11⟩) (Region.encode ⟨0, 9, 2, 11⟩) = false ∧
      (customSort (Region.encode ⟨0, 9, 2, 11⟩) (Region.encode ⟨0, 10, 2, 12⟩) = true →
        customSort (Region.encode ⟨0, 10, 2, 12⟩) (Region.encode ⟨1, 0, 3, 2⟩) = true →
        customSort (Region.encode ⟨0, 9, 2, 11⟩) (Region.encode ⟨1, 0, 3, 2⟩) = true) ∧
      ((⟨0, 9, 2, 11⟩ : Region) ≠ ⟨0, 10, 2, 12⟩ →
        (customSort (Region.encode ⟨0, 9, 2, 11⟩) (Region.encode ⟨0, 10, 2, 12⟩) = true ∨
          customSort (Region.encode ⟨0, 10, 2, 12⟩) (Region.encode ⟨0, 9, 2, 11⟩) = true) ∧
        ¬ (customSort (Region.encode ⟨0, 9, 2, 11⟩) (Region.encode ⟨0, 10, 2, 12⟩) = true ∧
          customSort (Region.encode ⟨0, 10, 2, 12⟩) (Region.encode ⟨0, 9, 2, 11⟩) = true))) :=
  ⟨by decide, customSort_strict_total_order ⟨0, 9, 2, 11⟩ ⟨0, 10, 2, 12⟩ ⟨1, 0, 3, 2⟩
    (by decide) (by decide) (by decide)⟩

/-- C8, as amended: in a ranked list of well-formed regions fed in order to
`addToMatches`, for positions `i < j` whose regions conflict, if the region at
position `i` is in the final accepted list then the region at position `j` is
discarded when it is processed (the accepted list is the same before and after
it), and, when it differs from the region at position `i`, it is not in the
final accepted list. -/
theorem accepted_earlier_region_wins (L : List Region) (hL : ∀ R ∈ L, R.IsInt) :
    ∃ accepted : List Str,
      suppress (L.map Region.encode) = some accepted ∧
      ∀ (i j : Nat) (hi : i < L.length) (hj : j < L.length), i < j →
        L[i].overlaps L[j] = true → L[i].encode ∈ accepted →
        suppress ((L.take (j + 1)).map Region.encode) =
            suppress ((L.take j).map Region.encode) ∧
          (L[i] ≠ L[j] → L[j].encode ∉ accepted) := by
  refine ⟨(acceptAll [] L).map Region.encode, suppress_encode L hL, ?_⟩
  intro i j hi hj hij hov hmi
  have hint := acceptAll_isInt L [] hL (by simp)
  obtain ⟨A, hA, hAe⟩ := List.mem_map.1 hmi
  have eA : A = L[i] :=
    encode_injective A L[i] (hint A hA) (hL _ (List.getElem_mem hi)) hAe
  subst eA
  constructor
  · have h1 : ∀ R ∈ L.take (j + 1), R.IsInt := fun R hR => hL R (List.mem_of_mem_take hR)
    have h2 : ∀ R ∈ L.take j, R.IsInt := fun R hR => hL R (List.mem_of_mem_take hR)
    rw [suppress_encode _ h1, suppress_encode _ h2, acceptAll_take_succ L j hj]
    have hmem : L[i] ∈ acceptAll [] (L.take j) :=
      acceptAll_take_mono L L[i] (i + 1) j hij (accepted_at_own_position L i hi hA)
    rw [acceptStep_of_overlap _ L[i] L[j] hmem hov]
  · intro hne hmj
    obtain ⟨B, hB, hBe⟩ := List.mem_map.1 hmj
    have eB : B = L[j] :=
      encode_injective B L[j] (hint B hB) (hL _ (List.getElem_mem hj)) hBe
    subst eB
    have := pairwise_mem_ne _ (acceptAll_pairwise L [] List.Pairwise.nil) _ _ hA hB hne
    rw [this] at hov
    cases hov

theorem accepted_earlier_region_wins_witness :
    (∀ R ∈ chain3, R.IsInt) ∧
    ∃ accepted : List Str,
      suppress (chain3.map Region.encode) = some accepted ∧
      ∀ (i j : Nat) (hi : i < chain3.length) (hj : j < chain3.length), i < j →
        chain3[i].overlaps chain3[j] = true → chain3[i].encode ∈ accepted →
        suppress ((chain3.take (j + 1)).map Region.encode) =
            suppress ((chain3.take j).map Region.encode) ∧
          (chain3[i] ≠ chain3[j] → chain3[j].encode ∉ accepted) :=
  ⟨by decide, accepted_earlier_region_wins chain3 (by decide)⟩

/-- C8, counterexample: the regions at positions 1 and 2 of the ranked list
`0 0 2 2`, `0 2 2 4`, `0 4 2 6` conflict, and the later one is in the final
accepted list, because the earlier one was itself discarded. -/
theorem later_conflicting_region_is_accepted :
    isOverlap 0 2 2 4 0 4 2 6 = true ∧
    suppress ["0 0 2 2".toList, "0 2 2 4".toList, "0 4 2 6".toList] =
      some ["0 0 2 2".toList, "0 4 2 6".toList] ∧
    "0 4 2 6".toList ∈ ["0 0 2 2".toList, "0 4 2 6".toList] := by
  decide

/-- C10, as amended: with tolerance 0 the within-tolerance test of
`getMatchCount` is false for every pixel and background, equal channels
included, since the comparison is strict; with tolerance 1 it is true iff red,
green and blue each equal the background's. -/
theorem withinTolerance_zero_and_one (pix background : Pixel) :
    withinTolerance pix background 0 = false ∧
    (withinTolerance pix background 1 = true ↔
      pix.red = background.red ∧ pix.green = background.green ∧
        pix.blue = background.blue) := by
  constructor
  · simp only [withinTolerance, Bool.and_eq_false_iff, decide_eq_false_iff_not, not_lt]
    exact Or.inl (Or.inl (abs_nonneg _))
  · simp only [withinTolerance, Bool.and_eq_true, decide_eq_true_eq, abs_lt, Fin.ext_iff]
    omega

/-- C10, counterexample: with tolerance 0 a pixel whose three colour channels
equal the background's is not within tolerance. -/
theorem tolerance_zero_rejects_equal_channels :
    ¬ (withinTolerance ⟨5, 6, 7, 255⟩ ⟨5, 6, 7, 0⟩ 0 = true ↔
      ((5 : Byte) = 5 ∧ (6 : Byte) = 6 ∧ (7 : Byte) = 7)) := by
  decide

/-- C4: for positive mask dimensions not exceeding the main dimensions,
`genCords` returns exactly the regions `(r, c, r + maskHeight, c + maskWidth)`
for `r = 0..mainHeight - maskHeight` (outer) and `c = 0..mainWidth - maskWidth`
(inner), in row-major order, each encoded as its four integers in decimal
separated by single spaces. -/
theorem genCords_row_major (maskWidth maskHeight mainWidth mainHeight : Int)
    (hw0 : 0 < maskWidth) (hh0 : 0 < maskHeight)
    (hw : maskWidth ≤ mainWidth) (hh : maskHeight ≤ mainHeight) :
    genCords maskWidth maskHeight mainWidth mainHeight =
      (candidateRegionsSpec maskWidth maskHeight mainWidth mainHeight).map
        (fun R => List.intercalate [' ']
          [to_string R.topRow, to_string R.topCol, to_string R.bottomRow,
            to_string R.bottomCol]) := by
  have _h := And.intro hw0 hh0
  rw [genCords_eq_spec _ _ _ _ hw hh]
  apply List.map_congr_left
  intro R _
  simp [Region.encode, regionString, List.intercalate, List.intersperse]

theorem genCords_row_major_witness :
    ((0 : Int) < 2 ∧ (0 : Int) < 2 ∧ (2 : Int) ≤ 4 ∧ (2 : Int) ≤ 3) ∧
    genCords 2 2 4 3 =
      (candidateRegionsSpec 2 2 4 3).map
        (fun R => List.intercalate [' ']
          [to_string R.topRow, to_string R.topCol, to_string R.bottomRow,
            to_string R.bottomCol]) :=
  ⟨by decide, genCords_row_major 2 2 4 3 (by decide) (by decide) (by decide) (by decide)⟩

/-- C1: for an in-bounds placement `(topRow, topCol)`, a tolerance `tol >= 0`
and `bg` the result of `computeBackgroundPixel` for that placement,
`getMatchCount` returns the sum over all `(row, col)` of
`[0, maskHeight) x [0, maskWidth)` of `+1` when `withinTolerance ==
isBackgroundMaskPixel` and `-1` otherwise. -/
theorem getMatchCount_is_signed_sum (mainIMG maskIMG : PNG) (R : Region) (hR : R.IsInt)
    (tol : Int) (htol : 0 ≤ tol) (bg : Pixel)
    (hin : ReadsInBounds mainIMG maskIMG R.topRow R.topCol maskIMG.getHeight maskIMG.getWidth)
    (hbg : computeBackgroundPixel mainIMG maskIMG R.topRow R.topCol maskIMG.getHeight
      maskIMG.getWidth = some bg) :
    getMatchCount R.encode tol mainIMG maskIMG =
      some ((positions maskIMG.getHeight.toNat maskIMG.getWidth.toNat).map (fun p =>
        if withinTolerance
            (mainIMG.pixelAt ((p.1 : Int) + R.topRow) ((p.2 : Int) + R.topCol)) bg tol
          = decide ((maskIMG.pixelAt p.1 p.2).rgba = 0xFF000000)
        then (1 : Int) else -1)).sum := by
  have _h := htol
  exact getMatchCount_eq mainIMG maskIMG R hR tol bg hin hbg

theorem getMatchCount_is_signed_sum_witness :
    (Region.IsInt ⟨0, 1, 2, 3⟩ ∧ (0 : Int) ≤ 12 ∧
      ReadsInBounds mainA maskA 0 1 maskA.getHeight maskA.getWidth ∧
      computeBackgroundPixel mainA maskA 0 1 maskA.getHeight maskA.getWidth
        = some ⟨75, 49, 40, 0⟩) ∧
    getMatchCount (Region.encode ⟨0, 1, 2, 3⟩) 12 mainA maskA =
      some ((positions maskA.getHeight.toNat maskA.getWidth.toNat).map (fun p =>
        if withinTolerance (mainA.pixelAt ((p.1 : Int) + 0) ((p.2 : Int) + 1)) ⟨75, 49, 40, 0⟩ 12
          = decide ((maskA.pixelAt p.1 p.2).rgba = 0xFF000000)
        then (1 : Int) else -1)).sum :=
  ⟨by decide, getMatchCount_is_signed_sum mainA maskA ⟨0, 1, 2, 3⟩ (by decide) 12 (by decide)
    ⟨75, 49, 40, 0⟩ (by decide) (by decide)⟩

/-- C5: in `imageSearch`, for a percentage in `[0, 100]` whose product with
the mask area fits in an `int`, a candidate region is put in the
potential-match list iff its `getMatchCount` is greater than
`(maskWidth * maskHeight * matchPercent) / 100` with truncating division; the
list keeps the candidates in their order. -/
theorem potential_iff_above_threshold (coords : List Str) (tolerance matchPercent : Int)
    (mainI maskI : PNG)
    (hdef : ∀ c ∈ coords, (getMatchCount c tolerance mainI maskI).isSome = true)
    (hp : 0 ≤ matchPercent ∧ matchPercent ≤ 100)
    (hfit : IsInt (maskI.getWidth * maskI.getHeight * matchPercent)) :
    ∃ potential : List Str,
      scoreLoop coords tolerance mainI maskI matchPercent = some potential ∧
      potential.Sublist coords ∧
      ∀ c, c ∈ potential ↔
        c ∈ coords ∧ ∃ netM : Int, getMatchCount c tolerance mainI maskI = some netM ∧
          netM > (maskI.getWidth * maskI.getHeight * matchPercent).tdiv 100 := by
  have _h := And.intro hp hfit
  refine ⟨_, (scoreLoop_fold tolerance mainI maskI matchPercent coords hdef []), ?_, ?_⟩
  · simp only [List.nil_append]
    exact List.filter_sublist _
  · intro c
    simp only [List.nil_append, List.mem_filter]
    constructor
    · rintro ⟨hc, hq⟩
      obtain ⟨netM, hn⟩ := Option.isSome_iff_exists.1 (hdef c hc)
      rw [hn] at hq
      exact ⟨hc, netM, hn, by simpa [passesThreshold] using hq⟩
    · rintro ⟨hc, netM, hn, hgt⟩
      refine ⟨hc, ?_⟩
      rw [hn]
      simpa [passesThreshold] using hgt

theorem potential_iff_above_threshold_witness :
    ((∀ c ∈ genCords 2 2 3 2, (getMatchCount c 12 mainA maskA).isSome = true) ∧
      ((0 : Int) ≤ 50 ∧ (50 : Int) ≤ 100) ∧ IsInt (maskA.getWidth * maskA.getHeight * 50)) ∧
    ∃ potential : List Str,
      scoreLoop (genCords 2 2 3 2) 12 mainA maskA 50 = some potential ∧
      potential.Sublist (genCords 2 2 3 2) ∧
      ∀ c, c ∈ potential ↔
        c ∈ genCords 2 2 3 2 ∧ ∃ netM : Int, getMatchCount c 12 mainA maskA = some netM ∧
          netM > (maskA.getWidth * maskA.getHeight * 50).tdiv 100 :=
  ⟨by decide, potential_iff_above_threshold (genCords 2 2 3 2) 12 50 mainA maskA
    (by decide) (by decide) (by decide)⟩

/-- C9, as amended: for a 10x10 main image of one colour and a 2x2 mask whose
pixels all equal the sentinel, with tolerance 10 and matchPercent 50, `genCords`
yields 81 candidates, `getMatchCount` returns the maximum score 4 for every one
of them, and after sorting and suppression the accepted list holds exactly the
nine regions with top-left corner in `{0, 3, 6} x {0, 3, 6}`, `(0,0,2,2)` first. -/
theorem scenario_one_nine_regions (r g b a : Byte) :
    (genCords 2 2 10 10).length = 81 ∧
    (∀ c ∈ genCords 2 2 10 10,
      getMatchCount c 10 (solid 10 10 r g b a) (solid 2 2 0 0 0 255) = some 4) ∧
    imageSearch (solid 10 10 r g b a) (solid 2 2 0 0 0 255) 50 10 =
      some ["0 0 2 2".toList, "0 3 2 5".toList, "0 6 2 8".toList,
        "3 0 5 2".toList, "3 3 5 5".toList, "3 6 5 8".toList,
        "6 0 8 2".toList, "6 3 8 5".toList, "6 6 8 8".toList] :=
  ⟨by decide, solid_scores_all r g b a, solid_imageSearch r g b a⟩

/-- C9, counterexample: for the 10x10 main image of colour `(9, 9, 9, 255)` the
accepted list is not the single region `(0,0,2,2)`; the region `(0,3,2,5)`,
which does not overlap it, is accepted as well. -/
theorem scenario_one_not_single_region :
    imageSearch (solid 10 10 9 9 9 255) (solid 2 2 0 0 0 255) 50 10 ≠ some ["0 0 2 2".toList] ∧
    isOverlap 0 0 2 2 0 3 2 5 = false ∧
    ∃ accepted, imageSearch (solid 10 10 9 9 9 255) (solid 2 2 0 0 0 255) 50 10 = some accepted ∧
      "0 3 2 5".toList ∈ accepted := by
  rw [solid_imageSearch 9 9 9 255]
  exact ⟨by decide, by decide, scenarioOneAccepted, rfl, by decide⟩

/-- C20: for every tolerance above 255, every main pixel and every background
pixel, the within-tolerance test of `getMatchCount` is true. -/
theorem withinTolerance_above_255 (pix background : Pixel) (tol : Int) (htol : 255 < tol) :
    withinTolerance pix background tol = true := by
  have h1 := pix.red.isLt
  have h2 := pix.green.isLt
  have h3 := pix.blue.isLt
  have h4 := background.red.isLt
  have h5 := background.green.isLt
  have h6 := background.blue.isLt
  simp only [withinTolerance, Bool.and_eq_true, decide_eq_true_eq, abs_lt]
  omega

theorem withinTolerance_above_255_witness :
    (255 : Int) < 256 ∧ withinTolerance ⟨0, 255, 7, 255⟩ ⟨255, 0, 7, 0⟩ 256 = true :=
  ⟨by decide, withinTolerance_above_255 ⟨0, 255, 7, 255⟩ ⟨255, 0, 7, 0⟩ 256 (by decide)⟩

/-- C12: for a mask and an in-bounds placement, the divisor `count` of
`computeBackgroundPixel` is zero, and the division undefined, iff no mask pixel
equals the sentinel `0xFF000000`; when at least one mask pixel equals it,
`count >= 1` and the function returns a pixel. -/
theorem background_divisor_zero_iff (img1 mask : PNG) (startRow startCol maxRow maxCol : Int)
    (hin : ReadsInBounds img1 mask startRow startCol maxRow maxCol) :
    ∃ acc : BgAcc,
      bgLoop img1 mask startRow startCol maxRow maxCol = some acc ∧
      (acc.count = 0 ↔
        ∀ row, row < maxRow.toNat → ∀ col, col < maxCol.toNat →
          (mask.pixelAt row col).rgba ≠ 0xFF000000) ∧
      (computeBackgroundPixel img1 mask startRow startCol maxRow maxCol = none ↔
        acc.count = 0) ∧
      ((∃ row, row < maxRow.toNat ∧ ∃ col, col < maxCol.toNat ∧
          (mask.pixelAt row col).rgba = 0xFF000000) →
        1 ≤ acc.count ∧
          (computeBackgroundPixel img1 mask startRow startCol maxRow maxCol).isSome = true) := by
  have hz : ((backgroundPositions mask maxRow maxCol).length : Int) = 0 ↔
      backgroundPositions mask maxRow maxCol = [] := by
    rw [← List.length_eq_zero]; omega
  have hnil := backgroundPositions_eq_nil_iff mask maxRow maxCol
  have hnone := computeBackgroundPixel_eq_none_iff img1 mask startRow startCol maxRow maxCol hin
  refine ⟨_, bgLoop_eq _ _ _ _ _ _ hin, ?_, ?_, ?_⟩
  · exact hz.trans hnil
  · exact hnone.trans hz.symm
  · rintro ⟨row, hrow, col, hcol, hb⟩
    have hne : backgroundPositions mask maxRow maxCol ≠ [] := by
      intro h
      exact (hnil.1 h) row hrow col hcol hb
    constructor
    · have := List.length_pos.2 hne
      simp only
      omega
    · rw [computeBackgroundPixel_eq _ _ _ _ _ _ hin hne]; rfl

theorem background_divisor_zero_iff_witness :
    ReadsInBounds mainA maskA 0 1 2 2 ∧
    ∃ acc : BgAcc,
      bgLoop mainA maskA 0 1 2 2 = some acc ∧
      (acc.count = 0 ↔
        ∀ row, row < (2 : Int).toNat → ∀ col, col < (2 : Int).toNat →
          (maskA.pixelAt row col).rgba ≠ 0xFF000000) ∧
      (computeBackgroundPixel mainA maskA 0 1 2 2 = none ↔ acc.count = 0) ∧
      ((∃ row, row < (2 : Int).toNat ∧ ∃ col, col < (2 : Int).toNat ∧
          (maskA.pixelAt row col).rgba = 0xFF000000) →
        1 ≤ acc.count ∧ (computeBackgroundPixel mainA maskA 0 1 2 2).isSome = true) :=
  ⟨by decide, background_divisor_zero_iff mainA maskA 0 1 2 2 (by decide)⟩

/-- C14: suppression is idempotent: for every list of well-formed regions,
running `addToMatches` over the accepted list it produced, from an empty
accepted list again, returns that same accepted list. -/
theorem suppress_idempotent (L : List Region) (hL : ∀ R ∈ L, R.IsInt) :
    ∃ accepted : List Str,
      suppress (L.map Region.encode) = some accepted ∧ suppress accepted = some accepted := by
  refine ⟨(acceptAll [] L).map Region.encode, suppress_encode L hL, ?_⟩
  rw [suppress_encode _ (acceptAll_isInt L [] hL (by simp)), acceptAll_idempotent]

theorem suppress_idempotent_witness :
    (∀ R ∈ chain3, R.IsInt) ∧
    ∃ accepted : List Str,
      suppress (chain3.map Region.encode) = some accepted ∧
        suppress accepted = some accepted :=
  ⟨by decide, suppress_idempotent chain3 (by decide)⟩

/-- C15: whenever `getMatchCount` is defined, its result lies in
`[-(maskWidth * maskHeight), maskWidth * maskHeight]`, because it is
`matchPixCount - mismatchPixCount` with both counts non-negative and
`matchPixCount + mismatchPixCount = maskWidth * maskHeight`. -/
theorem getMatchCount_within_area (region : Str) (tol : Int) (mainIMG maskIMG : PNG) (s : Int)
    (h : getMatchCount region tol mainIMG maskIMG = some s) :
    -(maskIMG.getWidth * maskIMG.getHeight) ≤ s ∧ s ≤ maskIMG.getWidth * maskIMG.getHeight ∧
    ∃ matchPixCount mismatchPixCount : Int,
      0 ≤ matchPixCount ∧ 0 ≤ mismatchPixCount ∧
      matchPixCount + mismatchPixCount = maskIMG.getWidth * maskIMG.getHeight ∧
      s = matchPixCount - mismatchPixCount := by
  obtain ⟨m, mm, h1, h2, h3, h4⟩ := getMatchCount_some region tol mainIMG maskIMG s h
  refine ⟨by omega, by omega, m, mm, h1, h2, h3, h4⟩

theorem getMatchCount_within_area_witness :
    getMatchCount "0 1 2 3".toList 12 mainA maskA = some (-2) ∧
    (-(maskA.getWidth * maskA.getHeight) ≤ -2 ∧ (-2 : Int) ≤ maskA.getWidth * maskA.getHeight ∧
    ∃ matchPixCount mismatchPixCount : Int,
      0 ≤ matchPixCount ∧ 0 ≤ mismatchPixCount ∧
      matchPixCount + mismatchPixCount = maskA.getWidth * maskA.getHeight ∧
      (-2 : Int) = matchPixCount - mismatchPixCount) :=
  ⟨by decide, getMatchCount_within_area "0 1 2 3".toList 12 mainA maskA (-2) (by decide)⟩

/-- C16: for positive mask dimensions not exceeding the main dimensions (all of
them values of `int`), `genCords` returns exactly
`(mainHeight - maskHeight + 1) * (mainWidth - maskWidth + 1)` regions and no two
of them are equal. -/
theorem genCords_count_and_distinct (maskWidth maskHeight mainWidth mainHeight : Int)
    (hw0 : 0 < maskWidth) (hh0 : 0 < maskHeight)
    (hw : maskWidth ≤ mainWidth) (hh : maskHeight ≤ mainHeight)
    (hW : IsInt mainWidth) (hH : IsInt mainHeight) :
    ((genCords maskWidth maskHeight mainWidth mainHeight).length : Int) =
      (mainHeight - maskHeight + 1) * (mainWidth - maskWidth + 1) ∧
    ∀ (i j : Nat) (hi : i < (genCords maskWidth maskHeight mainWidth mainHeight).length)
      (hj : j < (genCords maskWidth maskHeight mainWidth mainHeight).length), i ≠ j →
      (genCords maskWidth maskHeight mainWidth mainHeight)[i] ≠
        (genCords maskWidth maskHeight mainWidth mainHeight)[j] := by
  constructor
  · rw [genCords_eq_spec _ _ _ _ hw hh, List.length_map]
    exact candidateRegionsSpec_length _ _ _ _ hw hh
  · intro i j hi hj hij he
    exact hij ((List.Nodup.getElem_inj_iff
      (genCords_nodup _ _ _ _ hw0 hh0 hw hh hW hH)).1 he)

theorem genCords_count_and_distinct_witness :
    ((0 : Int) < 2 ∧ (0 : Int) < 2 ∧ (2 : Int) ≤ 4 ∧ (2 : Int) ≤ 3 ∧ IsInt 4 ∧ IsInt 3) ∧
    (((genCords 2 2 4 3).length : Int) = (3 - 2 + 1) * (4 - 2 + 1) ∧
    ∀ (i j : Nat) (hi : i < (genCords 2 2 4 3).length)
      (hj : j < (genCords 2 2 4 3).length), i ≠ j →
      (genCords 2 2 4 3)[i] ≠ (genCords 2 2 4 3)[j]) :=
  ⟨by decide, genCords_count_and_distinct 2 2 4 3 (by decide) (by decide) (by decide)
    (by decide) (by decide) (by decide)⟩

/-- C17: for positive dimensions with the mask wider or taller than the main
image, `genCords` returns the empty sequence, so `imageSearch` scores nothing
and accepts no match, and `drawFinal` draws no box: its output is the main
image. -/
theorem mask_exceeding_main_yields_nothing (mainI maskI : PNG) (matchPercent tolerance : Int)
    (hpos : 0 < maskI.getWidth ∧ 0 < maskI.getHeight ∧ 0 < mainI.getWidth ∧
      0 < mainI.getHeight)
    (h : mainI.getWidth < maskI.getWidth ∨ mainI.getHeight < maskI.getHeight) :
    genCords maskI.getWidth maskI.getHeight mainI.getWidth mainI.getHeight = [] ∧
    scoreLoop (genCords maskI.getWidth maskI.getHeight mainI.getWidth mainI.getHeight)
      tolerance mainI maskI matchPercent = some [] ∧
    imageSearch mainI maskI matchPercent tolerance = some [] ∧
    drawFinal mainI maskI [] = some mainI := by
  have _h := hpos
  have hnil := genCords_eq_nil _ _ _ _ h
  refine ⟨hnil, ?_, ?_, rfl⟩
  · rw [hnil]; rfl
  · unfold imageSearch
    rw [hnil]
    rfl

theorem mask_exceeding_main_yields_nothing_witness :
    ((0 < mainA.getWidth ∧ 0 < mainA.getHeight ∧ 0 < maskA.getWidth ∧ 0 < maskA.getHeight) ∧
      (maskA.getWidth < mainA.getWidth ∨ maskA.getHeight < mainA.getHeight)) ∧
    (genCords mainA.getWidth mainA.getHeight maskA.getWidth maskA.getHeight = [] ∧
    scoreLoop (genCords mainA.getWidth mainA.getHeight maskA.getWidth maskA.getHeight)
      32 maskA mainA 75 = some [] ∧
    imageSearch maskA mainA 75 32 = some [] ∧
    drawFinal maskA mainA [] = some maskA) :=
  ⟨by decide, mask_exceeding_main_yields_nothing maskA mainA 75 32 (by decide) (by decide)⟩

/-- C13: for two lists of distinct well-formed regions that are permutations
of one another, any two outputs that a sort with `customSort` may produce (a
permutation of the input in which no later element compares below an earlier
one) are equal; the sorted lists of the model are equal, and running
`addToMatches` over them yields the identical accepted list. -/
theorem accepted_list_deterministic (L1 L2 : List Region) (hL : ∀ R ∈ L1, R.IsInt)
    (hd : L1.Nodup) (hp : L1.Perm L2) :
    (∀ S1 S2 : List Str,
      S1.Perm (L1.map Region.encode) → S1.Pairwise (fun a b => customSort b a = false) →
      S2.Perm (L2.map Region.encode) → S2.Pairwise (fun a b => customSort b a = false) →
      S1 = S2) ∧
    sortPotential (L1.map Region.encode) = sortPotential (L2.map Region.encode) ∧
    ∃ accepted : List Str,
      suppress (sortPotential (L1.map Region.encode)) = some accepted ∧
      suppress (sortPotential (L2.map Region.encode)) = some accepted := by
  have hL2 : ∀ R ∈ L2, R.IsInt := fun R hR => hL R (hp.mem_iff.2 hR)
  have hsort := sortPotential_perm L1 L2 hL hd hp
  refine ⟨?_, hsort, ?_⟩
  · intro S1 S2 p1 s1 p2 s2
    rw [sorted_output_unique L1 hL hd S1 p1 s1,
      sorted_output_unique L2 hL2 (hp.nodup hd) S2 p2 s2, hsort]
  · rw [← hsort, sortPotential_encode L1 hL]
    have hs := suppress_encode (L1.insertionSort (fun A B => A.lexLt B))
      (fun R hR => hL R ((List.mem_insertionSort _).1 hR))
    exact ⟨_, hs, hs⟩

theorem accepted_list_deterministic_witness :
    ((∀ R ∈ chain3, R.IsInt) ∧ chain3.Nodup ∧ chain3.Perm chain3.reverse) ∧
    ((∀ S1 S2 : List Str,
      S1.Perm (chain3.map Region.encode) →
      S1.Pairwise (fun a b => customSort b a = false) →
      S2.Perm (chain3.reverse.map Region.encode) →
      S2.Pairwise (fun a b => customSort b a = false) →
      S1 = S2) ∧
    sortPotential (chain3.map Region.encode) =
      sortPotential (chain3.reverse.map Region.encode) ∧
    ∃ accepted : List Str,
      suppress (sortPotential (chain3.map Region.encode)) = some accepted ∧
      suppress (sortPotential (chain3.reverse.map Region.encode)) = some accepted) :=
  ⟨⟨by decide, by decide, (List.reverse_perm chain3).symm⟩,
    accepted_list_deterministic chain3 chain3.reverse (by decide) (by decide)
      (List.reverse_perm chain3).symm⟩

/-- C18: for a well-formed image and an in-bounds box, `drawBox` returns an
image of the same width and height in which every pixel that is not on the
perimeter of the rectangle with corners `(row, col)` and
`(row + height, col + width)` is unchanged, and every pixel that changed is
`(255, 0, 0, 255)`. -/
theorem drawBox_frame (png : PNG) (hwf : png.WellFormed) (row col width height : Int)
    (hbox : BoxInBounds png row col width height) :
    ∃ q : PNG, drawBox png row col width height = some q ∧
      q.getWidth = png.getWidth ∧ q.getHeight = png.getHeight ∧
      ∀ r c : Int, png.InGrid r c →
        (¬ OnPerimeter row col width height r c → q.getPixel r c = png.getPixel r c) ∧
        (q.getPixel r c ≠ png.getPixel r c → q.getPixel r c = some ⟨255, 0, 0, 255⟩) := by
  obtain ⟨q, hq, -, hw, hh, hp⟩ := drawBox_grid png hwf row col width height hbox
  refine ⟨q, hq, hw, hh, ?_⟩
  intro r c hrc
  rw [hp r c hrc]
  by_cases hm : (r, c) ∈ drawBoxCalls row col width height
  · rw [if_pos hm]
    exact ⟨fun hn => absurd
      (drawBoxCalls_onPerimeter row col width height r c hbox.2.2.1 hbox.2.2.2.1 hm).1 hn,
      fun _ => rfl⟩
  · rw [if_neg hm]
    exact ⟨fun _ => rfl, fun hn => absurd rfl hn⟩

theorem drawBox_frame_witness :
    (mainA.WellFormed ∧ BoxInBounds mainA 0 1 1 1) ∧
    ∃ q : PNG, drawBox mainA 0 1 1 1 = some q ∧
      q.getWidth = mainA.getWidth ∧ q.getHeight = mainA.getHeight ∧
      ∀ r c : Int, mainA.InGrid r c →
        (¬ OnPerimeter 0 1 1 1 r c → q.getPixel r c = mainA.getPixel r c) ∧
        (q.getPixel r c ≠ mainA.getPixel r c → q.getPixel r c = some ⟨255, 0, 0, 255⟩) :=
  ⟨by decide, drawBox_frame mainA (by decide) 0 1 1 1 (by decide)⟩

/-- C19: for positive dimensions, every region `(r, c, ..)` returned by
`genCords` is read back by `read4`, every call `setRed(row, col)` that
`drawBox(img, r, c, maskWidth - 1, maskHeight - 1)` makes satisfies
`0 <= row < mainHeight` and `0 <= col < mainWidth`, the four bytes it writes lie
inside a buffer of `mainHeight * mainWidth * 4` bytes, and on every well-formed
image of that size `drawBox` returns an image. -/
theorem annotation_in_bounds (maskWidth maskHeight mainWidth mainHeight : Int)
    (hw0 : 0 < maskWidth) (hh0 : 0 < maskHeight) (hW0 : 0 < mainWidth) (hH0 : 0 < mainHeight)
    (hW : IsInt mainWidth) (hH : IsInt mainHeight) :
    ∀ s ∈ genCords maskWidth maskHeight mainWidth mainHeight,
      ∃ r c xEnd yEnd : Int, read4 s = some (r, c, xEnd, yEnd) ∧
        (∀ rc ∈ drawBoxCalls r c (maskWidth - 1) (maskHeight - 1),
          0 ≤ rc.1 ∧ rc.1 < mainHeight ∧ 0 ≤ rc.2 ∧ rc.2 < mainWidth ∧
          0 ≤ (rc.1 * mainWidth + rc.2) * 4 ∧
          (rc.1 * mainWidth + rc.2) * 4 + 3 < mainHeight * mainWidth * 4) ∧
        (∀ img : PNG, img.WellFormed → img.width = mainWidth → img.height = mainHeight →
          (drawBox img r c (maskWidth - 1) (maskHeight - 1)).isSome = true) := by
  have _h := And.intro hW0 hH0
  intro s hs
  by_cases hfit : maskWidth ≤ mainWidth ∧ maskHeight ≤ mainHeight
  · obtain ⟨hw, hh⟩ := hfit
    rw [genCords_eq_spec _ _ _ _ hw hh] at hs
    obtain ⟨R, hR, rfl⟩ := List.mem_map.1 hs
    have hint := candidateRegionsSpec_isInt _ _ _ _ hw0 hh0 hw hh hW hH R hR
    obtain ⟨r0, c0, hr0, hc0, rfl⟩ := (mem_candidateRegionsSpec _ _ _ _ R).1 hR
    have hbox : ∀ img : PNG, img.width = mainWidth → img.height = mainHeight →
        BoxInBounds img r0 c0 (maskWidth - 1) (maskHeight - 1) := by
      intro img e1 e2
      simp only [BoxInBounds, e1, e2]
      omega
    refine ⟨_, _, _, _, read4_encode _ hint, ?_, ?_⟩
    · intro rc hrc
      have hg := drawBoxCalls_inGrid ⟨mainWidth, mainHeight, []⟩ r0 c0 (maskWidth - 1)
        (maskHeight - 1) (hbox _ rfl rfl) rc hrc
      simp only [PNG.InGrid] at hg
      have hb := grid_index_bounds mainWidth mainHeight rc.1 rc.2 ⟨hg.1, hg.2.1⟩
        ⟨hg.2.2.1, hg.2.2.2⟩
      exact ⟨hg.1, hg.2.1, hg.2.2.1, hg.2.2.2, by omega, hb.2⟩
    · intro img hwf e1 e2
      obtain ⟨q, hq, -⟩ := drawBox_grid img hwf r0 c0 (maskWidth - 1) (maskHeight - 1)
        (hbox img e1 e2)
      rw [hq]; rfl
  · have hnil : genCords maskWidth maskHeight mainWidth mainHeight = [] :=
      genCords_eq_nil _ _ _ _ (by omega)
    rw [hnil] at hs
    cases hs

theorem annotation_in_bounds_witness :
    ((0 : Int) < 2 ∧ (0 : Int) < 2 ∧ (0 : Int) < 3 ∧ (0 : Int) < 2 ∧ IsInt 3 ∧ IsInt 2) ∧
    ∀ s ∈ genCords 2 2 3 2,
      ∃ r c xEnd yEnd : Int, read4 s = some (r, c, xEnd, yEnd) ∧
        (∀ rc ∈ drawBoxCalls r c (2 - 1) (2 - 1),
          0 ≤ rc.1 ∧ rc.1 < 2 ∧ 0 ≤ rc.2 ∧ rc.2 < 3 ∧
          0 ≤ (rc.1 * 3 + rc.2) * 4 ∧ (rc.1 * 3 + rc.2) * 4 + 3 < 2 * 3 * 4) ∧
        (∀ img : PNG, img.WellFormed → img.width = 3 → img.height = 2 →
          (drawBox img r c (2 - 1) (2 - 1)).isSome = true) :=
  ⟨by decide, annotation_in_bounds 2 2 3 2 (by decide) (by decide) (by decide) (by decide)
    (by decide) (by decide)⟩

/-- C11, evaluation at a failing input: on a 3x3 black image,
`drawBox(img, 0, 0, 2 - 1, 2 - 1)` for a 2x2 mask makes the pixels `(0, 0)`,
`(0, 1)` and `(1, 0)` red and leaves the bottom-right corner `(1, 1)` of the
rectangle black. -/
theorem drawBox_leaves_bottom_right_corner :
    ∃ q : PNG, drawBox (solid 3 3 0 0 0 255) 0 0 (2 - 1) (2 - 1) = some q ∧
      q.getPixel 0 0 = some ⟨255, 0, 0, 255⟩ ∧
      q.getPixel 0 1 = some ⟨255, 0, 0, 255⟩ ∧
      q.getPixel 1 0 = some ⟨255, 0, 0, 255⟩ ∧
      q.getPixel (0 + 2 - 1) (0 + 2 - 1) = some ⟨0, 0, 0, 255⟩ :=
  ⟨_, rfl, by decide⟩

/-- C26: for a well-formed image and an in-bounds call
`drawBox(img, row, col, width, height)` with `width >= 0` and `height >= 0`, no
call of `setRed` that `drawBox` makes is at `(row + height, col + width)`, and
the pixel there, the bottom-right corner of the box, has its original value in
the image that `drawBox` returns. -/
theorem drawBox_keeps_bottom_right_corner (png : PNG) (hwf : png.WellFormed)
    (row col width height : Int) (hbox : BoxInBounds png row col width height)
    (hw : 0 ≤ width) (hh : 0 ≤ height) :
    drawBox png row col width height =
      (drawBoxCalls row col width height).foldlM
        (fun (p : PNG) rc => p.setRed rc.1 rc.2) png ∧
    (row + height, col + width) ∉ drawBoxCalls row col width height ∧
    ∃ q : PNG, drawBox png row col width height = some q ∧
      q.getPixel (row + height) (col + width) =
        png.getPixel (row + height) (col + width) := by
  refine ⟨drawBox_eq_calls png row col width height, ?_, ?_⟩
  · intro hm
    exact (drawBoxCalls_onPerimeter _ _ _ _ _ _ hw hh hm).2 ⟨rfl, rfl⟩
  · obtain ⟨q, hq, -, hc⟩ := drawBox_perimeter png hwf row col width height hbox
    exact ⟨q, hq, hc⟩

theorem drawBox_keeps_bottom_right_corner_witness :
    (mainA.WellFormed ∧ BoxInBounds mainA 0 1 1 1 ∧ (0 : Int) ≤ 1 ∧ (0 : Int) ≤ 1) ∧
    (drawBox mainA 0 1 1 1 =
      (drawBoxCalls 0 1 1 1).foldlM (fun (p : PNG) rc => p.setRed rc.1 rc.2) mainA ∧
    ((0 : Int) + 1, (1 : Int) + 1) ∉ drawBoxCalls 0 1 1 1 ∧
    ∃ q : PNG, drawBox mainA 0 1 1 1 = some q ∧
      q.getPixel (0 + 1) (1 + 1) = mainA.getPixel (0 + 1) (1 + 1)) :=
  ⟨by decide, drawBox_keeps_bottom_right_corner mainA (by decide) 0 1 1 1 (by decide)
    (by decide) (by decide)⟩

/-- C28: for positive dimensions (the main ones values of `int`), the output of
`genCords` is strictly ascending under `customSort`: `customSort(coords[i],
coords[j])` is true for all positions `i < j`; hence sorting any
order-preserving sub-list of the candidates with `customSort` leaves it
unchanged, in the model of the sort and for every output that meets the
contract of the sort. -/
theorem genCords_strictly_ascending (maskWidth maskHeight mainWidth mainHeight : Int)
    (hw0 : 0 < maskWidth) (hh0 : 0 < maskHeight) (hW0 : 0 < mainWidth) (hH0 : 0 < mainHeight)
    (hW : IsInt mainWidth) (hH : IsInt mainHeight) :
    (∀ (i j : Nat) (hi : i < (genCords maskWidth maskHeight mainWidth mainHeight).length)
      (hj : j < (genCords maskWidth maskHeight mainWidth mainHeight).length), i < j →
      customSort (genCords maskWidth maskHeight mainWidth mainHeight)[i]
        (genCords maskWidth maskHeight mainWidth mainHeight)[j] = true) ∧
    ∀ S : List Str, S.Sublist (genCords maskWidth maskHeight mainWidth mainHeight) →
      sortPotential S = S ∧
      ∀ S2 : List Str, S2.Perm S → S2.Pairwise (fun a b => customSort b a = false) →
        S2 = S := by
  have _h := And.intro hW0 hH0
  constructor
  · obtain ⟨M, hM, -, hint, hs⟩ := sublist_candidates maskWidth maskHeight mainWidth
      mainHeight hw0 hh0 hW hH _ (List.Sublist.refl _)
    have hp := pairwise_customSort_of_lexLt M hint hs
    rw [← hM] at hp
    intro i j hi hj hij
    exact (List.pairwise_iff_getElem.1 hp) i j hi hj hij
  · intro S hS
    obtain ⟨M, rfl, -, hint, hs⟩ := sublist_candidates maskWidth maskHeight mainWidth
      mainHeight hw0 hh0 hW hH S hS
    have hsort := sortPotential_of_sorted M hint hs
    refine ⟨hsort, ?_⟩
    intro S2 hp hs2
    rw [sorted_output_unique M hint (lexLt_pairwise_nodup M hs) S2 hp hs2, hsort]

theorem genCords_strictly_ascending_witness :
    ((0 : Int) < 2 ∧ (0 : Int) < 2 ∧ (0 : Int) < 4 ∧ (0 : Int) < 3 ∧ IsInt 4 ∧ IsInt 3) ∧
    ((∀ (i j : Nat) (hi : i < (genCords 2 2 4 3).length)
      (hj : j < (genCords 2 2 4 3).length), i < j →
      customSort (genCords 2 2 4 3)[i] (genCords 2 2 4 3)[j] = true) ∧
    ∀ S : List Str, S.Sublist (genCords 2 2 4 3) →
      sortPotential S = S ∧
      ∀ S2 : List Str, S2.Perm S → S2.Pairwise (fun a b => customSort b a = false) →
        S2 = S) :=
  ⟨by decide, genCords_strictly_ascending 2 2 4 3 (by decide) (by decide) (by decide)
    (by decide) (by decide) (by decide)⟩

/-- C23: for every ranked list of well-formed regions fed in order to
`addToMatches`, the accepted list is a subsequence of the ranked list (only
regions of the input, in the order in which they were ranked), and for a
non-empty input its first entry is the first ranked region. -/
theorem accepted_is_subsequence (L : List Region) (hL : ∀ R ∈ L, R.IsInt) :
    ∃ accepted : List Str,
      suppress (L.map Region.encode) = some accepted ∧
      accepted.Sublist (L.map Region.encode) ∧
      ∀ (R : Region) (rest : List Region), L = R :: rest →
        accepted.head? = some R.encode := by
  refine ⟨(acceptAll [] L).map Region.encode, suppress_encode L hL, ?_, ?_⟩
  · obtain ⟨S, hS, hsub⟩ := acceptAll_sublist L []
    rw [hS]
    exact hsub.map _
  · intro R rest hLe
    subst hLe
    obtain ⟨S, hS, -⟩ := acceptAll_cons_nil R rest
    rw [hS]
    rfl

theorem accepted_is_subsequence_witness :
    (∀ R ∈ chain3, R.IsInt) ∧
    ∃ accepted : List Str,
      suppress (chain3.map Region.encode) = some accepted ∧
      accepted.Sublist (chain3.map Region.encode) ∧
      ∀ (R : Region) (rest : List Region), chain3 = R :: rest →
        accepted.head? = some R.encode :=
  ⟨by decide, accepted_is_subsequence chain3 (by decide)⟩

/-- C22: in a ranked list of well-formed regions processed in order by
`addToMatches` from an empty accepted list, with `before` the accepted list
ahead of position `j`, `after` the list once position `j` is processed and
`final` the list at the end: the region at position `j` is appended iff it
overlaps none of the regions of `before`; if it overlaps one of them the list
is left as it was; `final` is `after` followed by regions of later positions
only; and a region that overlaps no region at another position is in `final`. -/
theorem greedy_acceptance_rule (L : List Region) (hL : ∀ R ∈ L, R.IsInt) (j : Nat)
    (hj : j < L.length) :
    ∃ before after later final : List Region,
      suppress ((L.take j).map Region.encode) = some (before.map Region.encode) ∧
      suppress ((L.take (j + 1)).map Region.encode) = some (after.map Region.encode) ∧
      suppress (L.map Region.encode) = some (final.map Region.encode) ∧
      (after = before ++ [L[j]] ↔
        ∀ A ∈ before, isOverlap A.topRow A.topCol A.bottomRow A.bottomCol
          L[j].topRow L[j].topCol L[j].bottomRow L[j].bottomCol = false) ∧
      ((∃ A ∈ before, isOverlap A.topRow A.topCol A.bottomRow A.bottomCol
          L[j].topRow L[j].topCol L[j].bottomRow L[j].bottomCol = true) → after = before) ∧
      (final = after ++ later ∧ later.Sublist (L.drop (j + 1))) ∧
      ((∀ (i : Nat) (hi : i < L.length), i ≠ j →
          isOverlap L[i].topRow L[i].topCol L[i].bottomRow L[i].bottomCol
            L[j].topRow L[j].topCol L[j].bottomRow L[j].bottomCol = false) →
        L[j] ∈ final) := by
  have h1 : ∀ R ∈ L.take j, R.IsInt := fun R hR => hL R (List.mem_of_mem_take hR)
  have h2 : ∀ R ∈ L.take (j + 1), R.IsInt := fun R hR => hL R (List.mem_of_mem_take hR)
  obtain ⟨later, hlater, hsub⟩ := acceptAll_sublist (L.drop (j + 1))
    (acceptAll [] (L.take (j + 1)))
  have hstep := acceptAll_take_succ L j hj
  refine ⟨acceptAll [] (L.take j), acceptAll [] (L.take (j + 1)), later, acceptAll [] L,
    suppress_encode _ h1, suppress_encode _ h2, suppress_encode L hL, ?_, ?_, ?_, ?_⟩
  · rw [hstep]
    exact acceptStep_eq_append_iff _ _
  · intro h
    rw [hstep]
    exact acceptStep_eq_self_of_overlap _ _ h
  · exact ⟨(acceptAll_split L (j + 1)).trans hlater, hsub⟩
  · intro hno
    have hmem : L[j] ∈ acceptAll [] (L.take (j + 1)) := by
      rw [hstep, (acceptStep_eq_append_iff _ _).2]
      · simp
      · intro A hA
        obtain ⟨S, hS, hsubS⟩ := acceptAll_sublist (L.take j) []
        rw [hS, List.nil_append] at hA
        obtain ⟨i, hi, hij, rfl⟩ := mem_take_index L j A (hsubS.subset hA)
        exact hno i hi (by omega)
    rw [acceptAll_split L (j + 1)]
    exact acceptAll_mem _ _ _ hmem

theorem greedy_acceptance_rule_witness :
    ((∀ R ∈ chain3, R.IsInt) ∧ 2 < chain3.length) ∧
    ∃ before after later final : List Region,
      suppress ((chain3.take 2).map Region.encode) = some (before.map Region.encode) ∧
      suppress ((chain3.take (2 + 1)).map Region.encode) = some (after.map Region.encode) ∧
      suppress (chain3.map Region.encode) = some (final.map Region.encode) ∧
      (after = before ++ [chain3[2]] ↔
        ∀ A ∈ before, isOverlap A.topRow A.topCol A.bottomRow A.bottomCol
          chain3[2].topRow chain3[2].topCol chain3[2].bottomRow chain3[2].bottomCol
            = false) ∧
      ((∃ A ∈ before, isOverlap A.topRow A.topCol A.bottomRow A.bottomCol
          chain3[2].topRow chain3[2].topCol chain3[2].bottomRow chain3[2].bottomCol
            = true) → after = before) ∧
      (final = after ++ later ∧ later.Sublist (chain3.drop (2 + 1))) ∧
      ((∀ (i : Nat) (hi : i < chain3.length), i ≠ 2 →
          isOverlap chain3[i].topRow chain3[i].topCol chain3[i].bottomRow chain3[i].bottomCol
            chain3[2].topRow chain3[2].topCol chain3[2].bottomRow chain3[2].bottomCol
              = false) →
        chain3[2] ∈ final) :=
  ⟨by decide, greedy_acceptance_rule chain3 (by decide) 2 (by decide)⟩

/-- C27: for well-formed images with positive dimensions and every region
`(x, y, ..)` returned by `genCords`, the region is read back by `read4`, and
for every `(row, col)` in `[0, maskHeight) x [0, maskWidth)` the main-image read
`getPixel(row + x, col + y)` has `0 <= row + x < mainHeight` and
`0 <= col + y < mainWidth`, its four bytes and those of the mask read
`getPixel(row, col)` lie inside the flat buffers of `height * width * 4` bytes,
so every read of `computeBackgroundPixel` and `getMatchCount` returns a pixel. -/
theorem scoring_reads_in_bounds (mainI maskI : PNG) (hmain : mainI.WellFormed)
    (hmask : maskI.WellFormed)
    (hpos : 0 < maskI.getWidth ∧ 0 < maskI.getHeight ∧ 0 < mainI.getWidth ∧
      0 < mainI.getHeight)
    (hW : IsInt mainI.getWidth) (hH : IsInt mainI.getHeight) :
    ∀ s ∈ genCords maskI.getWidth maskI.getHeight mainI.getWidth mainI.getHeight,
      ∃ x y xEnd yEnd : Int, read4 s = some (x, y, xEnd, yEnd) ∧
        (∀ row col : Int, 0 ≤ row → row < maskI.getHeight → 0 ≤ col → col < maskI.getWidth →
          0 ≤ row + x ∧ row + x < mainI.getHeight ∧ 0 ≤ col + y ∧ col + y < mainI.getWidth ∧
          0 ≤ ((row + x) * mainI.getWidth + (col + y)) * 4 ∧
          ((row + x) * mainI.getWidth + (col + y)) * 4 + 3 < mainI.getBufferSize ∧
          0 ≤ (row * maskI.getWidth + col) * 4 ∧
          (row * maskI.getWidth + col) * 4 + 3 < maskI.getBufferSize) ∧
        ReadsInBounds mainI maskI x y maskI.getHeight maskI.getWidth := by
  obtain ⟨hw0, hh0, hW0, hH0⟩ := hpos
  intro s hs
  by_cases hfit : maskI.getWidth ≤ mainI.getWidth ∧ maskI.getHeight ≤ mainI.getHeight
  · obtain ⟨hw, hh⟩ := hfit
    rw [genCords_eq_spec _ _ _ _ hw hh] at hs
    obtain ⟨R, hR, rfl⟩ := List.mem_map.1 hs
    have hint := candidateRegionsSpec_isInt _ _ _ _ hw0 hh0 hw hh hW hH R hR
    obtain ⟨r0, c0, hr0, hc0, rfl⟩ := (mem_candidateRegionsSpec _ _ _ _ R).1 hR
    have hgrid : ∀ row col : Int, 0 ≤ row → row < maskI.getHeight → 0 ≤ col →
        col < maskI.getWidth →
        mainI.InGrid (row + (r0 : Int)) (col + (c0 : Int)) ∧ maskI.InGrid row col := by
      intro row col h1 h2 h3 h4
      simp only [PNG.getWidth, PNG.getHeight] at *
      simp only [PNG.InGrid]
      omega
    refine ⟨_, _, _, _, read4_encode _ hint, ?_, ?_⟩
    · intro row col h1 h2 h3 h4
      obtain ⟨g1, g2⟩ := hgrid row col h1 h2 h3 h4
      have b1 := grid_index_bounds mainI.width mainI.height _ _ ⟨g1.1, g1.2.1⟩
        ⟨g1.2.2.1, g1.2.2.2⟩
      have b2 := grid_index_bounds maskI.width maskI.height _ _ ⟨g2.1, g2.2.1⟩
        ⟨g2.2.2.1, g2.2.2.2⟩
      simp only [PNG.getWidth, PNG.getHeight, PNG.getBufferSize]
      simp only [PNG.InGrid] at g1
      exact ⟨g1.1, g1.2.1, g1.2.2.1, g1.2.2.2, by omega, b1.2, by omega, b2.2⟩
    · intro row hrow col hcol
      obtain ⟨g1, g2⟩ := hgrid row col (by omega) (by omega) (by omega) (by omega)
      exact ⟨getPixel_isSome_of_inGrid maskI hmask _ _ g2,
        getPixel_isSome_of_inGrid mainI hmain _ _ g1⟩
  · have hnil : genCords maskI.getWidth maskI.getHeight mainI.getWidth mainI.getHeight = [] :=
      genCords_eq_nil _ _ _ _ (by omega)
    rw [hnil] at hs
    cases hs

theorem scoring_reads_in_bounds_witness :
    (mainA.WellFormed ∧ maskA.WellFormed ∧
      (0 < maskA.getWidth ∧ 0 < maskA.getHeight ∧ 0 < mainA.getWidth ∧ 0 < mainA.getHeight) ∧
      IsInt mainA.getWidth ∧ IsInt mainA.getHeight) ∧
    ∀ s ∈ genCords maskA.getWidth maskA.getHeight mainA.getWidth mainA.getHeight,
      ∃ x y xEnd yEnd : Int, read4 s = some (x, y, xEnd, yEnd) ∧
        (∀ row col : Int, 0 ≤ row → row < maskA.getHeight → 0 ≤ col → col < maskA.getWidth →
          0 ≤ row + x ∧ row + x < mainA.getHeight ∧ 0 ≤ col + y ∧ col + y < mainA.getWidth ∧
          0 ≤ ((row + x) * mainA.getWidth + (col + y)) * 4 ∧
          ((row + x) * mainA.getWidth + (col + y)) * 4 + 3 < mainA.getBufferSize ∧
          0 ≤ (row * maskA.getWidth + col) * 4 ∧
          (row * maskA.getWidth + col) * 4 + 3 < maskA.getBufferSize) ∧
        ReadsInBounds mainA maskA x y maskA.getHeight maskA.getWidth :=
  ⟨by decide, scoring_reads_in_bounds mainA maskA (by decide) (by decide) (by decide)
    (by decide) (by decide)⟩

/-- C24: for regions of one mask size (bottom = top + mask dimension),
`isOverlap(A, B)` holds iff `|A.topRow - B.topRow| <= maskHeight` and
`|A.topCol - B.topCol| <= maskWidth`; hence any two regions at distinct
positions of the list accepted by `imageSearch` are candidates whose top-left
corners are more than `maskHeight` apart in rows or more than `maskWidth` apart
in columns: they share no pixel, and they are not two placements that touch
edge to edge in one row or in one column. -/
theorem accepted_regions_far_apart (mainI maskI : PNG) (matchPercent tolerance : Int)
    (hw0 : 0 < maskI.getWidth) (hh0 : 0 < maskI.getHeight)
    (hW : IsInt mainI.getWidth) (hH : IsInt mainI.getHeight) :
    (∀ A B : Region,
      A.bottomRow = A.topRow + maskI.getHeight → A.bottomCol = A.topCol + maskI.getWidth →
      B.bottomRow = B.topRow + maskI.getHeight → B.bottomCol = B.topCol + maskI.getWidth →
      (isOverlap A.topRow A.topCol A.bottomRow A.bottomCol
          B.topRow B.topCol B.bottomRow B.bottomCol = true ↔
        |A.topRow - B.topRow| ≤ maskI.getHeight ∧ |A.topCol - B.topCol| ≤ maskI.getWidth)) ∧
    ∀ accepted : List Str, imageSearch mainI maskI matchPercent tolerance = some accepted →
      ∀ (i j : Nat) (hi : i < accepted.length) (hj : j < accepted.length), i ≠ j →
        ∃ A B : Region, accepted[i] = A.encode ∧ accepted[j] = B.encode ∧
          A.bottomRow = A.topRow + maskI.getHeight ∧
          A.bottomCol = A.topCol + maskI.getWidth ∧
          B.bottomRow = B.topRow + maskI.getHeight ∧
          B.bottomCol = B.topCol + maskI.getWidth ∧
          (maskI.getHeight < |A.topRow - B.topRow| ∨
            maskI.getWidth < |A.topCol - B.topCol|) ∧
          (¬ ∃ r c : Int,
            A.topRow ≤ r ∧ r < A.topRow + maskI.getHeight ∧
            A.topCol ≤ c ∧ c < A.topCol + maskI.getWidth ∧
            B.topRow ≤ r ∧ r < B.topRow + maskI.getHeight ∧
            B.topCol ≤ c ∧ c < B.topCol + maskI.getWidth) ∧
          ¬ (A.topRow = B.topRow ∧ |A.topCol - B.topCol| = maskI.getWidth) ∧
          ¬ (A.topCol = B.topCol ∧ |A.topRow - B.topRow| = maskI.getHeight) := by
  refine ⟨fun A B a1 a2 b1 b2 => isOverlap_same_size _ _ A B a1 a2 b1 b2, ?_⟩
  intro accepted hacc i j hi hj hij
  obtain ⟨M, hM, -, -, -, rfl⟩ := imageSearch_some mainI maskI matchPercent tolerance hw0 hh0
    hW hH accepted hacc
  have hi2 : i < (acceptAll [] M).length := by simpa using hi
  have hj2 : j < (acceptAll [] M).length := by simpa using hj
  have hform : ∀ R ∈ acceptAll [] M,
      R.bottomRow = R.topRow + maskI.getHeight ∧ R.bottomCol = R.topCol + maskI.getWidth := by
    intro R hR
    obtain ⟨S, hS, hsub⟩ := acceptAll_sublist M []
    rw [hS, List.nil_append] at hR
    obtain ⟨r0, c0, -, -, rfl⟩ :=
      (mem_candidateRegionsSpec _ _ _ _ R).1 (hM.subset (hsub.subset hR))
    exact ⟨rfl, rfl⟩
  obtain ⟨a1, a2⟩ := hform _ (List.getElem_mem hi2)
  obtain ⟨b1, b2⟩ := hform _ (List.getElem_mem hj2)
  have hno := pairwise_distinct_positions _ (acceptAll_pairwise M [] List.Pairwise.nil)
    i j hi2 hj2 hij
  have hiff := isOverlap_same_size maskI.getWidth maskI.getHeight _ _ a1 a2 b1 b2
  have hnot : ¬ (|(acceptAll [] M)[i].topRow - (acceptAll [] M)[j].topRow| ≤ maskI.getHeight ∧
      |(acceptAll [] M)[i].topCol - (acceptAll [] M)[j].topCol| ≤ maskI.getWidth) := by
    intro hc
    have := hiff.2 hc
    simp only [Region.overlaps] at hno
    rw [hno] at this
    cases this
  refine ⟨(acceptAll [] M)[i], (acceptAll [] M)[j], by simp, by simp, a1, a2, b1, b2,
    ?_, ?_, ?_, ?_⟩
  · omega
  · rintro ⟨r, c, h1, h2, h3, h4, h5, h6, h7, h8⟩
    apply hnot
    rw [abs_le, abs_le]
    omega
  · rintro ⟨h1, h2⟩
    apply hnot
    rw [h1, h2]
    simp only [sub_self, abs_zero]
    omega
  · rintro ⟨h1, h2⟩
    apply hnot
    rw [h1, h2]
    simp only [sub_self, abs_zero]
    omega

theorem accepted_regions_far_apart_witness :
    (0 < (solid 2 2 0 0 0 255).getWidth ∧ 0 < (solid 2 2 0 0 0 255).getHeight ∧ IsInt (solid 10 10 9 9 9 255).getWidth ∧
      IsInt (solid 10 10 9 9 9 255).getHeight) ∧
    ((∀ A B : Region,
      A.bottomRow = A.topRow + (solid 2 2 0 0 0 255).getHeight → A.bottomCol = A.topCol + (solid 2 2 0 0 0 255).getWidth →
      B.bottomRow = B.topRow + (solid 2 2 0 0 0 255).getHeight → B.bottomCol = B.topCol + (solid 2 2 0 0 0 255).getWidth →
      (isOverlap A.topRow A.topCol A.bottomRow A.bottomCol
          B.topRow B.topCol B.bottomRow B.bottomCol = true ↔
        |A.topRow - B.topRow| ≤ (solid 2 2 0 0 0 255).getHeight ∧ |A.topCol - B.topCol| ≤ (solid 2 2 0 0 0 255).getWidth)) ∧
    ∀ accepted : List Str, imageSearch (solid 10 10 9 9 9 255) (solid 2 2 0 0 0 255) 50 10 = some accepted →
      ∀ (i j : Nat) (hi : i < accepted.length) (hj : j < accepted.length), i ≠ j →
        ∃ A B : Region, accepted[i] = A.encode ∧ accepted[j] = B.encode ∧
          A.bottomRow = A.topRow + (solid 2 2 0 0 0 255).getHeight ∧
          A.bottomCol = A.topCol + (solid 2 2 0 0 0 255).getWidth ∧
          B.bottomRow = B.topRow + (solid 2 2 0 0 0 255).getHeight ∧
          B.bottomCol = B.topCol + (solid 2 2 0 0 0 255).getWidth ∧
          ((solid 2 2 0 0 0 255).getHeight < |A.topRow - B.topRow| ∨
            (solid 2 2 0 0 0 255).getWidth < |A.topCol - B.topCol|) ∧
          (¬ ∃ r c : Int,
            A.topRow ≤ r ∧ r < A.topRow + (solid 2 2 0 0 0 255).getHeight ∧
            A.topCol ≤ c ∧ c < A.topCol + (solid 2 2 0 0 0 255).getWidth ∧
            B.topRow ≤ r ∧ r < B.topRow + (solid 2 2 0 0 0 255).getHeight ∧
            B.topCol ≤ c ∧ c < B.topCol + (solid 2 2 0 0 0 255).getWidth) ∧
          ¬ (A.topRow = B.topRow ∧ |A.topCol - B.topCol| = (solid 2 2 0 0 0 255).getWidth) ∧
          ¬ (A.topCol = B.topCol ∧ |A.topRow - B.topRow| = (solid 2 2 0 0 0 255).getHeight)) :=
  ⟨by decide, accepted_regions_far_apart (solid 10 10 9 9 9 255) (solid 2 2 0 0 0 255) 50 10 (by decide) (by decide)
    (by decide) (by decide)⟩

/-- C21: for every accepted list of region strings of the form `a b c d`,
`printMatches` writes one line per accepted region, in list order, reading
`sub-image matched at: a, b, c, d`, then the final line `Number of matches: N`
with `N` the length of the list; each line ends with one line feed and holds no
other; `replaceWithComma` turns every space of a string into a comma followed
by a space and changes nothing else. -/
theorem printMatches_report (L : List Region) :
    printMatches (L.map Region.encode) =
      ((L.map (fun R =>
          "sub-image matched at: ".toList ++ to_string R.topRow ++ ", ".toList ++
            to_string R.topCol ++ ", ".toList ++ to_string R.bottomRow ++ ", ".toList ++
            to_string R.bottomCol) ++
        ["Number of matches: ".toList ++ to_string (L.length : Int)]).map
        (fun l => l ++ ['\n'])).flatten ∧
    (∀ l ∈ L.map (fun R =>
          "sub-image matched at: ".toList ++ to_string R.topRow ++ ", ".toList ++
            to_string R.topCol ++ ", ".toList ++ to_string R.bottomRow ++ ", ".toList ++
            to_string R.bottomCol) ++
        ["Number of matches: ".toList ++ to_string (L.length : Int)], '\n' ∉ l) ∧
    ∀ s : Str, replaceWithComma s =
      s.flatMap (fun c => if c = ' ' then [',', ' '] else [c]) := by
  refine ⟨printMatches_encode L, ?_, replaceWithComma_eq⟩
  intro l hl
  rcases List.mem_append.1 hl with hl | hl
  · obtain ⟨R, -, rfl⟩ := List.mem_map.1 hl
    exact matchLine_no_newline R
  · simp only [List.mem_singleton] at hl
    subst hl
    exact countLine_no_newline L.length

end MaskSearcher
